import Mathlib

/-! Union-find collection managers: a verification development.

Shallow embedding of `src/main.cpp`:

* `UnionFind` (`find`, `unionSets`) over a `std::unordered_map<int,int>` parent map,
* `CollectionManagerRBTree` (membership in a `std::set<int>`),
* `CollectionManagerBDD` (membership in a `std::unordered_map<int,bool>`).

Keys are C++ `int`s.  No arithmetic is ever performed on a key, only equality tests,
so keys are modelled as `Int`; every `int` value is an `Int`.

The recursive `find` carries explicit fuel: a call that exhausts its fuel stands for a
C++ call that recurses for ever (a cyclic parent map).  The fuel given by `UnionFind.find`
is proved sufficient on every forest, hence on every reachable state.
-/

namespace UF

/-! ## The parent map (`std::unordered_map<int,int>`) -/

/-- The contents of a `std::unordered_map<int,V>`, as an association list with
at most one live binding per key (the first one). -/
abbrev HashMap (V : Type) := List (Int × V)

/-- The C++ lookup `m.find(k)`: `none` stands for `m.end()`. -/
def lookup {V : Type} : HashMap V → Int → Option V
  | [], _ => none
  | (a, b) :: t, k => if a = k then some b else lookup t k

/-- The C++ assignment `m[k] = v`: overwrite the binding of `k`, or create it. -/
def assign {V : Type} : HashMap V → Int → V → HashMap V
  | [], k, v => [(k, v)]
  | (a, b) :: t, k, v => if a = k then (a, v) :: t else (a, b) :: assign t k v

/-- The class `UnionFind`: its only data member is `parent`. -/
structure UnionFind where
  parent : HashMap Int
  deriving DecidableEq

/-- The constructor `UnionFind() {}`. -/
def UnionFind.empty : UnionFind := ⟨[]⟩

/-- The body of `UnionFind::find` on the parent map, with recursion fuel.

```
if (parent.find(x) == parent.end()) parent[x] = x;
if (parent[x] != x) parent[x] = find(parent[x]);
return parent[x];
```
-/
def findFuel : Nat → HashMap Int → Int → Option (HashMap Int × Int)
  | 0, _, _ => none
  | n + 1, parent, x =>
    let parent1 := if lookup parent x = none then assign parent x x else parent
    let px := (lookup parent1 x).getD x
    if px ≠ x then
      match findFuel n parent1 px with
      | none => none
      | some (parent2, r) => some (assign parent2 x r, r)
    else
      some (parent1, px)

/-- The method `UnionFind::find`: the new state and the returned root. -/
def UnionFind.find (u : UnionFind) (x : Int) : Option (UnionFind × Int) :=
  match findFuel (u.parent.length + 1) u.parent x with
  | none => none
  | some (p, r) => some (⟨p⟩, r)

/-- The method `UnionFind::unionSets`. -/
def UnionFind.unionSets (u : UnionFind) (x y : Int) : Option UnionFind :=
  match u.find x with
  | none => none
  | some (u1, rootX) =>
    match u1.find y with
    | none => none
    | some (u2, rootY) =>
      if rootX ≠ rootY then some ⟨assign u2.parent rootX rootY⟩ else some u2

/-! ## The ordered set (`std::set<int>`) -/

/-- The C++ `s.insert(k)` on a `std::set<int>` kept as a strictly increasing list. -/
def setInsert : List Int → Int → List Int
  | [], k => [k]
  | a :: t, k => if k < a then k :: a :: t else if k = a then a :: t else a :: setInsert t k

/-! ## The two collection managers -/

/-- The class `CollectionManagerRBTree` (the mutex carries no data). -/
structure CollectionManagerRBTree where
  unionFind : UnionFind
  rbTree : List Int
  deriving DecidableEq

/-- The class `CollectionManagerBDD` (the mutex carries no data). -/
structure CollectionManagerBDD where
  unionFind : UnionFind
  bddData : HashMap Bool
  deriving DecidableEq

/-- The constructor `CollectionManagerRBTree() : unionFind() {}`. -/
def CollectionManagerRBTree.fresh : CollectionManagerRBTree := ⟨UnionFind.empty, []⟩

/-- The constructor `CollectionManagerBDD() : unionFind() {}`. -/
def CollectionManagerBDD.fresh : CollectionManagerBDD := ⟨UnionFind.empty, []⟩

/-- The state of the loop of `CollectionManagerRBTree::addSet`: the manager, the local
`firstNonDuplicate`, and (ghost) the list of `unionSets` calls made so far. -/
structure LoopRB where
  mgr : CollectionManagerRBTree
  firstNonDuplicate : Int
  calls : List (Int × Int)
  deriving DecidableEq

/-- One iteration of the loop of `CollectionManagerRBTree::addSet`. -/
def CollectionManagerRBTree.addSetStep (s : LoopRB) (elem : Int) : Option LoopRB :=
  if elem ∈ s.mgr.rbTree then
    some s
  else
    let firstNonDuplicate := if s.firstNonDuplicate = -1 then elem else s.firstNonDuplicate
    let rbTree := setInsert s.mgr.rbTree elem
    match s.mgr.unionFind.unionSets firstNonDuplicate elem with
    | none => none
    | some uf => some ⟨⟨uf, rbTree⟩, firstNonDuplicate, s.calls ++ [(firstNonDuplicate, elem)]⟩

/-- The loop `for (int elem : newSet)` of `CollectionManagerRBTree::addSet`. -/
def CollectionManagerRBTree.addSetLoop : LoopRB → List Int → Option LoopRB
  | s, [] => some s
  | s, elem :: rest =>
    match CollectionManagerRBTree.addSetStep s elem with
    | none => none
    | some s1 => CollectionManagerRBTree.addSetLoop s1 rest

/-- The method `CollectionManagerRBTree::addSet`. -/
def CollectionManagerRBTree.addSet (m : CollectionManagerRBTree) (newSet : List Int) :
    Option CollectionManagerRBTree :=
  (CollectionManagerRBTree.addSetLoop ⟨m, -1, []⟩ newSet).map LoopRB.mgr

/-- The state of the loop of `CollectionManagerBDD::addSet`. -/
structure LoopBDD where
  mgr : CollectionManagerBDD
  firstNonDuplicate : Int
  calls : List (Int × Int)
  deriving DecidableEq

/-- One iteration of the loop of `CollectionManagerBDD::addSet`. -/
def CollectionManagerBDD.addSetStep (s : LoopBDD) (elem : Int) : Option LoopBDD :=
  if lookup s.mgr.bddData elem ≠ none then
    some s
  else
    let firstNonDuplicate := if s.firstNonDuplicate = -1 then elem else s.firstNonDuplicate
    let bddData := assign s.mgr.bddData elem true
    match s.mgr.unionFind.unionSets firstNonDuplicate elem with
    | none => none
    | some uf => some ⟨⟨uf, bddData⟩, firstNonDuplicate, s.calls ++ [(firstNonDuplicate, elem)]⟩

/-- The loop `for (int elem : newSet)` of `CollectionManagerBDD::addSet`. -/
def CollectionManagerBDD.addSetLoop : LoopBDD → List Int → Option LoopBDD
  | s, [] => some s
  | s, elem :: rest =>
    match CollectionManagerBDD.addSetStep s elem with
    | none => none
    | some s1 => CollectionManagerBDD.addSetLoop s1 rest

/-- The method `CollectionManagerBDD::addSet`. -/
def CollectionManagerBDD.addSet (m : CollectionManagerBDD) (newSet : List Int) :
    Option CollectionManagerBDD :=
  (CollectionManagerBDD.addSetLoop ⟨m, -1, []⟩ newSet).map LoopBDD.mgr

/-- Successive `addSet` calls on the ordered-set manager, one per batch. -/
def CollectionManagerRBTree.addSets :
    CollectionManagerRBTree → List (List Int) → Option CollectionManagerRBTree
  | m, [] => some m
  | m, b :: bs =>
    match m.addSet b with
    | none => none
    | some m1 => CollectionManagerRBTree.addSets m1 bs

/-- Successive `addSet` calls on the map manager, one per batch. -/
def CollectionManagerBDD.addSets :
    CollectionManagerBDD → List (List Int) → Option CollectionManagerBDD
  | m, [] => some m
  | m, b :: bs =>
    match m.addSet b with
    | none => none
    | some m1 => CollectionManagerBDD.addSets m1 bs

/-! ## Specification vocabulary -/

/-- The parent of `k`: a key with no entry is implicitly its own root. -/
def par (m : HashMap Int) (k : Int) : Int := (lookup m k).getD k

/-- Following `parent` from `k` reaches, after finitely many steps, the self-parent `r`. -/
def HasRoot (m : HashMap Int) (k r : Int) : Prop :=
  ∃ n, (par m)^[n] k = r ∧ par m r = r

/-- The forest predicate on a parent map: every value is itself a key, and following
`parent` from any key reaches, after finitely many steps, a key that is its own parent. -/
def Forest (m : HashMap Int) : Prop :=
  (∀ k v, lookup m k = some v → ∃ w, lookup m v = some w) ∧
  (∀ k v, lookup m k = some v → ∃ n r, (par m)^[n] k = r ∧ lookup m r = some r)

/-- The states of a `UnionFind` object reachable from the empty structure by calls of
`find` and `unionSets`. -/
inductive Reachable : UnionFind → Prop
  | empty : Reachable UnionFind.empty
  | find {u u1 : UnionFind} {x r : Int} :
      Reachable u → u.find x = some (u1, r) → Reachable u1
  | unionSets {u u1 : UnionFind} {x y : Int} :
      Reachable u → u.unionSets x y = some u1 → Reachable u1

/-- The root that a call `find(k)` returns in state `u` (`none` if the call would not return). -/
def UnionFind.root (u : UnionFind) (k : Int) : Option Int :=
  (u.find k).map Prod.snd

/-! ## Invariants and relations used in the proofs -/

/-- The shape of the map after a `find(x)` that returned `r`. -/
structure Compressed (m m1 : HashMap Int) (x r : Int) : Prop where
  root : HasRoot m x r
  onPath : ∀ i, lookup m1 ((par m)^[i] x) = some r
  offPath : ∀ k, (∀ i, (par m)^[i] x ≠ k) → lookup m1 k = lookup m k

/-- The shape of the state after `unionSets(x, y)`: `rx` and `ry` are the roots of `x` and
`y` before the call. -/
structure Linked (m m3 : HashMap Int) (x y rx ry : Int) : Prop where
  rootX : HasRoot m x rx
  rootY : HasRoot m y ry
  hasRoot : ∀ z rz, HasRoot m z rz → HasRoot m3 z (if rz = rx then ry else rz)
  forest : Forest m3
  keys : ∀ k, lookup m3 k ≠ none ↔ (lookup m k ≠ none ∨ k = x ∨ k = y)

/-- The manager invariant: the union-find is a forest whose keys are exactly the keys of
the membership store. -/
def CollectionManagerRBTree.Inv (m : CollectionManagerRBTree) : Prop :=
  Forest m.unionFind.parent ∧ ∀ k, k ∈ m.rbTree ↔ lookup m.unionFind.parent k ≠ none

/-- The manager states reachable from a fresh manager by `addSet` calls. -/
inductive CollectionManagerRBTree.Reachable : CollectionManagerRBTree → Prop
  | fresh : CollectionManagerRBTree.Reachable CollectionManagerRBTree.fresh
  | addSet {m m1 : CollectionManagerRBTree} {b : List Int} :
      CollectionManagerRBTree.Reachable m → m.addSet b = some m1 →
      CollectionManagerRBTree.Reachable m1

/-- The loop invariant of `addSet`, relative to the manager `m0` at the start of the call:
old keys keep their roots, and no key inserted by this call shares a root with an old key. -/
structure Frame (m0 : CollectionManagerRBTree) (s : LoopRB) : Prop where
  inv : s.mgr.Inv
  mono : ∀ k, k ∈ m0.rbTree → k ∈ s.mgr.rbTree
  oldRoot : ∀ k, k ∈ m0.rbTree → ∀ r,
    HasRoot m0.unionFind.parent k r → HasRoot s.mgr.unionFind.parent k r
  newSep : ∀ k, k ∈ m0.rbTree → ∀ j, j ∈ s.mgr.rbTree → j ∉ m0.rbTree → ∀ r,
    HasRoot s.mgr.unionFind.parent k r → ¬ HasRoot s.mgr.unionFind.parent j r
  fnd : s.firstNonDuplicate = -1 ∨
    (s.firstNonDuplicate ∈ s.mgr.rbTree ∧ s.firstNonDuplicate ∉ m0.rbTree)
  callsNew : ∀ p, p ∈ s.calls → p.1 ∉ m0.rbTree ∧ p.2 ∉ m0.rbTree

/-- The two managers hold the same union-find and the same set of present keys. -/
def Sim (r : CollectionManagerRBTree) (d : CollectionManagerBDD) : Prop :=
  r.unionFind = d.unionFind ∧ ∀ k, k ∈ r.rbTree ↔ lookup d.bddData k ≠ none

/-- The manager states reachable from a fresh map-backed manager by `addSet` calls. -/
inductive CollectionManagerBDD.Reachable : CollectionManagerBDD → Prop
  | fresh : CollectionManagerBDD.Reachable CollectionManagerBDD.fresh
  | addSet {m m1 : CollectionManagerBDD} {b : List Int} :
      CollectionManagerBDD.Reachable m → m.addSet b = some m1 →
      CollectionManagerBDD.Reachable m1

/-- The manager invariant of the map-backed variant. -/
def CollectionManagerBDD.Inv (m : CollectionManagerBDD) : Prop :=
  Forest m.unionFind.parent ∧
    ∀ k, lookup m.bddData k ≠ none ↔ lookup m.unionFind.parent k ≠ none

/-- The set-backed manager with the same union-find and the same present keys. -/
def CollectionManagerBDD.toRBTree (m : CollectionManagerBDD) : CollectionManagerRBTree :=
  ⟨m.unionFind, m.bddData.map Prod.fst⟩

/-- Every marker stored in the map of the map-backed manager is `true`. -/
def CollectionManagerBDD.MarkersTrue (m : CollectionManagerBDD) : Prop :=
  ∀ k v, lookup m.bddData k = some v → v = true

/-- The loop invariant of `addSet` once the representative `f` has been chosen: every key
inserted by this call has the same root `r`, which is itself a key inserted by this call. -/
structure Rep (m0 : CollectionManagerRBTree) (f : Int) (s : LoopRB) (r : Int) : Prop where
  frame : Frame m0 s
  rep : s.firstNonDuplicate = f
  isNew : f ∈ s.mgr.rbTree ∧ f ∉ m0.rbTree
  rootNew : r ∈ s.mgr.rbTree ∧ r ∉ m0.rbTree
  sameRoot : ∀ j, j ∈ s.mgr.rbTree → j ∉ m0.rbTree → HasRoot s.mgr.unionFind.parent j r

/-! ## `UnionFind::displaySets` and `display` -/

/-- One line printed by `displaySets`: `{child}--->{parent}` or a top-level `{members}`. -/
inductive Line where
  | childOf (child parent : List Int)
  | topLevel (members : List Int)
  deriving DecidableEq

/-- The keys printed first on a line. -/
def Line.members : Line → List Int
  | Line.childOf child _ => child
  | Line.topLevel members => members

/-- The first loop of `displaySets`, `sets[find(p.first)].insert(p.first)` for each entry of
`parent`, over the keys still to visit. -/
def groupLoop : List Int → UnionFind → HashMap (List Int) →
    Option (UnionFind × HashMap (List Int))
  | [], u, sets => some (u, sets)
  | k :: ks, u, sets =>
    match u.find k with
    | none => none
    | some (u1, r) => groupLoop ks u1 (assign sets r (setInsert ((lookup sets r).getD []) k))

/-- The inner loop of `displaySets` that looks for `parentRoot` among `parents`; `-1` when
no `p != childRoot` with `sets[p].count(childRoot)` is found. -/
def searchParent (sets : HashMap (List Int)) (childRoot : Int) : List Int → Int
  | [] => -1
  | p :: ps =>
    if p ≠ childRoot ∧ childRoot ∈ (lookup sets p).getD [] then p
    else searchParent sets childRoot ps

/-- The method `UnionFind::displaySets`: the state it leaves and the lines it prints. -/
def UnionFind.displaySets (u : UnionFind) : Option (UnionFind × List Line) :=
  match groupLoop (u.parent.map Prod.fst) u [] with
  | none => none
  | some (u1, sets) =>
    let parents := sets.foldl (fun acc s => setInsert acc s.1) []
    some (u1, sets.map (fun childSet =>
      let parentRoot := searchParent sets childSet.1 parents
      if parentRoot ≠ -1 then Line.childOf childSet.2 ((lookup sets parentRoot).getD [])
      else Line.topLevel childSet.2))

/-- The method `CollectionManagerRBTree::display`: the manager it leaves, the elements
printed, and the lines printed by `displaySets`. -/
def CollectionManagerRBTree.display (m : CollectionManagerRBTree) :
    Option (CollectionManagerRBTree × List Int × List Line) :=
  match m.unionFind.displaySets with
  | none => none
  | some (u1, out) => some (⟨u1, m.rbTree⟩, m.rbTree, out)

/-- The method `CollectionManagerBDD::display`. -/
def CollectionManagerBDD.display (m : CollectionManagerBDD) :
    Option (CollectionManagerBDD × List (Int × Bool) × List Line) :=
  match m.unionFind.displaySets with
  | none => none
  | some (u1, out) => some (⟨u1, m.bddData⟩, m.bddData, out)

/-! ## The index arithmetic of `benchmark` -/

/-- Conversion of an integer value to the 32-bit `int`. -/
def toInt32 (z : Int) : Int := (z + 2147483648) % 4294967296 - 2147483648

/-- The local `int chunkSize = sets.size() / numThreads`, for `n = sets.size()`: the
division is done in `size_t` (64 bits), the result converted to `int`. -/
def chunkSize (n : Nat) (numThreads : Int) : Int :=
  toInt32 ((n : Int) / (numThreads % 18446744073709551616))

/-- The local `int startIdx = i * chunkSize` of thread `i`. -/
def startIdx (n : Nat) (numThreads i : Int) : Int :=
  toInt32 (i * chunkSize n numThreads)

/-- The local `int endIdx = (i == numThreads - 1) ? sets.size() : (i + 1) * chunkSize`. -/
def endIdx (n : Nat) (numThreads i : Int) : Int :=
  if i = toInt32 (numThreads - 1) then toInt32 (n : Int)
  else toInt32 (toInt32 (i + 1) * chunkSize n numThreads)

/-- The indices `j` for which thread `i` calls `manager.addSet(sets[j])`, in order:
`for (int j = startIdx; j < endIdx; ++j)`. -/
def threadIndices (n : Nat) (numThreads i : Int) : List Int :=
  (List.range (endIdx n numThreads i - startIdx n numThreads i).toNat).map
    (fun t : Nat => startIdx n numThreads i + (t : Int))

/-- The indices passed to `addSet` by the threads `0, …, numThreads - 1`, thread by thread. -/
def benchmarkIndices (n : Nat) (numThreads : Int) : List Int :=
  (List.range numThreads.toNat).flatMap (fun i : Nat => threadIndices n numThreads (i : Int))

/-- The loop invariant of the first loop of `displaySets`: the keys of `sets` are roots, the
members of `sets[r]` are visited keys with root `r`, and every visited key is a member of
the set of its root. -/
structure Grouped (m : HashMap Int) (sets : HashMap (List Int)) (done : List Int) : Prop where
  rootKey : ∀ r g, lookup sets r = some g → par m r = r
  member : ∀ r g k, lookup sets r = some g → k ∈ g → (k ∈ done ∧ HasRoot m k r)
  cover : ∀ k, k ∈ done → ∀ r, HasRoot m k r → ∃ g, lookup sets r = some g ∧ k ∈ g
  nonempty : ∀ r g, lookup sets r = some g → ∃ k, k ∈ g
  nodupKeys : (sets.map Prod.fst).Nodup

/-- Two present keys of a manager lie in the same group: they have the same `find` root. -/
def SameGroup (m : CollectionManagerRBTree) (j k : Int) : Prop :=
  j ∈ m.rbTree ∧ k ∈ m.rbTree ∧ m.unionFind.root j = m.unionFind.root k

/-- The keys `j` and `k` are put in the same group by the batch `b` submitted alone to a
fresh manager. -/
def InBatchGroup (b : List Int) (j k : Int) : Prop :=
  ∃ m, CollectionManagerRBTree.addSet CollectionManagerRBTree.fresh b = some m ∧ SameGroup m j k

/-- The run of the loop of `addSet` from the manager `m0` (state `s`) and its run on the same
keys from a fresh manager (state `t`) agree on the representative, on the keys inserted,
and on the roots of the keys inserted. -/
structure Par (m0 : CollectionManagerRBTree) (s t : LoopRB) : Prop where
  frameS : Frame m0 s
  frameT : Frame CollectionManagerRBTree.fresh t
  fnd : s.firstNonDuplicate = t.firstNonDuplicate
  keys : ∀ k, k ∈ t.mgr.rbTree ↔ (k ∈ s.mgr.rbTree ∧ k ∉ m0.rbTree)
  roots : ∀ j, j ∈ t.mgr.rbTree → ∀ r,
    HasRoot t.mgr.unionFind.parent j r → HasRoot s.mgr.unionFind.parent j r

/-! ## The parent map: basic facts -/

theorem lookup_assign {V : Type} (m : HashMap V) (k : Int) (v : V) (j : Int) :
    lookup (assign m k v) j = if j = k then some v else lookup m j := by
  induction m with
  | nil =>
    by_cases h : j = k
    · simp [assign, lookup, h]
    · have h1 : ¬ k = j := fun e => h e.symm
      simp [assign, lookup, h, h1]
  | cons hd t ih =>
    obtain ⟨a, b⟩ := hd
    by_cases hak : a = k
    · by_cases hj : j = k
      · simp [assign, lookup, hak, hj]
      · have h1 : ¬ k = j := fun e => hj e.symm
        simp [assign, lookup, hak, hj, h1]
    · by_cases haj : a = j
      · have hj : ¬ j = k := fun e => hak (haj.trans e)
        simp [assign, lookup, hak, haj, hj]
      · simp [assign, lookup, hak, haj, ih]

theorem lookup_assign_self {V : Type} (m : HashMap V) (k : Int) (v : V) :
    lookup (assign m k v) k = some v := by
  simp [lookup_assign]

theorem lookup_assign_ne {V : Type} (m : HashMap V) (k : Int) (v : V) (j : Int) (h : j ≠ k) :
    lookup (assign m k v) j = lookup m j := by
  simp [lookup_assign, h]

theorem mem_keys_of_lookup {V : Type} (m : HashMap V) (k : Int) (v : V)
    (h : lookup m k = some v) : k ∈ m.map Prod.fst := by
  induction m with
  | nil => simp [lookup] at h
  | cons hd t ih =>
    obtain ⟨a, b⟩ := hd
    by_cases hak : a = k
    · simp [hak]
    · simp only [lookup, hak, if_false] at h
      simp [ih h]

theorem par_of_none (m : HashMap Int) (k : Int) (h : lookup m k = none) : par m k = k := by
  simp [par, h]

theorem par_of_some (m : HashMap Int) (k v : Int) (h : lookup m k = some v) : par m k = v := by
  simp [par, h]

theorem lookup_of_par_ne (m : HashMap Int) (k : Int) (h : par m k ≠ k) :
    lookup m k = some (par m k) := by
  cases hl : lookup m k with
  | none => exact absurd (par_of_none m k hl) h
  | some v => rw [par_of_some m k v hl]

theorem iterate_par_root (m : HashMap Int) (r : Int) (h : par m r = r) (n : Nat) :
    (par m)^[n] r = r :=
  Function.iterate_fixed h n

/-! ## Roots -/

theorem hasRoot_self (m : HashMap Int) (r : Int) (h : par m r = r) : HasRoot m r r :=
  ⟨0, rfl, h⟩

theorem hasRoot_unique (m : HashMap Int) (k r1 r2 : Int) (h1 : HasRoot m k r1)
    (h2 : HasRoot m k r2) : r1 = r2 := by
  obtain ⟨n1, e1, p1⟩ := h1
  obtain ⟨n2, e2, p2⟩ := h2
  have a1 : (par m)^[n2 + n1] k = r1 := by
    rw [Function.iterate_add_apply, e1]; exact iterate_par_root m r1 p1 n2
  have a2 : (par m)^[n1 + n2] k = r2 := by
    rw [Function.iterate_add_apply, e2]; exact iterate_par_root m r2 p2 n1
  rw [Nat.add_comm] at a1
  exact a1.symm.trans a2

theorem hasRoot_of_par (m : HashMap Int) (k r : Int) (h : HasRoot m (par m k) r) :
    HasRoot m k r := by
  obtain ⟨n, e, p⟩ := h
  exact ⟨n + 1, by rw [Function.iterate_succ_apply]; exact e, p⟩

theorem hasRoot_par (m : HashMap Int) (k r : Int) (h : HasRoot m k r) :
    HasRoot m (par m k) r := by
  obtain ⟨n, e, p⟩ := h
  refine ⟨n, ?_, p⟩
  rw [← Function.iterate_succ_apply, Function.iterate_succ_apply', e]
  exact p

theorem hasRoot_iterate (m : HashMap Int) (k r : Int) (h : HasRoot m k r) (i : Nat) :
    HasRoot m ((par m)^[i] k) r := by
  induction i with
  | zero => exact h
  | succ i ih =>
    rw [Function.iterate_succ_apply']
    exact hasRoot_par m _ r ih

theorem hasRoot_root (m : HashMap Int) (k r : Int) (h : HasRoot m k r) : par m r = r := by
  obtain ⟨_, _, p⟩ := h
  exact p

/-- A key without an entry is its own root. -/
theorem hasRoot_of_absent (m : HashMap Int) (k : Int) (h : lookup m k = none) :
    HasRoot m k k :=
  hasRoot_self m k (par_of_none m k h)

theorem iterate_par_isKey (m : HashMap Int)
    (hc : ∀ k v, lookup m k = some v → ∃ w, lookup m v = some w) (k v : Int)
    (hk : lookup m k = some v) (n : Nat) : ∃ w, lookup m ((par m)^[n] k) = some w := by
  induction n with
  | zero => exact ⟨v, hk⟩
  | succ n ih =>
    obtain ⟨w, hw⟩ := ih
    rw [Function.iterate_succ_apply', par_of_some m _ w hw]
    exact hc _ w hw

/-- The forest predicate, restated with `HasRoot` over all integers. -/
theorem forest_iff (m : HashMap Int) :
    Forest m ↔ (∀ k v, lookup m k = some v → ∃ w, lookup m v = some w) ∧
      ∀ k, ∃ r, HasRoot m k r := by
  constructor
  · rintro ⟨hc, hr⟩
    refine ⟨hc, fun k => ?_⟩
    cases hl : lookup m k with
    | none => exact ⟨k, hasRoot_of_absent m k hl⟩
    | some v =>
      obtain ⟨n, r, e, hrr⟩ := hr k v hl
      exact ⟨r, n, e, par_of_some m r r hrr⟩
  · rintro ⟨hc, hr⟩
    refine ⟨hc, fun k v hl => ?_⟩
    obtain ⟨r, n, e, p⟩ := hr k
    refine ⟨n, r, e, ?_⟩
    obtain ⟨w, hw⟩ := iterate_par_isKey m hc k v hl n
    rw [e] at hw
    rw [hw, ← par_of_some m r w hw, p]

theorem forest_nil : Forest ([] : HashMap Int) := by
  constructor <;> intro k v h <;> simp [lookup] at h

/-! ## `find`: unfolding, result and termination -/

theorem findFuel_absent (n : Nat) (m : HashMap Int) (x : Int) (h : lookup m x = none) :
    findFuel (n + 1) m x = some (assign m x x, x) := by
  simp [findFuel, h, lookup_assign_self]

theorem findFuel_self (n : Nat) (m : HashMap Int) (x : Int) (h : lookup m x = some x) :
    findFuel (n + 1) m x = some (m, x) := by
  simp [findFuel, h]

theorem findFuel_step (n : Nat) (m : HashMap Int) (x v : Int) (h : lookup m x = some v)
    (hv : v ≠ x) :
    findFuel (n + 1) m x =
      match findFuel n m v with
      | none => none
      | some (m2, r) => some (assign m2 x r, r) := by
  simp [findFuel, h, hv]

/-- What a returning `find` computes: the root of `x`, with every key on the chain from `x`
rewritten to point at the root and every other entry left alone. -/
theorem findFuel_spec : ∀ (n : Nat) (m : HashMap Int) (x : Int) (m1 : HashMap Int) (r : Int),
    findFuel n m x = some (m1, r) →
    HasRoot m x r ∧
    (∀ i, lookup m1 ((par m)^[i] x) = some r) ∧
    (∀ k, (∀ i, (par m)^[i] x ≠ k) → lookup m1 k = lookup m k) := by
  intro n
  induction n with
  | zero => intro m x m1 r h; simp [findFuel] at h
  | succ n ih =>
    intro m x m1 r h
    cases hl : lookup m x with
    | none =>
      rw [findFuel_absent n m x hl] at h
      simp only [Option.some.injEq, Prod.mk.injEq] at h
      obtain ⟨rfl, rfl⟩ := h
      have hp : par m x = x := par_of_none m x hl
      refine ⟨⟨0, rfl, hp⟩, ?_, ?_⟩
      · intro i
        rw [iterate_par_root m x hp i]
        exact lookup_assign_self m x x
      · intro k hk
        exact lookup_assign_ne m x x k (fun e => hk 0 e.symm)
    | some v =>
      by_cases hv : v = x
      · subst hv
        rw [findFuel_self n m v hl] at h
        simp only [Option.some.injEq, Prod.mk.injEq] at h
        obtain ⟨rfl, rfl⟩ := h
        have hp : par m v = v := par_of_some m v v hl
        refine ⟨⟨0, rfl, hp⟩, ?_, ?_⟩
        · intro i
          rw [iterate_par_root m v hp i]
          exact hl
        · intro k _
          rfl
      · rw [findFuel_step n m x v hl hv] at h
        cases hrec : findFuel n m v with
        | none => simp [hrec] at h
        | some res =>
          obtain ⟨m2, r2⟩ := res
          simp only [hrec, Option.some.injEq, Prod.mk.injEq] at h
          obtain ⟨rfl, rfl⟩ := h
          obtain ⟨⟨j, hj, hroot⟩, hpath, hrest⟩ := ih m v m2 r2 hrec
          have hp : par m x = v := par_of_some m x v hl
          refine ⟨⟨j + 1, ?_, hroot⟩, ?_, ?_⟩
          · rw [Function.iterate_succ_apply, hp]
            exact hj
          · intro i
            rw [lookup_assign]
            split
            · rfl
            · cases i with
              | zero => simp at *
              | succ i =>
                rw [Function.iterate_succ_apply, hp]
                exact hpath i
          · intro k hk
            have hkx : k ≠ x := fun e => hk 0 e.symm
            rw [lookup_assign_ne m2 x r2 k hkx]
            apply hrest
            intro i e
            apply hk (i + 1)
            rw [Function.iterate_succ_apply, hp]
            exact e

/-- A forest has no cycle: `find` returns as soon as its fuel exceeds the length of the
chain from `x` to its root. -/
theorem findFuel_returns : ∀ (n : Nat) (m : HashMap Int) (x : Int) (j : Nat),
    j < n → par m ((par m)^[j] x) = (par m)^[j] x →
    ∃ m1 r, findFuel n m x = some (m1, r) := by
  intro n
  induction n with
  | zero => intro m x j hj; omega
  | succ n ih =>
    intro m x j hj hroot
    cases hl : lookup m x with
    | none => exact ⟨_, _, findFuel_absent n m x hl⟩
    | some v =>
      by_cases hv : v = x
      · subst hv
        exact ⟨_, _, findFuel_self n m v hl⟩
      · have hp : par m x = v := par_of_some m x v hl
        cases j with
        | zero =>
          simp only [Function.iterate_zero, id_eq] at hroot
          exact absurd (hp.symm.trans hroot) hv
        | succ j =>
          rw [Function.iterate_succ_apply, hp] at hroot
          obtain ⟨m2, r2, h2⟩ := ih m v j (by omega) hroot
          exact ⟨assign m2 x r2, r2, by rw [findFuel_step n m x v hl hv, h2]⟩

/-- Pigeonhole: the keys strictly below the root on a chain are pairwise distinct keys of
the map, so the first root on a chain is reached within `m.length` steps. -/
theorem chain_length_le (m : HashMap Int) (x : Int) (j : Nat)
    (hroot : par m ((par m)^[j] x) = (par m)^[j] x)
    (hmin : ∀ i, i < j → par m ((par m)^[i] x) ≠ (par m)^[i] x) :
    j ≤ m.length := by
  have hinj : ∀ a b, a < b → b < j → (par m)^[a] x ≠ (par m)^[b] x := by
    intro a b hab hbj e
    have e1 : (par m)^[(j - b) + a] x = (par m)^[(j - b) + b] x := by
      rw [Function.iterate_add_apply, Function.iterate_add_apply, e]
    have e2 : j - b + b = j := by omega
    rw [e2] at e1
    have h3 := hmin (j - b + a) (by omega)
    rw [e1] at h3
    exact h3 hroot
  have hnd : ((List.range j).map (fun i => (par m)^[i] x)).Nodup := by
    apply List.Nodup.map_on _ (List.nodup_range j)
    intro a ha b hb e
    rw [List.mem_range] at ha hb
    by_contra hne
    rcases Nat.lt_or_gt_of_ne hne with h | h
    · exact hinj a b h hb e
    · exact hinj b a h ha e.symm
  have hsub : (List.range j).map (fun i => (par m)^[i] x) ⊆ m.map Prod.fst := by
    intro k hk
    rw [List.mem_map] at hk
    obtain ⟨i, hi, rfl⟩ := hk
    rw [List.mem_range] at hi
    exact mem_keys_of_lookup m _ _ (lookup_of_par_ne m _ (hmin i hi))
  have hlen := (List.subperm_of_subset hnd hsub).length_le
  simpa using hlen

/-- On a map where the chain from `x` reaches a root, the fuel that `UnionFind::find`
supplies is enough. -/
theorem findFuel_length_returns (m : HashMap Int) (x r : Int) (h : HasRoot m x r) :
    ∃ m1, findFuel (m.length + 1) m x = some (m1, r) := by
  classical
  have hex : ∃ j, par m ((par m)^[j] x) = (par m)^[j] x := by
    obtain ⟨n, hn, hr⟩ := h
    exact ⟨n, by rw [hn]; exact hr⟩
  have hle : Nat.find hex ≤ m.length :=
    chain_length_le m x (Nat.find hex) (Nat.find_spec hex) (fun i hi => Nat.find_min hex hi)
  obtain ⟨m1, r1, h1⟩ := findFuel_returns (m.length + 1) m x (Nat.find hex) (by omega)
    (Nat.find_spec hex)
  have hr1 : HasRoot m x r1 := (findFuel_spec _ m x m1 r1 h1).1
  rw [hasRoot_unique m x r r1 h hr1]
  exact ⟨m1, h1⟩

/-! ## `find` keeps every root; `find` and the link step keep the forest -/

theorem compressed_of_findFuel (n : Nat) (m m1 : HashMap Int) (x r : Int)
    (h : findFuel n m x = some (m1, r)) : Compressed m m1 x r :=
  let ⟨a, b, c⟩ := findFuel_spec n m x m1 r h
  ⟨a, b, c⟩

theorem Compressed.root_entry {m m1 : HashMap Int} {x r : Int} (h : Compressed m m1 x r) :
    lookup m1 r = some r := by
  obtain ⟨n, e, _⟩ := h.root
  have := h.onPath n
  rwa [e] at this

theorem Compressed.self_entry {m m1 : HashMap Int} {x r : Int} (h : Compressed m m1 x r) :
    lookup m1 x = some r :=
  h.onPath 0

/-- Each entry after `find(x)` is either untouched or points to the root of its key. -/
theorem Compressed.entry {m m1 : HashMap Int} {x r : Int} (h : Compressed m m1 x r)
    (k : Int) : lookup m1 k = lookup m k ∨ (lookup m1 k = some r ∧ HasRoot m k r) := by
  classical
  by_cases hk : ∃ i, (par m)^[i] x = k
  · obtain ⟨i, rfl⟩ := hk
    exact Or.inr ⟨h.onPath i, hasRoot_iterate m x r h.root i⟩
  · exact Or.inl (h.offPath k (fun i e => hk ⟨i, e⟩))

theorem Compressed.keys {m m1 : HashMap Int} {x r : Int} (h : Compressed m m1 x r)
    (k v : Int) (hk : lookup m k = some v) : ∃ w, lookup m1 k = some w := by
  rcases h.entry k with e | ⟨e, _⟩
  · exact ⟨v, e.trans hk⟩
  · exact ⟨r, e⟩

/-- On a map whose values are keys, the chain from `x` stays inside the keys and `x`. -/
theorem chain_isKey (m : HashMap Int)
    (hc : ∀ k v, lookup m k = some v → ∃ w, lookup m v = some w) (x : Int) (i : Nat) :
    (par m)^[i] x = x ∨ ∃ w, lookup m ((par m)^[i] x) = some w := by
  cases hl : lookup m x with
  | none => exact Or.inl (iterate_par_root m x (par_of_none m x hl) i)
  | some v => exact Or.inr (iterate_par_isKey m hc x v hl i)

/-- The keys after `find(x)` are the keys before it and `x`. -/
theorem Compressed.keys_iff {m m1 : HashMap Int} {x r : Int} (h : Compressed m m1 x r)
    (hc : ∀ k v, lookup m k = some v → ∃ w, lookup m v = some w)
    (k : Int) : lookup m1 k ≠ none ↔ (lookup m k ≠ none ∨ k = x) := by
  classical
  constructor
  · intro hk
    by_cases hp : ∃ i, (par m)^[i] x = k
    · obtain ⟨i, rfl⟩ := hp
      rcases chain_isKey m hc x i with e | ⟨w, hw⟩
      · exact Or.inr e
      · exact Or.inl (by simp [hw])
    · left
      rw [← h.offPath k (fun i e => hp ⟨i, e⟩)]
      exact hk
  · rintro (hk | rfl)
    · cases hl : lookup m k with
      | none => exact absurd hl hk
      | some v =>
        obtain ⟨w, hw⟩ := h.keys k v hl
        simp [hw]
    · simp [h.self_entry]

/-- Path compression moves no key to another root. -/
theorem Compressed.hasRoot {m m1 : HashMap Int} {x r : Int} (h : Compressed m m1 x r)
    (z rz : Int) (hz : HasRoot m z rz) : HasRoot m1 z rz := by
  obtain ⟨n, e, p⟩ := hz
  induction n generalizing z with
  | zero =>
    simp only [Function.iterate_zero, id_eq] at e
    subst e
    rcases h.entry z with e1 | ⟨e1, hr⟩
    · exact hasRoot_self m1 z (by unfold par at p ⊢; rw [e1]; exact p)
    · have : z = r := hasRoot_unique m z z r (hasRoot_self m z p) hr
      subst this
      exact hasRoot_self m1 z (par_of_some m1 z z e1)
  | succ n ih =>
    rw [Function.iterate_succ_apply] at e
    rcases h.entry z with e1 | ⟨e1, hr⟩
    · have hp : par m1 z = par m z := by unfold par; rw [e1]
      apply hasRoot_of_par
      rw [hp]
      exact ih (par m z) e
    · have hrz : rz = r :=
        hasRoot_unique m z rz r ⟨n + 1, by rw [Function.iterate_succ_apply]; exact e, p⟩ hr
      subst hrz
      apply hasRoot_of_par
      rw [par_of_some m1 z rz e1]
      exact hasRoot_self m1 rz (par_of_some m1 rz rz h.root_entry)

/-- The forest predicate survives `find`. -/
theorem Compressed.forest {m m1 : HashMap Int} {x r : Int} (h : Compressed m m1 x r)
    (hf : Forest m) : Forest m1 := by
  rw [forest_iff] at hf ⊢
  obtain ⟨hc, hr⟩ := hf
  refine ⟨?_, fun k => ?_⟩
  · intro k v hk
    rcases h.entry k with e | ⟨e, _⟩
    · rw [e] at hk
      obtain ⟨w, hw⟩ := hc k v hk
      exact h.keys v w hw
    · rw [e] at hk
      simp only [Option.some.injEq] at hk
      subst hk
      exact ⟨r, h.root_entry⟩
  · obtain ⟨rk, hrk⟩ := hr k
    exact ⟨rk, h.hasRoot k rk hrk⟩

/-- Conversely a root seen after `find` was the root before it. -/
theorem Compressed.hasRoot_inv {m m1 : HashMap Int} {x r : Int} (h : Compressed m m1 x r)
    (hf : Forest m) (z rz : Int) (hz : HasRoot m1 z rz) : HasRoot m z rz := by
  obtain ⟨r0, h0⟩ := ((forest_iff m).1 hf).2 z
  rw [hasRoot_unique m1 z rz r0 hz (h.hasRoot z r0 h0)]
  exact h0

/-! ## The link step `parent[rootX] = rootY` -/

theorem par_link (m : HashMap Int) (rx ry k : Int) :
    par (assign m rx ry) k = if k = rx then ry else par m k := by
  unfold par
  rw [lookup_assign]
  split <;> rfl

/-- After attaching the root `rx` under the distinct root `ry`, the keys that had root `rx`
have root `ry` and every other key keeps its root. -/
theorem link_hasRoot (m : HashMap Int) (rx ry : Int) (hx : par m rx = rx)
    (hy : par m ry = ry) (hne : rx ≠ ry) (z rz : Int) (hz : HasRoot m z rz) :
    HasRoot (assign m rx ry) z (if rz = rx then ry else rz) := by
  have hry : par (assign m rx ry) ry = ry := by
    rw [par_link, if_neg (fun e => hne e.symm)]; exact hy
  have hrx : HasRoot (assign m rx ry) rx ry := by
    apply hasRoot_of_par
    rw [par_link, if_pos rfl]
    exact hasRoot_self _ ry hry
  obtain ⟨n, e, p⟩ := hz
  induction n generalizing z with
  | zero =>
    simp only [Function.iterate_zero, id_eq] at e
    subst e
    by_cases hzx : z = rx
    · rw [if_pos hzx, hzx]
      exact hrx
    · rw [if_neg hzx]
      exact hasRoot_self _ z (by rw [par_link, if_neg hzx]; exact p)
  | succ n ih =>
    by_cases hzx : z = rx
    · have hrz : rz = rx := by
        rw [hzx] at e
        rw [← e]
        exact iterate_par_root m rx hx (n + 1)
      rw [if_pos hrz, hzx]
      exact hrx
    · rw [Function.iterate_succ_apply] at e
      apply hasRoot_of_par
      rw [par_link, if_neg hzx]
      exact ih (par m z) e

/-- The link step keeps the forest. -/
theorem link_forest (m : HashMap Int) (rx ry : Int) (hx : par m rx = rx)
    (hy : lookup m ry = some ry) (hne : rx ≠ ry) (hf : Forest m) :
    Forest (assign m rx ry) := by
  rw [forest_iff] at hf ⊢
  obtain ⟨hc, hr⟩ := hf
  have hkeys : ∀ k v, lookup m k = some v → ∃ w, lookup (assign m rx ry) k = some w := by
    intro k v hk
    rw [lookup_assign]
    split
    · exact ⟨ry, rfl⟩
    · exact ⟨v, hk⟩
  refine ⟨?_, fun k => ?_⟩
  · intro k v hk
    rw [lookup_assign] at hk
    split at hk
    · simp only [Option.some.injEq] at hk
      subst hk
      exact hkeys _ _ hy
    · obtain ⟨w, hw⟩ := hc k v hk
      exact hkeys v w hw
  · obtain ⟨rk, hrk⟩ := hr k
    exact ⟨_, link_hasRoot m rx ry hx (par_of_some m ry ry hy) hne k rk hrk⟩

/-! ## `UnionFind::find` and `UnionFind::unionSets` on forests -/

theorem find_compressed (u u1 : UnionFind) (x r : Int) (h : u.find x = some (u1, r)) :
    Compressed u.parent u1.parent x r := by
  unfold UnionFind.find at h
  cases hq : findFuel (u.parent.length + 1) u.parent x with
  | none => simp [hq] at h
  | some res =>
    obtain ⟨p, r1⟩ := res
    simp only [hq, Option.some.injEq, Prod.mk.injEq] at h
    obtain ⟨rfl, rfl⟩ := h
    exact compressed_of_findFuel _ _ _ _ _ hq

/-- On a forest `find(x)` returns, and it returns the root of `x`. -/
theorem find_of_hasRoot (u : UnionFind) (x r : Int) (h : HasRoot u.parent x r) :
    ∃ u1, u.find x = some (u1, r) ∧ Compressed u.parent u1.parent x r := by
  obtain ⟨m1, h1⟩ := findFuel_length_returns u.parent x r h
  refine ⟨⟨m1⟩, ?_, compressed_of_findFuel _ _ _ _ _ h1⟩
  simp [UnionFind.find, h1]

theorem find_total (u : UnionFind) (hf : Forest u.parent) (x : Int) :
    ∃ u1 r, u.find x = some (u1, r) ∧ Compressed u.parent u1.parent x r := by
  obtain ⟨r, hr⟩ := ((forest_iff _).1 hf).2 x
  obtain ⟨u1, h1, h2⟩ := find_of_hasRoot u x r hr
  exact ⟨u1, r, h1, h2⟩

/-- The root returned by `find(k)`, as a relation: `u.root k = some r` exactly when `r` is the
self-parent reached from `k`. -/
theorem root_eq_some_iff (u : UnionFind) (k r : Int) :
    u.root k = some r ↔ HasRoot u.parent k r := by
  constructor
  · intro h
    unfold UnionFind.root at h
    cases hq : u.find k with
    | none => simp [hq] at h
    | some res =>
      obtain ⟨u1, r1⟩ := res
      simp only [hq, Option.map_some', Option.some.injEq] at h
      subst h
      exact (find_compressed u u1 k _ hq).root
  · intro h
    obtain ⟨u1, h1, _⟩ := find_of_hasRoot u k r h
    simp [UnionFind.root, h1]

/-- On a forest `unionSets(x, y)` returns, in a forest where the group of `x` has moved
under the root of `y`. -/
theorem unionSets_total (u : UnionFind) (hf : Forest u.parent) (x y : Int) :
    ∃ u3 rx ry, u.unionSets x y = some u3 ∧ Linked u.parent u3.parent x y rx ry := by
  obtain ⟨u1, rx, h1, c1⟩ := find_total u hf x
  have f1 : Forest u1.parent := c1.forest hf
  obtain ⟨u2, ry, h2, c2⟩ := find_total u1 f1 y
  have f2 : Forest u2.parent := c2.forest f1
  have hc := ((forest_iff _).1 hf).1
  have hc1 := ((forest_iff _).1 f1).1
  have hkeys2 : ∀ k, lookup u2.parent k ≠ none ↔ (lookup u.parent k ≠ none ∨ k = x ∨ k = y) := by
    intro k
    rw [c2.keys_iff hc1 k, c1.keys_iff hc k, or_assoc]
  have hroot2 : ∀ z rz, HasRoot u.parent z rz → HasRoot u2.parent z rz :=
    fun z rz hz => c2.hasRoot z rz (c1.hasRoot z rz hz)
  have hrx : par u2.parent rx = rx :=
    hasRoot_root _ rx rx (hroot2 rx rx (hasRoot_self _ rx (hasRoot_root _ x rx c1.root)))
  have hry : HasRoot u.parent y ry := c1.hasRoot_inv hf y ry c2.root
  by_cases hne : rx = ry
  · refine ⟨u2, rx, ry, ?_, c1.root, hry, ?_, f2, hkeys2⟩
    · simp [UnionFind.unionSets, h1, h2, hne]
    · intro z rz hz
      split
      · next e => rw [← hne, ← e]; exact hroot2 z rz hz
      · exact hroot2 z rz hz
  · refine ⟨⟨assign u2.parent rx ry⟩, rx, ry, ?_, c1.root, hry, ?_, ?_, ?_⟩
    · simp [UnionFind.unionSets, h1, h2, hne]
    · intro z rz hz
      exact link_hasRoot u2.parent rx ry hrx (par_of_some _ ry ry c2.root_entry) hne z rz
        (hroot2 z rz hz)
    · exact link_forest u2.parent rx ry hrx c2.root_entry hne f2
    · intro k
      show lookup (assign u2.parent rx ry) k ≠ none ↔ _
      rw [← hkeys2 k, lookup_assign]
      split
      · next e =>
        subst e
        have hk : lookup u2.parent k = some k := by
          rcases c2.entry k with e1 | ⟨e1, hr1⟩
          · rw [e1]; exact c1.root_entry
          · rw [e1, hasRoot_unique _ k ry k hr1 (hasRoot_self _ k (par_of_some _ k k c1.root_entry))]
        simp [hk]
      · rfl

theorem unionSets_linked (u u3 : UnionFind) (hf : Forest u.parent) (x y : Int)
    (h : u.unionSets x y = some u3) : ∃ rx ry, Linked u.parent u3.parent x y rx ry := by
  obtain ⟨u3a, rx, ry, h3, hl⟩ := unionSets_total u hf x y
  rw [h3] at h
  simp only [Option.some.injEq] at h
  subst h
  exact ⟨rx, ry, hl⟩

/-- Every reachable state is a forest. -/
theorem reachable_forest (u : UnionFind) (hu : Reachable u) : Forest u.parent := by
  induction hu with
  | empty => exact forest_nil
  | find _ h ih => exact (find_compressed _ _ _ _ h).forest ih
  | unionSets _ h ih =>
    obtain ⟨_, _, hl⟩ := unionSets_linked _ _ ih _ _ h
    exact hl.forest

/-- Two `find` calls in a row on a forest return the roots of their arguments. -/
theorem find_find (u : UnionFind) (a b ra rb : Int)
    (ha : HasRoot u.parent a ra) (hb : HasRoot u.parent b rb) :
    ∃ ua uab, u.find a = some (ua, ra) ∧ ua.find b = some (uab, rb) := by
  obtain ⟨ua, h1, c1⟩ := find_of_hasRoot u a ra ha
  obtain ⟨uab, h2, _⟩ := find_of_hasRoot ua b rb (c1.hasRoot b rb hb)
  exact ⟨ua, uab, h1, h2⟩

/-- After `unionSets(x, y)` on a forest both arguments have the root `y` had before. -/
theorem unionSets_roots (u : UnionFind) (hf : Forest u.parent) (x y ry : Int)
    (hy : HasRoot u.parent y ry) :
    ∃ u1, u.unionSets x y = some u1 ∧ Forest u1.parent ∧
      HasRoot u1.parent x ry ∧ HasRoot u1.parent y ry := by
  obtain ⟨u1, rx, ry1, h1, hl⟩ := unionSets_total u hf x y
  have e : ry1 = ry := hasRoot_unique _ y ry1 ry hl.rootY hy
  subst e
  refine ⟨u1, h1, hl.forest, ?_, ?_⟩
  · have := hl.hasRoot x rx hl.rootX
    rwa [if_pos rfl] at this
  · have := hl.hasRoot y ry1 hl.rootY
    split at this <;> exact this

/-! ## The claims on `UnionFind` -/

/-- C1 (union correctness). In every state reachable from the empty structure, for all keys
`a` and `b`, the call `unionSets(a, b)` returns, and afterwards `find(a)` and `find(b)`
return the same root, whether they are called on the state left by `unionSets` or one
after the other in either order. -/
theorem union_correctness (u : UnionFind) (hu : Reachable u) (a b : Int) :
    ∃ u1, u.unionSets a b = some u1 ∧
      ∃ r ua ub uab uba, u1.find a = some (ua, r) ∧ u1.find b = some (ub, r) ∧
        ua.find b = some (uab, r) ∧ ub.find a = some (uba, r) := by
  have hf := reachable_forest u hu
  obtain ⟨ry, hry⟩ := ((forest_iff _).1 hf).2 b
  obtain ⟨u1, h1, _, hxa, hxb⟩ := unionSets_roots u hf a b ry hry
  obtain ⟨ua, uab, h2, h3⟩ := find_find u1 a b ry ry hxa hxb
  obtain ⟨ub, uba, h4, h5⟩ := find_find u1 b a ry ry hxb hxa
  exact ⟨u1, h1, ry, ua, ub, uab, uba, h2, h4, h3, h5⟩

/-- Witness of C1 at the state reached by `unionSets(1, 2)`, for the keys `3` and `1`. -/
theorem union_correctness_witness :
    Reachable ⟨[(1, 2), (2, 2)]⟩ ∧
    ∃ u1, UnionFind.unionSets ⟨[(1, 2), (2, 2)]⟩ 3 1 = some u1 ∧
      ∃ r ua ub uab uba, u1.find 3 = some (ua, r) ∧ u1.find 1 = some (ub, r) ∧
        ua.find 1 = some (uab, r) ∧ ub.find 3 = some (uba, r) :=
  have h : Reachable ⟨[(1, 2), (2, 2)]⟩ :=
    @Reachable.unionSets UnionFind.empty ⟨[(1, 2), (2, 2)]⟩ 1 2 Reachable.empty (by decide)
  ⟨h, union_correctness _ h 3 1⟩

theorem assign_same {V : Type} (m : HashMap V) (k : Int) (v : V)
    (h : lookup m k = some v) : assign m k v = m := by
  induction m with
  | nil => simp [lookup] at h
  | cons hd t ih =>
    obtain ⟨a, b⟩ := hd
    by_cases hak : a = k
    · simp only [lookup, hak, if_true, Option.some.injEq] at h
      simp [assign, hak, h]
    · simp only [lookup, hak, if_false] at h
      simp [assign, hak, ih h]

/-- On a map where `k` already points at the self-parent `r`, `find(k)` returns `r` and
writes nothing new. -/
theorem findFuel_compressed (n : Nat) (m : HashMap Int) (k r : Int)
    (hk : lookup m k = some r) (hr : lookup m r = some r) :
    findFuel (n + 2) m k = some (m, r) := by
  by_cases e : r = k
  · subst e
    exact findFuel_self (n + 1) m r hr
  · rw [findFuel_step (n + 1) m k r hk e, findFuel_self n m r hr]
    simp [assign_same m k r hk]

theorem find_compressed_again (u : UnionFind) (k r : Int)
    (hk : lookup u.parent k = some r) (hr : lookup u.parent r = some r) :
    u.find k = some (u, r) := by
  have hlen : u.parent.length + 1 = (u.parent.length - 1) + 2 := by
    cases hp : u.parent with
    | nil => rw [hp] at hk; simp [lookup] at hk
    | cons hd t => simp
  unfold UnionFind.find
  rw [hlen, findFuel_compressed _ u.parent k r hk hr]

/-- C3 (idempotent find with compression). In every reachable state and for every key `k`,
`find(k)` returns the root `r` of `k`, the self-parent key that the chain of parents from `k`
reaches; immediately afterwards `parent[k]` is `r` and `parent[r]` is `r`; and a second
`find(k)` returns `r` again, leaving the state exactly as the first call left it. -/
theorem find_idempotent (u : UnionFind) (hu : Reachable u) (k : Int) :
    ∃ u1 r u2, u.find k = some (u1, r) ∧ HasRoot u.parent k r ∧
      lookup u1.parent k = some r ∧ lookup u1.parent r = some r ∧
      u1.find k = some (u2, r) ∧ u2 = u1 := by
  have hf := reachable_forest u hu
  obtain ⟨u1, r, h1, c1⟩ := find_total u hf k
  exact ⟨u1, r, u1, h1, c1.root, c1.self_entry, c1.root_entry,
    find_compressed_again u1 k r c1.self_entry c1.root_entry, rfl⟩

/-- Witness of C3 at the chain `1 → 2 → 3`, reached by `unionSets(1, 2); unionSets(2, 3)`. -/
theorem find_idempotent_witness :
    Reachable ⟨[(1, 2), (2, 3), (3, 3)]⟩ ∧
    ∃ u1 r u2, UnionFind.find ⟨[(1, 2), (2, 3), (3, 3)]⟩ 1 = some (u1, r) ∧
      HasRoot (UnionFind.parent ⟨[(1, 2), (2, 3), (3, 3)]⟩) 1 r ∧
      lookup u1.parent 1 = some r ∧ lookup u1.parent r = some r ∧
      u1.find 1 = some (u2, r) ∧ u2 = u1 :=
  have h : Reachable ⟨[(1, 2), (2, 3), (3, 3)]⟩ :=
    @Reachable.unionSets ⟨[(1, 2), (2, 2)]⟩ ⟨[(1, 2), (2, 3), (3, 3)]⟩ 2 3
      (@Reachable.unionSets UnionFind.empty ⟨[(1, 2), (2, 2)]⟩ 1 2 Reachable.empty (by decide))
      (by decide)
  ⟨h, find_idempotent _ h 1⟩

/-- C8 (the second argument's root survives). In every reachable state and for all keys `x`
and `y`, let `r` be the root `find(y)` returns before the call, which is `y` itself when `y`
has no entry yet; then `unionSets(x, y)` returns and afterwards both `find(x)` and `find(y)`
return `r`, in either order. -/
theorem union_keeps_second_root (u : UnionFind) (hu : Reachable u) (x y : Int) :
    ∃ uy r, u.find y = some (uy, r) ∧ (lookup u.parent y = none → r = y) ∧
      ∃ u1, u.unionSets x y = some u1 ∧
        ∃ ux uxy uy1 uyx, u1.find x = some (ux, r) ∧ ux.find y = some (uxy, r) ∧
          u1.find y = some (uy1, r) ∧ uy1.find x = some (uyx, r) := by
  have hf := reachable_forest u hu
  obtain ⟨uy, r, h0, c0⟩ := find_total u hf y
  refine ⟨uy, r, h0, ?_, ?_⟩
  · intro hn
    exact hasRoot_unique _ y r y c0.root (hasRoot_of_absent _ y hn)
  · obtain ⟨u1, h1, _, hx, hy⟩ := unionSets_roots u hf x y r c0.root
    obtain ⟨ux, uxy, h2, h3⟩ := find_find u1 x y r r hx hy
    obtain ⟨uy1, uyx, h4, h5⟩ := find_find u1 y x r r hy hx
    exact ⟨u1, h1, ux, uxy, uy1, uyx, h2, h3, h4, h5⟩

/-- Witness of C8: on `1 → 2`, `unionSets(2, 5)` with the unknown key `5`. -/
theorem union_keeps_second_root_witness :
    Reachable ⟨[(1, 2), (2, 2)]⟩ ∧
    ∃ uy r, UnionFind.find ⟨[(1, 2), (2, 2)]⟩ 5 = some (uy, r) ∧
      (lookup (UnionFind.parent ⟨[(1, 2), (2, 2)]⟩) 5 = none → r = 5) ∧
      ∃ u1, UnionFind.unionSets ⟨[(1, 2), (2, 2)]⟩ 2 5 = some u1 ∧
        ∃ ux uxy uy1 uyx, u1.find 2 = some (ux, r) ∧ ux.find 5 = some (uxy, r) ∧
          u1.find 5 = some (uy1, r) ∧ uy1.find 2 = some (uyx, r) :=
  have h : Reachable ⟨[(1, 2), (2, 2)]⟩ :=
    @Reachable.unionSets UnionFind.empty ⟨[(1, 2), (2, 2)]⟩ 1 2 Reachable.empty (by decide)
  ⟨h, union_keeps_second_root _ h 2 5⟩

/-- C9 (forest invariant). Every reachable state is a forest: each value of the parent map
is a key of it and the chain of parents from any key ends in a key that is its own parent.
From any forest, `find` and `unionSets` return, and the state they leave is a forest. -/
theorem forest_invariant :
    (∀ u : UnionFind, Reachable u → Forest u.parent) ∧
    (∀ (u : UnionFind) (x : Int), Forest u.parent →
      ∃ u1 r, u.find x = some (u1, r) ∧ Forest u1.parent) ∧
    (∀ (u : UnionFind) (x y : Int), Forest u.parent →
      ∃ u1, u.unionSets x y = some u1 ∧ Forest u1.parent) := by
  refine ⟨reachable_forest, ?_, ?_⟩
  · intro u x hf
    obtain ⟨u1, r, h1, c1⟩ := find_total u hf x
    exact ⟨u1, r, h1, c1.forest hf⟩
  · intro u x y hf
    obtain ⟨u1, _, _, h1, hl⟩ := unionSets_total u hf x y
    exact ⟨u1, h1, hl.forest⟩

/-- Witness of C9 at the chain `1 → 2 → 3`: it is reachable, hence a forest, and `find(1)`
and `unionSets(1, 4)` return forests from it. -/
theorem forest_invariant_witness :
    Forest (UnionFind.parent ⟨[(1, 2), (2, 3), (3, 3)]⟩) ∧
    (∃ u1 r, UnionFind.find ⟨[(1, 2), (2, 3), (3, 3)]⟩ 1 = some (u1, r) ∧ Forest u1.parent) ∧
    (∃ u1, UnionFind.unionSets ⟨[(1, 2), (2, 3), (3, 3)]⟩ 1 4 = some u1 ∧ Forest u1.parent) :=
  have h : Reachable ⟨[(1, 2), (2, 3), (3, 3)]⟩ :=
    @Reachable.unionSets ⟨[(1, 2), (2, 2)]⟩ ⟨[(1, 2), (2, 3), (3, 3)]⟩ 2 3
      (@Reachable.unionSets UnionFind.empty ⟨[(1, 2), (2, 2)]⟩ 1 2 Reachable.empty (by decide))
      (by decide)
  have hf := forest_invariant.1 _ h
  ⟨hf, forest_invariant.2.1 _ 1 hf, forest_invariant.2.2 _ 1 4 hf⟩

/-! ## The managers: stores, invariant, one loop iteration -/

theorem mem_setInsert (s : List Int) (k j : Int) : j ∈ setInsert s k ↔ (j = k ∨ j ∈ s) := by
  induction s with
  | nil => simp [setInsert]
  | cons a t ih =>
    unfold setInsert
    split
    · simp
    · split
      · next h => subst h; simp
      · simp only [List.mem_cons, ih]
        tauto

theorem hasRoot_isKey (m : HashMap Int) (hf : Forest m) (k r : Int)
    (hk : lookup m k ≠ none) (hr : HasRoot m k r) : lookup m r ≠ none := by
  cases hl : lookup m k with
  | none => exact absurd hl hk
  | some v =>
    obtain ⟨n, e, _⟩ := hr
    obtain ⟨w, hw⟩ := iterate_par_isKey m hf.1 k v hl n
    rw [e] at hw
    simp [hw]

theorem rbTree_addSetStep_dup (s : LoopRB) (elem : Int)
    (h : elem ∈ s.mgr.rbTree) : CollectionManagerRBTree.addSetStep s elem = some s := by
  simp [CollectionManagerRBTree.addSetStep, h]

/-- One iteration on a key that is not yet present. -/
theorem rbTree_addSetStep_new (s : LoopRB) (elem : Int)
    (hinv : s.mgr.Inv) (h : elem ∉ s.mgr.rbTree) :
    ∃ uf rx, CollectionManagerRBTree.addSetStep s elem =
        some ⟨⟨uf, setInsert s.mgr.rbTree elem⟩,
          if s.firstNonDuplicate = -1 then elem else s.firstNonDuplicate,
          s.calls ++ [(if s.firstNonDuplicate = -1 then elem else s.firstNonDuplicate, elem)]⟩ ∧
      Linked s.mgr.unionFind.parent uf.parent
        (if s.firstNonDuplicate = -1 then elem else s.firstNonDuplicate) elem rx elem := by
  obtain ⟨uf, rx, ry, h1, hl⟩ := unionSets_total s.mgr.unionFind hinv.1
    (if s.firstNonDuplicate = -1 then elem else s.firstNonDuplicate) elem
  have habs : lookup s.mgr.unionFind.parent elem = none := by
    by_contra hc
    exact h ((hinv.2 elem).2 hc)
  have hry : ry = elem := hasRoot_unique _ elem ry elem hl.rootY (hasRoot_of_absent _ elem habs)
  subst hry
  refine ⟨uf, rx, ?_, hl⟩
  simp [CollectionManagerRBTree.addSetStep, h, h1]

theorem Frame.start (m0 : CollectionManagerRBTree) (h : m0.Inv) : Frame m0 ⟨m0, -1, []⟩ :=
  ⟨h, fun _ hk => hk, fun _ _ _ hr => hr, fun _ _ _ hj hj0 => absurd hj hj0, Or.inl rfl,
    fun _ hp => absurd hp (List.not_mem_nil _)⟩

theorem Frame.step {m0 : CollectionManagerRBTree} {s : LoopRB} (hF : Frame m0 s) (elem : Int) :
    ∃ s1, CollectionManagerRBTree.addSetStep s elem = some s1 ∧ Frame m0 s1 ∧
      ∀ k, k ∈ s1.mgr.rbTree ↔ (k ∈ s.mgr.rbTree ∨ k = elem) := by
  by_cases hmem : elem ∈ s.mgr.rbTree
  · refine ⟨s, rbTree_addSetStep_dup s elem hmem, hF, fun k => ?_⟩
    constructor
    · exact Or.inl
    · rintro (h | rfl)
      · exact h
      · exact hmem
  · obtain ⟨uf, rx, hstep, hl⟩ := rbTree_addSetStep_new s elem hF.inv hmem
    have hforest := hF.inv.1
    have hkeys := hF.inv.2
    have habs : lookup s.mgr.unionFind.parent elem = none := by
      by_contra hc
      exact hmem ((hkeys elem).2 hc)
    -- the representative is the new key itself or an earlier new key of this call
    have hrep : (if s.firstNonDuplicate = -1 then elem else s.firstNonDuplicate) = elem ∨
        ((if s.firstNonDuplicate = -1 then elem else s.firstNonDuplicate) ∈ s.mgr.rbTree ∧
         (if s.firstNonDuplicate = -1 then elem else s.firstNonDuplicate) ∉ m0.rbTree) := by
      split
      · exact Or.inl rfl
      · next hne =>
        rcases hF.fnd with h | h
        · exact absurd h hne
        · exact Or.inr h
    generalize (if s.firstNonDuplicate = -1 then elem else s.firstNonDuplicate) = rep at *
    -- an old key never has the root of the representative
    have hold : ∀ k, k ∈ m0.rbTree → ∀ r, HasRoot s.mgr.unionFind.parent k r → r ≠ rx ∧
        r ≠ elem := by
      intro k hk r hr
      have hkey : lookup s.mgr.unionFind.parent r ≠ none :=
        hasRoot_isKey _ hforest k r ((hkeys k).1 (hF.mono k hk)) hr
      have hre : r ≠ elem := fun e => hkey (e ▸ habs)
      refine ⟨?_, hre⟩
      rcases hrep with e | ⟨h1, h2⟩
      · subst e
        rw [hasRoot_unique _ _ rx _ hl.rootX (hasRoot_of_absent _ _ habs)]
        exact hre
      · intro e
        subst e
        exact hF.newSep k hk rep h1 h2 r hr hl.rootX
    have hold1 : ∀ k, k ∈ m0.rbTree → ∀ r, HasRoot s.mgr.unionFind.parent k r →
        HasRoot uf.parent k r := by
      intro k hk r hr
      have := hl.hasRoot k r hr
      rwa [if_neg (hold k hk r hr).1] at this
    refine ⟨_, hstep, ⟨⟨hl.forest, ?_⟩, ?_, ?_, ?_, ?_, ?_⟩, ?_⟩
    · intro k
      show k ∈ setInsert s.mgr.rbTree elem ↔ lookup uf.parent k ≠ none
      rw [mem_setInsert, hl.keys k, hkeys k]
      constructor
      · rintro (h | h)
        · exact Or.inr (Or.inr h)
        · exact Or.inl h
      · rintro (h | h | h)
        · exact Or.inr h
        · rcases hrep with e | ⟨h1, _⟩
          · exact Or.inl (h.trans e)
          · exact Or.inr (h ▸ (hkeys rep).1 h1)
        · exact Or.inl h
    · intro k hk
      show k ∈ setInsert s.mgr.rbTree elem
      exact (mem_setInsert _ _ _).2 (Or.inr (hF.mono k hk))
    · intro k hk r hr
      exact hold1 k hk r (hF.oldRoot k hk r hr)
    · intro k hk j hj hj0 r hkr hjr
      change j ∈ setInsert s.mgr.rbTree elem at hj
      change HasRoot uf.parent k r at hkr
      change HasRoot uf.parent j r at hjr
      obtain ⟨rk, hrk⟩ := ((forest_iff _).1 hforest).2 k
      have e1 : r = rk := hasRoot_unique _ k r rk hkr (hold1 k hk rk hrk)
      subst e1
      obtain ⟨rj, hrj⟩ := ((forest_iff _).1 hforest).2 j
      have hj2 := hl.hasRoot j rj hrj
      have e2 : r = (if rj = rx then elem else rj) := hasRoot_unique _ j _ _ hjr hj2
      split at e2
      · exact (hold k hk r hrk).2 e2
      · subst e2
        rcases (mem_setInsert _ _ _).1 hj with e | hjs
        · subst e
          exact (hold k hk r hrk).2
            (hasRoot_unique _ j r j hrj (hasRoot_of_absent _ j habs))
        · exact hF.newSep k hk j hjs hj0 r hrk hrj
    · show rep = -1 ∨ (rep ∈ setInsert s.mgr.rbTree elem ∧ rep ∉ m0.rbTree)
      right
      rcases hrep with e | ⟨h1, h2⟩
      · subst e
        exact ⟨(mem_setInsert _ _ _).2 (Or.inl rfl), fun h => hmem (hF.mono _ h)⟩
      · exact ⟨(mem_setInsert _ _ _).2 (Or.inr h1), h2⟩
    · intro p hp
      change p ∈ s.calls ++ [(rep, elem)] at hp
      rcases List.mem_append.1 hp with h | h
      · exact hF.callsNew p h
      · rw [List.mem_singleton] at h
        subst h
        refine ⟨?_, fun h => hmem (hF.mono _ h)⟩
        rcases hrep with e | ⟨_, h2⟩
        · rw [e]; exact fun h => hmem (hF.mono _ h)
        · exact h2
    · intro k
      show k ∈ setInsert s.mgr.rbTree elem ↔ _
      rw [mem_setInsert]
      tauto

theorem Frame.loop {m0 : CollectionManagerRBTree} (batch : List Int) :
    ∀ s : LoopRB, Frame m0 s →
    ∃ s1, CollectionManagerRBTree.addSetLoop s batch = some s1 ∧ Frame m0 s1 ∧
      ∀ k, k ∈ s1.mgr.rbTree ↔ (k ∈ s.mgr.rbTree ∨ k ∈ batch) := by
  induction batch with
  | nil =>
    intro s hF
    exact ⟨s, rfl, hF, fun k => by simp⟩
  | cons elem rest ih =>
    intro s hF
    obtain ⟨s1, h1, hF1, hk1⟩ := hF.step elem
    obtain ⟨s2, h2, hF2, hk2⟩ := ih s1 hF1
    refine ⟨s2, ?_, hF2, fun k => ?_⟩
    · simp [CollectionManagerRBTree.addSetLoop, h1, h2]
    · rw [hk2 k, hk1 k, List.mem_cons]
      tauto

theorem rbTree_inv_fresh : CollectionManagerRBTree.fresh.Inv :=
  ⟨forest_nil, fun k => by simp [CollectionManagerRBTree.fresh, UnionFind.empty, lookup]⟩

/-- On a manager satisfying the invariant `addSet` returns; the loop ends in a state that
satisfies the frame invariant, and the store has gained exactly the keys of the batch. -/
theorem rbTree_addSet_frame (m : CollectionManagerRBTree) (h : m.Inv)
    (batch : List Int) :
    ∃ s1, CollectionManagerRBTree.addSetLoop ⟨m, -1, []⟩ batch = some s1 ∧
      m.addSet batch = some s1.mgr ∧ Frame m s1 ∧
      ∀ k, k ∈ s1.mgr.rbTree ↔ (k ∈ m.rbTree ∨ k ∈ batch) := by
  obtain ⟨s1, h1, hF, hk⟩ := Frame.loop batch ⟨m, -1, []⟩ (Frame.start m h)
  exact ⟨s1, h1, by simp [CollectionManagerRBTree.addSet, h1], hF, hk⟩

theorem rbTree_reachable_inv (m : CollectionManagerRBTree)
    (h : CollectionManagerRBTree.Reachable m) : m.Inv := by
  induction h with
  | fresh => exact rbTree_inv_fresh
  | addSet _ hadd ih =>
    obtain ⟨s1, _, h2, hF, _⟩ := rbTree_addSet_frame _ ih _
    rw [h2] at hadd
    simp only [Option.some.injEq] at hadd
    subst hadd
    exact hF.inv

/-- The group of an old key after `addSet` is its group before the call. -/
theorem Frame.group_eq {m0 : CollectionManagerRBTree} {s : LoopRB} (hF : Frame m0 s)
    (h0 : m0.Inv) (k : Int) (hk : k ∈ m0.rbTree) (j : Int) :
    (lookup s.mgr.unionFind.parent j ≠ none ∧
        s.mgr.unionFind.root j = s.mgr.unionFind.root k) ↔
    (lookup m0.unionFind.parent j ≠ none ∧
        m0.unionFind.root j = m0.unionFind.root k) := by
  obtain ⟨rk, hrk⟩ := ((forest_iff _).1 h0.1).2 k
  have hrk1 := hF.oldRoot k hk rk hrk
  have e0 : m0.unionFind.root k = some rk := (root_eq_some_iff _ _ _).2 hrk
  have e1 : s.mgr.unionFind.root k = some rk := (root_eq_some_iff _ _ _).2 hrk1
  rw [e0, e1, root_eq_some_iff, root_eq_some_iff]
  constructor
  · rintro ⟨hj, hjr⟩
    have hjs : j ∈ s.mgr.rbTree := (hF.inv.2 j).2 hj
    by_cases hj0 : j ∈ m0.rbTree
    · refine ⟨(h0.2 j).1 hj0, ?_⟩
      obtain ⟨rj, hrj⟩ := ((forest_iff _).1 h0.1).2 j
      rw [hasRoot_unique _ j rk rj hjr (hF.oldRoot j hj0 rj hrj)]
      exact hrj
    · exact absurd hjr (hF.newSep k hk j hjs hj0 rk hrk1)
  · rintro ⟨hj, hjr⟩
    have hj0 : j ∈ m0.rbTree := (h0.2 j).2 hj
    exact ⟨(hF.inv.2 j).1 (hF.mono j hj0), hF.oldRoot j hj0 rk hjr⟩

/-! ## The map-backed manager simulates the set-backed one -/

theorem mem_keys_iff {V : Type} (m : HashMap V) (k : Int) :
    k ∈ m.map Prod.fst ↔ lookup m k ≠ none := by
  induction m with
  | nil => simp [lookup]
  | cons hd t ih =>
    obtain ⟨a, b⟩ := hd
    by_cases hak : a = k
    · simp [lookup, hak]
    · have hka : ¬ k = a := fun e => hak e.symm
      simp [lookup, hak, hka, ih]

theorem sim_toRBTree (d : CollectionManagerBDD) : Sim d.toRBTree d :=
  ⟨rfl, fun k => mem_keys_iff d.bddData k⟩

theorem sim_step (t : LoopRB) (s : LoopBDD) (hs : Sim t.mgr s.mgr)
    (hf : t.firstNonDuplicate = s.firstNonDuplicate) (hc : t.calls = s.calls) (elem : Int)
    (t1 : LoopRB) (h : CollectionManagerRBTree.addSetStep t elem = some t1) :
    ∃ s1, CollectionManagerBDD.addSetStep s elem = some s1 ∧ Sim t1.mgr s1.mgr ∧
      t1.firstNonDuplicate = s1.firstNonDuplicate ∧ t1.calls = s1.calls := by
  by_cases hmem : elem ∈ t.mgr.rbTree
  · rw [rbTree_addSetStep_dup t elem hmem] at h
    simp only [Option.some.injEq] at h
    subst h
    exact ⟨s, by simp [CollectionManagerBDD.addSetStep, (hs.2 elem).1 hmem], hs, hf, hc⟩
  · have hmem1 : lookup s.mgr.bddData elem = none := by
      by_contra hcon
      exact hmem ((hs.2 elem).2 hcon)
    unfold CollectionManagerRBTree.addSetStep at h
    simp only [hmem, if_false] at h
    cases hu : t.mgr.unionFind.unionSets
        (if t.firstNonDuplicate = -1 then elem else t.firstNonDuplicate) elem with
    | none => simp [hu] at h
    | some uf =>
      simp only [hu, Option.some.injEq] at h
      subst h
      refine ⟨⟨⟨uf, assign s.mgr.bddData elem true⟩,
        if s.firstNonDuplicate = -1 then elem else s.firstNonDuplicate,
        s.calls ++ [(if s.firstNonDuplicate = -1 then elem else s.firstNonDuplicate, elem)]⟩,
        ?_, ⟨rfl, fun k => ?_⟩, ?_, ?_⟩
      · rw [hs.1, hf] at hu
        simp [CollectionManagerBDD.addSetStep, hmem1, hu]
      · show k ∈ setInsert t.mgr.rbTree elem ↔ lookup (assign s.mgr.bddData elem true) k ≠ none
        rw [mem_setInsert, lookup_assign, hs.2 k]
        by_cases hk : k = elem
        · simp [hk]
        · simp [hk]
      · simp [hf]
      · simp [hf, hc]

theorem sim_loop (batch : List Int) : ∀ (t : LoopRB) (s : LoopBDD), Sim t.mgr s.mgr →
    t.firstNonDuplicate = s.firstNonDuplicate → t.calls = s.calls →
    ∀ t1, CollectionManagerRBTree.addSetLoop t batch = some t1 →
    ∃ s1, CollectionManagerBDD.addSetLoop s batch = some s1 ∧ Sim t1.mgr s1.mgr ∧
      t1.firstNonDuplicate = s1.firstNonDuplicate ∧ t1.calls = s1.calls := by
  induction batch with
  | nil =>
    intro t s hs hf hc t1 h
    simp only [CollectionManagerRBTree.addSetLoop, Option.some.injEq] at h
    subst h
    exact ⟨s, rfl, hs, hf, hc⟩
  | cons elem rest ih =>
    intro t s hs hf hc t1 h
    unfold CollectionManagerRBTree.addSetLoop at h
    cases hq : CollectionManagerRBTree.addSetStep t elem with
    | none => simp [hq] at h
    | some t2 =>
      simp only [hq] at h
      obtain ⟨s2, h2, hs2, hf2, hc2⟩ := sim_step t s hs hf hc elem t2 hq
      obtain ⟨s1, h1, hs1, hf1, hc1⟩ := ih t2 s2 hs2 hf2 hc2 t1 h
      exact ⟨s1, by simp [CollectionManagerBDD.addSetLoop, h2, h1], hs1, hf1, hc1⟩

/-- Whatever `addSet` does on the set-backed manager, it does on a map-backed manager with
the same union-find and the same present keys. -/
theorem sim_addSet (r : CollectionManagerRBTree) (d : CollectionManagerBDD) (hs : Sim r d)
    (batch : List Int) (t1 : LoopRB)
    (h : CollectionManagerRBTree.addSetLoop ⟨r, -1, []⟩ batch = some t1) :
    ∃ s1, CollectionManagerBDD.addSetLoop ⟨d, -1, []⟩ batch = some s1 ∧
      d.addSet batch = some s1.mgr ∧ Sim t1.mgr s1.mgr ∧
      t1.firstNonDuplicate = s1.firstNonDuplicate ∧ t1.calls = s1.calls := by
  obtain ⟨s1, h1, hs1, hf1, hc1⟩ := sim_loop batch ⟨r, -1, []⟩ ⟨d, -1, []⟩ hs rfl rfl t1 h
  exact ⟨s1, h1, by simp [CollectionManagerBDD.addSet, h1], hs1, hf1, hc1⟩

theorem inv_of_sim (r : CollectionManagerRBTree) (d : CollectionManagerBDD) (hs : Sim r d) :
    r.Inv ↔ d.Inv := by
  unfold CollectionManagerRBTree.Inv CollectionManagerBDD.Inv
  rw [hs.1]
  constructor
  · rintro ⟨h1, h2⟩
    exact ⟨h1, fun k => by rw [← hs.2 k, h2 k]⟩
  · rintro ⟨h1, h2⟩
    exact ⟨h1, fun k => by rw [hs.2 k, h2 k]⟩

theorem bdd_inv_fresh : CollectionManagerBDD.fresh.Inv :=
  ⟨forest_nil, fun k => by simp [CollectionManagerBDD.fresh, UnionFind.empty, lookup]⟩

/-- The counterpart of `addSet_frame` for the map-backed manager, through the simulation. -/
theorem bdd_addSet_frame (d : CollectionManagerBDD) (h : d.Inv)
    (batch : List Int) :
    ∃ (t1 : LoopRB) (s1 : LoopBDD),
      CollectionManagerBDD.addSetLoop ⟨d, -1, []⟩ batch = some s1 ∧
      d.addSet batch = some s1.mgr ∧ Frame d.toRBTree t1 ∧ Sim t1.mgr s1.mgr ∧
      t1.firstNonDuplicate = s1.firstNonDuplicate ∧ t1.calls = s1.calls ∧
      ∀ k, lookup s1.mgr.bddData k ≠ none ↔ (lookup d.bddData k ≠ none ∨ k ∈ batch) := by
  have hr : d.toRBTree.Inv := (inv_of_sim _ d (sim_toRBTree d)).2 h
  obtain ⟨t1, h1, _, hF, hk⟩ := rbTree_addSet_frame d.toRBTree hr batch
  obtain ⟨s1, h3, h4, hs1, hf1, hc1⟩ := sim_addSet d.toRBTree d (sim_toRBTree d) batch t1 h1
  refine ⟨t1, s1, h3, h4, hF, hs1, hf1, hc1, fun k => ?_⟩
  rw [← hs1.2 k, hk k, (sim_toRBTree d).2 k]

theorem bdd_reachable_inv (m : CollectionManagerBDD)
    (h : CollectionManagerBDD.Reachable m) : m.Inv := by
  induction h with
  | fresh => exact bdd_inv_fresh
  | addSet _ hadd ih =>
    obtain ⟨t1, s1, _, h2, hF, hs1, _⟩ := bdd_addSet_frame _ ih _
    rw [h2] at hadd
    simp only [Option.some.injEq] at hadd
    subst hadd
    exact (inv_of_sim _ _ hs1).1 hF.inv

/-! ## Sequences of batches -/

theorem markers_step (s s1 : LoopBDD) (elem : Int) (hm : s.mgr.MarkersTrue)
    (h : CollectionManagerBDD.addSetStep s elem = some s1) : s1.mgr.MarkersTrue := by
  unfold CollectionManagerBDD.addSetStep at h
  by_cases hmem : lookup s.mgr.bddData elem ≠ none
  · rw [if_pos hmem] at h
    simp only [Option.some.injEq] at h
    subst h
    exact hm
  · rw [if_neg hmem] at h
    cases hu : s.mgr.unionFind.unionSets
        (if s.firstNonDuplicate = -1 then elem else s.firstNonDuplicate) elem with
    | none => simp [hu] at h
    | some uf =>
      simp only [hu, Option.some.injEq] at h
      subst h
      intro k v hk
      change lookup (assign s.mgr.bddData elem true) k = some v at hk
      rw [lookup_assign] at hk
      split at hk
      · simp only [Option.some.injEq] at hk
        exact hk.symm
      · exact hm k v hk

theorem markers_loop (batch : List Int) : ∀ (s s1 : LoopBDD), s.mgr.MarkersTrue →
    CollectionManagerBDD.addSetLoop s batch = some s1 → s1.mgr.MarkersTrue := by
  induction batch with
  | nil =>
    intro s s1 hm h
    simp only [CollectionManagerBDD.addSetLoop, Option.some.injEq] at h
    subst h
    exact hm
  | cons elem rest ih =>
    intro s s1 hm h
    unfold CollectionManagerBDD.addSetLoop at h
    cases hq : CollectionManagerBDD.addSetStep s elem with
    | none => simp [hq] at h
    | some s2 =>
      simp only [hq] at h
      exact ih s2 s1 (markers_step s s2 elem hm hq) h

/-- Both managers run a whole sequence of batches in lockstep. -/
theorem addSets_lockstep (batches : List (List Int)) :
    ∀ (r : CollectionManagerRBTree) (d : CollectionManagerBDD), Sim r d → r.Inv →
      d.MarkersTrue →
    ∃ r1 d1, CollectionManagerRBTree.addSets r batches = some r1 ∧
      CollectionManagerBDD.addSets d batches = some d1 ∧ Sim r1 d1 ∧ r1.Inv ∧
      d1.MarkersTrue ∧
      ∀ k, k ∈ r1.rbTree ↔ (k ∈ r.rbTree ∨ ∃ b, b ∈ batches ∧ k ∈ b) := by
  induction batches with
  | nil =>
    intro r d hs hi hm
    exact ⟨r, d, rfl, rfl, hs, hi, hm, fun k => by simp⟩
  | cons b bs ih =>
    intro r d hs hi hm
    obtain ⟨t1, h1, h2, hF, hk⟩ := rbTree_addSet_frame r hi b
    obtain ⟨s1, h3, h4, hs1, _, _⟩ := sim_addSet r d hs b t1 h1
    have hm1 : s1.mgr.MarkersTrue := markers_loop b _ s1 hm h3
    obtain ⟨r1, d1, h5, h6, hs2, hi2, hm2, hk2⟩ := ih t1.mgr s1.mgr hs1 hF.inv hm1
    refine ⟨r1, d1, ?_, ?_, hs2, hi2, hm2, fun k => ?_⟩
    · simp [CollectionManagerRBTree.addSets, h2, h5]
    · simp [CollectionManagerBDD.addSets, h4, h6]
    · rw [hk2 k, hk k]
      simp only [List.mem_cons, exists_eq_or_imp]
      tauto

theorem sim_fresh : Sim CollectionManagerRBTree.fresh CollectionManagerBDD.fresh :=
  ⟨rfl, fun k => by simp [CollectionManagerRBTree.fresh, CollectionManagerBDD.fresh, lookup]⟩

theorem markers_fresh : CollectionManagerBDD.fresh.MarkersTrue := by
  intro k v h
  simp [CollectionManagerBDD.fresh, lookup] at h

/-! ## The representative of a batch -/

/-- One iteration after the representative `f ≠ -1` has been chosen: a new key becomes the
root of all keys inserted by this call. -/
theorem rep_step {m0 : CollectionManagerRBTree} {f : Int} {s : LoopRB} {r : Int}
    (hR : Rep m0 f s r) (hne : f ≠ -1) (elem : Int) :
    ∃ s1, CollectionManagerRBTree.addSetStep s elem = some s1 ∧
      Rep m0 f s1 (if elem ∈ s.mgr.rbTree then r else elem) ∧
      ∀ k, k ∈ s1.mgr.rbTree ↔ (k ∈ s.mgr.rbTree ∨ k = elem) := by
  obtain ⟨s1, h1, hF1, hk1⟩ := hR.frame.step elem
  refine ⟨s1, h1, ?_, hk1⟩
  by_cases hmem : elem ∈ s.mgr.rbTree
  · rw [rbTree_addSetStep_dup s elem hmem] at h1
    simp only [Option.some.injEq] at h1
    subst h1
    rw [if_pos hmem]
    exact hR
  · rw [if_neg hmem]
    obtain ⟨uf, rx, hstep, hl⟩ := rbTree_addSetStep_new s elem hR.frame.inv hmem
    rw [hstep] at h1
    simp only [Option.some.injEq] at h1
    subst h1
    have hfnd : (if s.firstNonDuplicate = -1 then elem else s.firstNonDuplicate) = f := by
      rw [hR.rep, if_neg hne]
    rw [hfnd] at hl
    have habs : lookup s.mgr.unionFind.parent elem = none := by
      by_contra hc
      exact hmem ((hR.frame.inv.2 elem).2 hc)
    have hrx : rx = r :=
      hasRoot_unique _ f rx r hl.rootX (hR.sameRoot f hR.isNew.1 hR.isNew.2)
    have helem : elem ∉ m0.rbTree := fun h => hmem (hR.frame.mono _ h)
    refine ⟨hF1, hfnd, ⟨(mem_setInsert _ _ _).2 (Or.inr hR.isNew.1), hR.isNew.2⟩,
      ⟨(mem_setInsert _ _ _).2 (Or.inl rfl), helem⟩, ?_⟩
    intro j hj hj0
    change j ∈ setInsert s.mgr.rbTree elem at hj
    show HasRoot uf.parent j elem
    rcases (mem_setInsert _ _ _).1 hj with e | hjs
    · subst e
      have := hl.hasRoot j j (hasRoot_of_absent _ j habs)
      split at this <;> exact this
    · have := hl.hasRoot j r (hR.sameRoot j hjs hj0)
      rwa [if_pos hrx.symm] at this

theorem rep_loop {m0 : CollectionManagerRBTree} {f : Int} (hne : f ≠ -1) (batch : List Int) :
    ∀ (s : LoopRB) (r : Int), Rep m0 f s r →
    ∃ s1 r1, CollectionManagerRBTree.addSetLoop s batch = some s1 ∧ Rep m0 f s1 r1 ∧
      ∀ k, k ∈ s1.mgr.rbTree ↔ (k ∈ s.mgr.rbTree ∨ k ∈ batch) := by
  induction batch with
  | nil =>
    intro s r hR
    exact ⟨s, r, rfl, hR, fun k => by simp⟩
  | cons elem rest ih =>
    intro s r hR
    obtain ⟨s1, h1, hR1, hk1⟩ := rep_step hR hne elem
    obtain ⟨s2, r2, h2, hR2, hk2⟩ := ih s1 _ hR1
    refine ⟨s2, r2, ?_, hR2, fun k => ?_⟩
    · simp [CollectionManagerRBTree.addSetLoop, h1, h2]
    · rw [hk2 k, hk1 k, List.mem_cons]
      tauto

theorem rbTree_addSetLoop_skip (pre rest : List Int) (s : LoopRB)
    (h : ∀ k, k ∈ pre → k ∈ s.mgr.rbTree) :
    CollectionManagerRBTree.addSetLoop s (pre ++ rest) =
      CollectionManagerRBTree.addSetLoop s rest := by
  induction pre with
  | nil => rfl
  | cons elem pre ih =>
    rw [List.cons_append]
    conv_lhs => unfold CollectionManagerRBTree.addSetLoop
    rw [rbTree_addSetStep_dup s elem (h elem (List.mem_cons_self _ _))]
    exact ih (fun k hk => h k (List.mem_cons_of_mem _ hk))

/-- The first new key `f ≠ -1` of a batch becomes the representative and stays it: the
loop ends with every key inserted by the call under one root. -/
theorem rep_addSet (m : CollectionManagerRBTree) (hi : m.Inv) (pre rest : List Int) (f : Int)
    (hpre : ∀ k, k ∈ pre → k ∈ m.rbTree) (hf : f ∉ m.rbTree) (hne : f ≠ -1) :
    ∃ s1 r1, CollectionManagerRBTree.addSetLoop ⟨m, -1, []⟩ (pre ++ f :: rest) = some s1 ∧
      Rep m f s1 r1 ∧ ∀ k, k ∈ s1.mgr.rbTree ↔ (k ∈ m.rbTree ∨ k ∈ pre ++ f :: rest) := by
  have hF0 := Frame.start m hi
  obtain ⟨s1, h1, hF1, hk1⟩ := hF0.step f
  obtain ⟨uf, rx, hstep, hl⟩ := rbTree_addSetStep_new ⟨m, -1, []⟩ f hi hf
  rw [hstep] at h1
  simp only [Option.some.injEq] at h1
  subst h1
  simp only [if_true] at hl hF1 hk1
  have habs : lookup m.unionFind.parent f = none := by
    by_contra hc
    exact hf ((hi.2 f).2 hc)
  have hR1 : Rep m f ⟨⟨uf, setInsert m.rbTree f⟩, f, [] ++ [(f, f)]⟩ f := by
    refine ⟨hF1, rfl, ⟨(mem_setInsert _ _ _).2 (Or.inl rfl), hf⟩,
      ⟨(mem_setInsert _ _ _).2 (Or.inl rfl), hf⟩, ?_⟩
    intro j hj hj0
    change j ∈ setInsert m.rbTree f at hj
    show HasRoot uf.parent j f
    rcases (mem_setInsert _ _ _).1 hj with e | hjs
    · subst e
      have := hl.hasRoot j j (hasRoot_of_absent _ j habs)
      split at this <;> exact this
    · exact absurd hjs hj0
  obtain ⟨s2, r2, h2, hR2, hk2⟩ := rep_loop hne rest _ f hR1
  refine ⟨s2, r2, ?_, hR2, fun k => ?_⟩
  · rw [rbTree_addSetLoop_skip pre (f :: rest) ⟨m, -1, []⟩ hpre]
    conv_lhs => unfold CollectionManagerRBTree.addSetLoop
    simp only [hstep, if_true]
    exact h2
  · rw [hk2 k]
    change (k ∈ setInsert m.rbTree f ∨ k ∈ rest) ↔ _
    rw [mem_setInsert, List.mem_append, List.mem_cons]
    constructor
    · rintro ((h | h) | h)
      · exact Or.inr (Or.inr (Or.inl h))
      · exact Or.inl h
      · exact Or.inr (Or.inr (Or.inr h))
    · rintro (h | h | h | h)
      · exact Or.inl (Or.inr h)
      · exact Or.inl (Or.inr (hpre k h))
      · exact Or.inl (Or.inl h)
      · exact Or.inr h

/-- The representative convention where the code keeps it. On a reachable manager of either
variant, let `f` be the first key of the batch that is not yet present; if `f ≠ -1`, then
`addSet` returns and every key of the batch that was not present before has the `find`
root of `f`. -/
theorem representative_convention_of_ne :
    (∀ (m : CollectionManagerRBTree), CollectionManagerRBTree.Reachable m →
      ∀ (pre rest : List Int) (f : Int), (∀ k, k ∈ pre → k ∈ m.rbTree) → f ∉ m.rbTree →
      f ≠ -1 →
      ∃ m1, m.addSet (pre ++ f :: rest) = some m1 ∧
        ∀ k, k ∈ pre ++ f :: rest → k ∉ m.rbTree →
          m1.unionFind.root k = m1.unionFind.root f) ∧
    (∀ (m : CollectionManagerBDD), CollectionManagerBDD.Reachable m →
      ∀ (pre rest : List Int) (f : Int), (∀ k, k ∈ pre → lookup m.bddData k ≠ none) →
      lookup m.bddData f = none → f ≠ -1 →
      ∃ m1, m.addSet (pre ++ f :: rest) = some m1 ∧
        ∀ k, k ∈ pre ++ f :: rest → lookup m.bddData k = none →
          m1.unionFind.root k = m1.unionFind.root f) := by
  have key : ∀ (m : CollectionManagerRBTree), m.Inv →
      ∀ (pre rest : List Int) (f : Int), (∀ k, k ∈ pre → k ∈ m.rbTree) → f ∉ m.rbTree →
      f ≠ -1 →
      ∃ s1, CollectionManagerRBTree.addSetLoop ⟨m, -1, []⟩ (pre ++ f :: rest) = some s1 ∧
        ∀ k, k ∈ pre ++ f :: rest → k ∉ m.rbTree →
          s1.mgr.unionFind.root k = s1.mgr.unionFind.root f := by
    intro m hi pre rest f hpre hf hne
    obtain ⟨s1, r1, h1, hR, hk⟩ := rep_addSet m hi pre rest f hpre hf hne
    refine ⟨s1, h1, fun k hkb hk0 => ?_⟩
    have hks : k ∈ s1.mgr.rbTree := (hk k).2 (Or.inr hkb)
    rw [(root_eq_some_iff _ _ _).2 (hR.sameRoot k hks hk0),
      (root_eq_some_iff _ _ _).2 (hR.sameRoot f hR.isNew.1 hR.isNew.2)]
  constructor
  · intro m hm pre rest f hpre hf hne
    obtain ⟨s1, h1, h2⟩ := key m (rbTree_reachable_inv m hm) pre rest f hpre hf hne
    exact ⟨s1.mgr, by simp [CollectionManagerRBTree.addSet, h1], h2⟩
  · intro m hm pre rest f hpre hf hne
    have hs := sim_toRBTree m
    have hi : m.toRBTree.Inv := (inv_of_sim _ m hs).2 (bdd_reachable_inv m hm)
    obtain ⟨t1, h1, h2⟩ := key m.toRBTree hi pre rest f
      (fun k hk => (hs.2 k).2 (hpre k hk)) (fun h => (hs.2 f).1 h hf) hne
    obtain ⟨s1, _, h4, hs1, _, _⟩ := sim_addSet m.toRBTree m hs _ t1 h1
    refine ⟨s1.mgr, h4, fun k hkb hk0 => ?_⟩
    rw [← hs1.1]
    exact h2 k hkb (fun h => (hs.2 k).1 h hk0)

/-- The representative convention at work: on the set-backed manager holding `1` and `2`, the
batch `[2, 7, -1, 1, 9]` has first new key `7`. -/
theorem representative_convention_of_ne_witness :
    ∃ m1, CollectionManagerRBTree.addSet ⟨⟨[(1, 2), (2, 2)]⟩, [1, 2]⟩ ([2] ++ 7 :: [-1, 1, 9])
        = some m1 ∧
      ∀ k, k ∈ [2] ++ 7 :: [-1, 1, 9] → k ∉ ([1, 2] : List Int) →
        m1.unionFind.root k = m1.unionFind.root 7 :=
  representative_convention_of_ne.1 ⟨⟨[(1, 2), (2, 2)]⟩, [1, 2]⟩
    (@CollectionManagerRBTree.Reachable.addSet CollectionManagerRBTree.fresh
      ⟨⟨[(1, 2), (2, 2)]⟩, [1, 2]⟩ [1, 2] CollectionManagerRBTree.Reachable.fresh (by decide))
    [2] [-1, 1, 9] 7 (by decide) (by decide) (by decide)

/-! ## The claims on the managers -/

/-- C2 (representative convention), evaluated where the code departs from it. On a fresh
manager the batch `[-1, 5]` has first new key `-1` and second new key `5`, yet afterwards
`find(5)` returns `5` and `find(-1)` returns `-1`: the only calls made are
`unionSets(-1, -1)` and `unionSets(5, 5)`, because `firstNonDuplicate == -1` still reads as
"unset" after `-1` was stored in it.  Both variants behave alike.  The batch
`[1, 2, 4, 6, 8, 9]` of the specification does end with `find(2) = find(1) = find(9)`. -/
theorem representative_sentinel_collision :
    (CollectionManagerRBTree.addSetLoop ⟨CollectionManagerRBTree.fresh, -1, []⟩ [-1, 5] =
        some ⟨⟨⟨[(-1, -1), (5, 5)]⟩, [-1, 5]⟩, 5, [(-1, -1), (5, 5)]⟩ ∧
      UnionFind.root ⟨[(-1, -1), (5, 5)]⟩ 5 = some 5 ∧
      UnionFind.root ⟨[(-1, -1), (5, 5)]⟩ (-1) = some (-1)) ∧
    (CollectionManagerBDD.addSetLoop ⟨CollectionManagerBDD.fresh, -1, []⟩ [-1, 5] =
        some ⟨⟨⟨[(-1, -1), (5, 5)]⟩, [(-1, true), (5, true)]⟩, 5, [(-1, -1), (5, 5)]⟩) ∧
    (∃ m, CollectionManagerRBTree.addSet CollectionManagerRBTree.fresh [1, 2, 4, 6, 8, 9] =
        some m ∧ m.unionFind.root 2 = m.unionFind.root 1 ∧
        m.unionFind.root 9 = m.unionFind.root 1) := by
  refine ⟨by decide, by decide, ⟨⟨⟨[(1, 8), (2, 4), (4, 6), (6, 8), (8, 9), (9, 9)]⟩,
    [1, 2, 4, 6, 8, 9]⟩, by decide, by decide, by decide⟩⟩

/-- C4 (dedup invariant). For every reachable manager of either variant, every batch and
every key `k` already present in the membership store, `addSet(batch)` returns, no
`unionSets` call of the loop has `k` as an argument, and the group of `k` (the keys of the
parent map whose `find` root is that of `k`) is the same after the call as before it. -/
theorem dedup_invariant :
    (∀ (m : CollectionManagerRBTree), CollectionManagerRBTree.Reachable m →
      ∀ (batch : List Int) (k : Int), k ∈ m.rbTree →
      ∃ s1, CollectionManagerRBTree.addSetLoop ⟨m, -1, []⟩ batch = some s1 ∧
        m.addSet batch = some s1.mgr ∧
        (∀ p, p ∈ s1.calls → p.1 ≠ k ∧ p.2 ≠ k) ∧
        ∀ j, (lookup s1.mgr.unionFind.parent j ≠ none ∧
              s1.mgr.unionFind.root j = s1.mgr.unionFind.root k) ↔
            (lookup m.unionFind.parent j ≠ none ∧
              m.unionFind.root j = m.unionFind.root k)) ∧
    (∀ (m : CollectionManagerBDD), CollectionManagerBDD.Reachable m →
      ∀ (batch : List Int) (k : Int), lookup m.bddData k ≠ none →
      ∃ s1, CollectionManagerBDD.addSetLoop ⟨m, -1, []⟩ batch = some s1 ∧
        m.addSet batch = some s1.mgr ∧
        (∀ p, p ∈ s1.calls → p.1 ≠ k ∧ p.2 ≠ k) ∧
        ∀ j, (lookup s1.mgr.unionFind.parent j ≠ none ∧
              s1.mgr.unionFind.root j = s1.mgr.unionFind.root k) ↔
            (lookup m.unionFind.parent j ≠ none ∧
              m.unionFind.root j = m.unionFind.root k)) := by
  constructor
  · intro m hm batch k hk
    have hi := rbTree_reachable_inv m hm
    obtain ⟨s1, h1, h2, hF, _⟩ := rbTree_addSet_frame m hi batch
    refine ⟨s1, h1, h2, fun p hp => ?_, hF.group_eq hi k hk⟩
    obtain ⟨a, b⟩ := hF.callsNew p hp
    exact ⟨fun e => a (e ▸ hk), fun e => b (e ▸ hk)⟩
  · intro m hm batch k hk
    have hi := bdd_reachable_inv m hm
    obtain ⟨t1, s1, h1, h2, hF, hs1, _, hc1, _⟩ := bdd_addSet_frame m hi batch
    have hk0 : k ∈ m.toRBTree.rbTree := ((sim_toRBTree m).2 k).2 hk
    have hi0 : m.toRBTree.Inv := (inv_of_sim _ m (sim_toRBTree m)).2 hi
    refine ⟨s1, h1, h2, fun p hp => ?_, ?_⟩
    · obtain ⟨a, b⟩ := hF.callsNew p (hc1 ▸ hp)
      exact ⟨fun e => a (e ▸ hk0), fun e => b (e ▸ hk0)⟩
    · have := hF.group_eq hi0 k hk0
      rw [hs1.1] at this
      exact this

/-- Witness of C4: the set-backed manager after `addSet([1, 2])`, the batch `[2, 3, 4]`
and the old key `2`; the map-backed manager likewise. -/
theorem dedup_invariant_witness :
    (∃ s1, CollectionManagerRBTree.addSetLoop ⟨⟨⟨[(1, 2), (2, 2)]⟩, [1, 2]⟩, -1, []⟩ [2, 3, 4]
          = some s1 ∧
        CollectionManagerRBTree.addSet ⟨⟨[(1, 2), (2, 2)]⟩, [1, 2]⟩ [2, 3, 4] = some s1.mgr ∧
        (∀ p, p ∈ s1.calls → p.1 ≠ 2 ∧ p.2 ≠ 2) ∧
        ∀ j, (lookup s1.mgr.unionFind.parent j ≠ none ∧
              s1.mgr.unionFind.root j = s1.mgr.unionFind.root 2) ↔
            (lookup (UnionFind.parent ⟨[(1, 2), (2, 2)]⟩) j ≠ none ∧
              UnionFind.root ⟨[(1, 2), (2, 2)]⟩ j = UnionFind.root ⟨[(1, 2), (2, 2)]⟩ 2)) ∧
    (∃ s1, CollectionManagerBDD.addSetLoop
          ⟨⟨⟨[(1, 2), (2, 2)]⟩, [(1, true), (2, true)]⟩, -1, []⟩ [2, 3, 4] = some s1 ∧
        CollectionManagerBDD.addSet ⟨⟨[(1, 2), (2, 2)]⟩, [(1, true), (2, true)]⟩ [2, 3, 4]
          = some s1.mgr ∧
        (∀ p, p ∈ s1.calls → p.1 ≠ 2 ∧ p.2 ≠ 2) ∧
        ∀ j, (lookup s1.mgr.unionFind.parent j ≠ none ∧
              s1.mgr.unionFind.root j = s1.mgr.unionFind.root 2) ↔
            (lookup (UnionFind.parent ⟨[(1, 2), (2, 2)]⟩) j ≠ none ∧
              UnionFind.root ⟨[(1, 2), (2, 2)]⟩ j = UnionFind.root ⟨[(1, 2), (2, 2)]⟩ 2)) :=
  ⟨dedup_invariant.1 ⟨⟨[(1, 2), (2, 2)]⟩, [1, 2]⟩
      (@CollectionManagerRBTree.Reachable.addSet CollectionManagerRBTree.fresh
        ⟨⟨[(1, 2), (2, 2)]⟩, [1, 2]⟩ [1, 2] CollectionManagerRBTree.Reachable.fresh (by decide))
      [2, 3, 4] 2 (by decide),
   dedup_invariant.2 ⟨⟨[(1, 2), (2, 2)]⟩, [(1, true), (2, true)]⟩
      (@CollectionManagerBDD.Reachable.addSet CollectionManagerBDD.fresh
        ⟨⟨[(1, 2), (2, 2)]⟩, [(1, true), (2, true)]⟩ [1, 2]
        CollectionManagerBDD.Reachable.fresh (by decide))
      [2, 3, 4] 2 (by decide)⟩

/-- C5 (membership invariant). For every finite sequence of batches, `addSet` applied batch
by batch to a fresh manager of either variant returns, and a key is present in the
membership store afterwards exactly when it occurs in one of the batches.  Equivalently,
on every reachable manager `addSet(batch)` turns the store `S` into `S ∪ keys(batch)`. -/
theorem membership_invariant :
    (∀ batches : List (List Int),
      (∃ r, CollectionManagerRBTree.addSets CollectionManagerRBTree.fresh batches = some r ∧
        ∀ k, k ∈ r.rbTree ↔ ∃ b, b ∈ batches ∧ k ∈ b) ∧
      (∃ d, CollectionManagerBDD.addSets CollectionManagerBDD.fresh batches = some d ∧
        ∀ k, lookup d.bddData k ≠ none ↔ ∃ b, b ∈ batches ∧ k ∈ b)) ∧
    (∀ (m : CollectionManagerRBTree), CollectionManagerRBTree.Reachable m →
      ∀ batch : List Int, ∃ m1, m.addSet batch = some m1 ∧
        ∀ k, k ∈ m1.rbTree ↔ (k ∈ m.rbTree ∨ k ∈ batch)) ∧
    (∀ (m : CollectionManagerBDD), CollectionManagerBDD.Reachable m →
      ∀ batch : List Int, ∃ m1, m.addSet batch = some m1 ∧
        ∀ k, lookup m1.bddData k ≠ none ↔ (lookup m.bddData k ≠ none ∨ k ∈ batch)) := by
  refine ⟨fun batches => ?_, ?_, ?_⟩
  · obtain ⟨r1, d1, h1, h2, hs, _, _, hk⟩ := addSets_lockstep batches
      CollectionManagerRBTree.fresh CollectionManagerBDD.fresh sim_fresh
      rbTree_inv_fresh markers_fresh
    have hk1 : ∀ k, k ∈ r1.rbTree ↔ ∃ b, b ∈ batches ∧ k ∈ b := by
      intro k
      rw [hk k]
      simp [CollectionManagerRBTree.fresh]
    exact ⟨⟨r1, h1, hk1⟩, ⟨d1, h2, fun k => by rw [← hs.2 k, hk1 k]⟩⟩
  · intro m hm batch
    obtain ⟨s1, _, h2, _, hk⟩ := rbTree_addSet_frame m
      (rbTree_reachable_inv m hm) batch
    exact ⟨s1.mgr, h2, hk⟩
  · intro m hm batch
    obtain ⟨_, s1, _, h2, _, _, _, _, hk⟩ := bdd_addSet_frame m
      (bdd_reachable_inv m hm) batch
    exact ⟨s1.mgr, h2, hk⟩

/-- Witness of C5: the five batches of `main`, and the managers reached by `addSet([1, 2])`
with the batch `[-1, 2, 7]`. -/
theorem membership_invariant_witness :
    ((∃ r, CollectionManagerRBTree.addSets CollectionManagerRBTree.fresh
          [[1, 2, 4, 6, 8, 9], [1, 2, 4, 6, 8], [1, 2, 6, 8], [1, 2], [1, 2, 4, 6, 9]] = some r ∧
        ∀ k, k ∈ r.rbTree ↔ ∃ b, b ∈ ([[1, 2, 4, 6, 8, 9], [1, 2, 4, 6, 8], [1, 2, 6, 8],
          [1, 2], [1, 2, 4, 6, 9]] : List (List Int)) ∧ k ∈ b) ∧
      (∃ d, CollectionManagerBDD.addSets CollectionManagerBDD.fresh
          [[1, 2, 4, 6, 8, 9], [1, 2, 4, 6, 8], [1, 2, 6, 8], [1, 2], [1, 2, 4, 6, 9]] = some d ∧
        ∀ k, lookup d.bddData k ≠ none ↔ ∃ b, b ∈ ([[1, 2, 4, 6, 8, 9], [1, 2, 4, 6, 8],
          [1, 2, 6, 8], [1, 2], [1, 2, 4, 6, 9]] : List (List Int)) ∧ k ∈ b)) ∧
    (∃ m1, CollectionManagerRBTree.addSet ⟨⟨[(1, 2), (2, 2)]⟩, [1, 2]⟩ [-1, 2, 7] = some m1 ∧
        ∀ k, k ∈ m1.rbTree ↔ (k ∈ ([1, 2] : List Int) ∨ k ∈ ([-1, 2, 7] : List Int))) ∧
    (∃ m1, CollectionManagerBDD.addSet ⟨⟨[(1, 2), (2, 2)]⟩, [(1, true), (2, true)]⟩ [-1, 2, 7]
          = some m1 ∧
        ∀ k, lookup m1.bddData k ≠ none ↔
          (lookup ([(1, true), (2, true)] : HashMap Bool) k ≠ none ∨
            k ∈ ([-1, 2, 7] : List Int))) :=
  ⟨membership_invariant.1 _,
   membership_invariant.2.1 ⟨⟨[(1, 2), (2, 2)]⟩, [1, 2]⟩
      (@CollectionManagerRBTree.Reachable.addSet CollectionManagerRBTree.fresh
        ⟨⟨[(1, 2), (2, 2)]⟩, [1, 2]⟩ [1, 2] CollectionManagerRBTree.Reachable.fresh (by decide))
      [-1, 2, 7],
   membership_invariant.2.2 ⟨⟨[(1, 2), (2, 2)]⟩, [(1, true), (2, true)]⟩
      (@CollectionManagerBDD.Reachable.addSet CollectionManagerBDD.fresh
        ⟨⟨[(1, 2), (2, 2)]⟩, [(1, true), (2, true)]⟩ [1, 2]
        CollectionManagerBDD.Reachable.fresh (by decide))
      [-1, 2, 7]⟩

/-- C6 (two-batch scenario). From an empty manager, `addSet([1, 2])` then
`addSet([1, 2, 3])` return; the second call makes the single call `unionSets(3, 3)` and ends
with representative `3`; afterwards `find(3)` returns `3`, no other key has root `3`,
`find(3)` differs from `find(1)`, and `find(1)` equals `find(2)`.  The map-backed variant
ends in the same union-find. -/
theorem two_batch_scenario :
    CollectionManagerRBTree.addSet CollectionManagerRBTree.fresh [1, 2] =
      some ⟨⟨[(1, 2), (2, 2)]⟩, [1, 2]⟩ ∧
    CollectionManagerRBTree.addSetLoop ⟨⟨⟨[(1, 2), (2, 2)]⟩, [1, 2]⟩, -1, []⟩ [1, 2, 3] =
      some ⟨⟨⟨[(1, 2), (2, 2), (3, 3)]⟩, [1, 2, 3]⟩, 3, [(3, 3)]⟩ ∧
    CollectionManagerRBTree.addSets CollectionManagerRBTree.fresh [[1, 2], [1, 2, 3]] =
      some ⟨⟨[(1, 2), (2, 2), (3, 3)]⟩, [1, 2, 3]⟩ ∧
    UnionFind.root ⟨[(1, 2), (2, 2), (3, 3)]⟩ 3 = some 3 ∧
    (∀ k, k ∈ (UnionFind.parent ⟨[(1, 2), (2, 2), (3, 3)]⟩).map Prod.fst →
      UnionFind.root ⟨[(1, 2), (2, 2), (3, 3)]⟩ k = some 3 → k = 3) ∧
    UnionFind.root ⟨[(1, 2), (2, 2), (3, 3)]⟩ 3 ≠ UnionFind.root ⟨[(1, 2), (2, 2), (3, 3)]⟩ 1 ∧
    UnionFind.root ⟨[(1, 2), (2, 2), (3, 3)]⟩ 1 = UnionFind.root ⟨[(1, 2), (2, 2), (3, 3)]⟩ 2 ∧
    CollectionManagerBDD.addSets CollectionManagerBDD.fresh [[1, 2], [1, 2, 3]] =
      some ⟨⟨[(1, 2), (2, 2), (3, 3)]⟩, [(1, true), (2, true), (3, true)]⟩ := by
  refine ⟨by decide, by decide, by decide, by decide, by decide, by decide, by decide,
    by decide⟩

theorem rbTree_addSetLoop_dup (batch : List Int) (s : LoopRB)
    (h : ∀ k, k ∈ batch → k ∈ s.mgr.rbTree) :
    CollectionManagerRBTree.addSetLoop s batch = some s := by
  induction batch with
  | nil => rfl
  | cons elem rest ih =>
    unfold CollectionManagerRBTree.addSetLoop
    rw [rbTree_addSetStep_dup s elem (h elem (List.mem_cons_self _ _))]
    exact ih (fun k hk => h k (List.mem_cons_of_mem _ hk))

theorem bdd_addSetLoop_dup (batch : List Int) (s : LoopBDD)
    (h : ∀ k, k ∈ batch → lookup s.mgr.bddData k ≠ none) :
    CollectionManagerBDD.addSetLoop s batch = some s := by
  induction batch with
  | nil => rfl
  | cons elem rest ih =>
    unfold CollectionManagerBDD.addSetLoop
    have h1 : CollectionManagerBDD.addSetStep s elem = some s := by
      unfold CollectionManagerBDD.addSetStep
      rw [if_pos (h elem (List.mem_cons_self _ _))]
    rw [h1]
    exact ih (fun k hk => h k (List.mem_cons_of_mem _ hk))

/-- C7 (all-duplicate and empty batches are no-ops). On any manager of either variant, a
batch all of whose keys are already present (the empty batch included) leaves the loop
state as it was: `addSet` returns the manager unchanged, membership store and parent map
alike, `firstNonDuplicate` is still `-1`, and no `unionSets` call has been made. -/
theorem all_duplicate_noop :
    (∀ (m : CollectionManagerRBTree) (batch : List Int), (∀ k, k ∈ batch → k ∈ m.rbTree) →
      CollectionManagerRBTree.addSetLoop ⟨m, -1, []⟩ batch = some ⟨m, -1, []⟩ ∧
      m.addSet batch = some m) ∧
    (∀ (m : CollectionManagerBDD) (batch : List Int),
      (∀ k, k ∈ batch → lookup m.bddData k ≠ none) →
      CollectionManagerBDD.addSetLoop ⟨m, -1, []⟩ batch = some ⟨m, -1, []⟩ ∧
      m.addSet batch = some m) := by
  constructor
  · intro m batch h
    have h1 := rbTree_addSetLoop_dup batch ⟨m, -1, []⟩ h
    exact ⟨h1, by simp [CollectionManagerRBTree.addSet, h1]⟩
  · intro m batch h
    have h1 := bdd_addSetLoop_dup batch ⟨m, -1, []⟩ h
    exact ⟨h1, by simp [CollectionManagerBDD.addSet, h1]⟩

/-- Witness of C7: the managers holding `1` and `2`, with the batch `[2, 1, 2]`. -/
theorem all_duplicate_noop_witness :
    (CollectionManagerRBTree.addSetLoop ⟨⟨⟨[(1, 2), (2, 2)]⟩, [1, 2]⟩, -1, []⟩ [2, 1, 2] =
        some ⟨⟨⟨[(1, 2), (2, 2)]⟩, [1, 2]⟩, -1, []⟩ ∧
      CollectionManagerRBTree.addSet ⟨⟨[(1, 2), (2, 2)]⟩, [1, 2]⟩ [2, 1, 2] =
        some ⟨⟨[(1, 2), (2, 2)]⟩, [1, 2]⟩) ∧
    (CollectionManagerBDD.addSetLoop
        ⟨⟨⟨[(1, 2), (2, 2)]⟩, [(1, true), (2, true)]⟩, -1, []⟩ [2, 1, 2] =
        some ⟨⟨⟨[(1, 2), (2, 2)]⟩, [(1, true), (2, true)]⟩, -1, []⟩ ∧
      CollectionManagerBDD.addSet ⟨⟨[(1, 2), (2, 2)]⟩, [(1, true), (2, true)]⟩ [2, 1, 2] =
        some ⟨⟨[(1, 2), (2, 2)]⟩, [(1, true), (2, true)]⟩) :=
  ⟨all_duplicate_noop.1 ⟨⟨[(1, 2), (2, 2)]⟩, [1, 2]⟩ [2, 1, 2] (by decide),
   all_duplicate_noop.2 ⟨⟨[(1, 2), (2, 2)]⟩, [(1, true), (2, true)]⟩ [2, 1, 2] (by decide)⟩

/-- C10 (variant equivalence). For every finite sequence of batches, `addSet` applied batch
by batch to a fresh `CollectionManagerRBTree` and to a fresh `CollectionManagerBDD` returns
on both, with the same set of present keys and the same union-find parent map, and every
marker stored by the map-backed variant is `true`. -/
theorem variant_equivalence (batches : List (List Int)) :
    ∃ r d, CollectionManagerRBTree.addSets CollectionManagerRBTree.fresh batches = some r ∧
      CollectionManagerBDD.addSets CollectionManagerBDD.fresh batches = some d ∧
      (∀ k, k ∈ r.rbTree ↔ lookup d.bddData k ≠ none) ∧
      r.unionFind = d.unionFind ∧
      (∀ k v, lookup d.bddData k = some v → v = true) := by
  obtain ⟨r1, d1, h1, h2, hs, _, hm, _⟩ := addSets_lockstep batches
    CollectionManagerRBTree.fresh CollectionManagerBDD.fresh sim_fresh
    rbTree_inv_fresh markers_fresh
  exact ⟨r1, d1, h1, h2, hs.2, hs.1, hm⟩

/-! ## Further claims on `UnionFind` -/

theorem find_absent (u : UnionFind) (x : Int) (h : lookup u.parent x = none) :
    u.find x = some (⟨assign u.parent x x⟩, x) := by
  simp [UnionFind.find, findFuel_absent _ _ _ h]

/-- C11 (lazy singleton creation). In every reachable state, `find` returns for every
integer key; for a key `x` without an entry it returns `x` and leaves the parent map with
the one new entry `parent[x] = x`, every other entry being as before. -/
theorem lazy_singleton (u : UnionFind) (hu : Reachable u) :
    (∀ x : Int, ∃ u1 r, u.find x = some (u1, r)) ∧
    (∀ x : Int, lookup u.parent x = none →
      ∃ u1, u.find x = some (u1, x) ∧ lookup u1.parent x = some x ∧
        ∀ k, k ≠ x → lookup u1.parent k = lookup u.parent k) := by
  constructor
  · intro x
    obtain ⟨u1, r, h1, _⟩ := find_total u (reachable_forest u hu) x
    exact ⟨u1, r, h1⟩
  · intro x hx
    exact ⟨_, find_absent u x hx, lookup_assign_self _ _ _,
      fun k hk => lookup_assign_ne _ _ _ k hk⟩

/-- Witness of C11 on `1 → 2`, with the unknown key `7`. -/
theorem lazy_singleton_witness :
    (∀ x : Int, ∃ u1 r, UnionFind.find ⟨[(1, 2), (2, 2)]⟩ x = some (u1, r)) ∧
    (∀ x : Int, lookup (UnionFind.parent ⟨[(1, 2), (2, 2)]⟩) x = none →
      ∃ u1, UnionFind.find ⟨[(1, 2), (2, 2)]⟩ x = some (u1, x) ∧
        lookup u1.parent x = some x ∧
        ∀ k, k ≠ x → lookup u1.parent k = lookup (UnionFind.parent ⟨[(1, 2), (2, 2)]⟩) k) :=
  lazy_singleton ⟨[(1, 2), (2, 2)]⟩
    (@Reachable.unionSets UnionFind.empty ⟨[(1, 2), (2, 2)]⟩ 1 2 Reachable.empty (by decide))

/-- The root map after `unionSets(x, y)`, in terms of the values returned by `find`. -/
theorem root_unionSets (u u1 : UnionFind) (hf : Forest u.parent) (x y : Int)
    (h : u.unionSets x y = some u1) :
    ∃ rx ry, u.root x = some rx ∧ u.root y = some ry ∧
      ∀ z, ∃ rz, u.root z = some rz ∧ u1.root z = some (if rz = rx then ry else rz) := by
  obtain ⟨rx, ry, hl⟩ := unionSets_linked u u1 hf x y h
  refine ⟨rx, ry, (root_eq_some_iff _ _ _).2 hl.rootX, (root_eq_some_iff _ _ _).2 hl.rootY,
    fun z => ?_⟩
  obtain ⟨rz, hrz⟩ := ((forest_iff _).1 hf).2 z
  exact ⟨rz, (root_eq_some_iff _ _ _).2 hrz, (root_eq_some_iff _ _ _).2 (hl.hasRoot z rz hrz)⟩

/-- C14 (`unionSets` merges exactly two groups). In every reachable state, `unionSets(x, y)`
returns; afterwards two keys `z` and `w` have the same `find` root exactly when they had
the same root before, or one had the root of `x` and the other the root of `y` (an unknown
key being its own root).  Hence a key whose root is neither that of `x` nor that of `y`
keeps its root, and its group keeps exactly its members. -/
theorem union_merges_two_groups (u : UnionFind) (hu : Reachable u) (x y : Int) :
    ∃ u1, u.unionSets x y = some u1 ∧
      (∀ k, lookup u1.parent k ≠ none ↔ (lookup u.parent k ≠ none ∨ k = x ∨ k = y)) ∧
      (∀ z w, u1.root z = u1.root w ↔
        (u.root z = u.root w ∨ (u.root z = u.root x ∧ u.root w = u.root y) ∨
          (u.root z = u.root y ∧ u.root w = u.root x))) ∧
      (∀ z, u.root z ≠ u.root x → u.root z ≠ u.root y →
        u1.root z = u.root z ∧
        ∀ w, (lookup u1.parent w ≠ none ∧ u1.root w = u1.root z) ↔
          (lookup u.parent w ≠ none ∧ u.root w = u.root z)) := by
  have hf := reachable_forest u hu
  obtain ⟨u1, rx, ry, h1, hl⟩ := unionSets_total u hf x y
  obtain ⟨rx1, ry1, hx, hy, hz⟩ := root_unionSets u u1 hf x y h1
  have key : ∀ z w, u1.root z = u1.root w ↔
      (u.root z = u.root w ∨ (u.root z = u.root x ∧ u.root w = u.root y) ∨
        (u.root z = u.root y ∧ u.root w = u.root x)) := by
    intro z w
    obtain ⟨rz, hz0, hz1⟩ := hz z
    obtain ⟨rw, hw0, hw1⟩ := hz w
    rw [hz0, hw0, hz1, hw1, hx, hy]
    simp only [Option.some.injEq]
    by_cases e1 : rz = rx1 <;> by_cases e2 : rw = rx1
    · simp [e1, e2]
    · simp only [e1, e2, if_true, if_false]
      constructor
      · intro e; exact Or.inr (Or.inl ⟨trivial, e.symm⟩)
      · rintro (e | ⟨_, e⟩ | ⟨e, e3⟩)
        · exact absurd e.symm e2
        · exact e.symm
        · exact e3.elim
    · simp only [e1, e2, if_true, if_false]
      constructor
      · intro e; exact Or.inr (Or.inr ⟨e, trivial⟩)
      · rintro (e | ⟨e, _⟩ | ⟨e, _⟩)
        · exact e.elim
        · exact e.elim
        · exact e
    · simp only [e1, e2, if_false]
      constructor
      · intro e; exact Or.inl e
      · rintro (e | ⟨e, _⟩ | ⟨_, e⟩)
        · exact e
        · exact e.elim
        · exact e.elim
  refine ⟨u1, h1, hl.keys, key, fun z hzx hzy => ?_⟩
  have hkeep : u1.root z = u.root z := by
    obtain ⟨rz, hz0, hz1⟩ := hz z
    rw [hz0, hx] at hzx
    rw [hz1, hz0, if_neg (fun e => hzx (by rw [e]))]
  refine ⟨hkeep, fun w => ?_⟩
  have hsame : u1.root w = u1.root z ↔ u.root w = u.root z := by
    rw [key w z]
    constructor
    · rintro (e | ⟨_, e⟩ | ⟨_, e⟩)
      · exact e
      · exact absurd e hzy
      · exact absurd e hzx
    · exact Or.inl
  constructor
  · rintro ⟨hk, hr⟩
    have hr0 := hsame.1 hr
    refine ⟨?_, hr0⟩
    rcases (hl.keys w).1 hk with h | h | h
    · exact h
    · rw [h] at hr0; exact absurd hr0.symm hzx
    · rw [h] at hr0; exact absurd hr0.symm hzy
  · rintro ⟨hk, hr⟩
    exact ⟨(hl.keys w).2 (Or.inl hk), hsame.2 hr⟩

/-- Witness of C14 on the groups `{1, 2}`, `{3, 4}`, `{5}` with `unionSets(1, 4)`. -/
theorem union_merges_two_groups_witness :
    Reachable ⟨[(1, 2), (2, 2), (3, 4), (4, 4), (5, 5)]⟩ ∧
    ∃ u1, UnionFind.unionSets ⟨[(1, 2), (2, 2), (3, 4), (4, 4), (5, 5)]⟩ 1 4 = some u1 ∧
      (∀ k, lookup u1.parent k ≠ none ↔
        (lookup (UnionFind.parent ⟨[(1, 2), (2, 2), (3, 4), (4, 4), (5, 5)]⟩) k ≠ none ∨
          k = 1 ∨ k = 4)) ∧
      (∀ z w, u1.root z = u1.root w ↔
        (UnionFind.root ⟨[(1, 2), (2, 2), (3, 4), (4, 4), (5, 5)]⟩ z =
            UnionFind.root ⟨[(1, 2), (2, 2), (3, 4), (4, 4), (5, 5)]⟩ w ∨
          (UnionFind.root ⟨[(1, 2), (2, 2), (3, 4), (4, 4), (5, 5)]⟩ z =
              UnionFind.root ⟨[(1, 2), (2, 2), (3, 4), (4, 4), (5, 5)]⟩ 1 ∧
            UnionFind.root ⟨[(1, 2), (2, 2), (3, 4), (4, 4), (5, 5)]⟩ w =
              UnionFind.root ⟨[(1, 2), (2, 2), (3, 4), (4, 4), (5, 5)]⟩ 4) ∨
          (UnionFind.root ⟨[(1, 2), (2, 2), (3, 4), (4, 4), (5, 5)]⟩ z =
              UnionFind.root ⟨[(1, 2), (2, 2), (3, 4), (4, 4), (5, 5)]⟩ 4 ∧
            UnionFind.root ⟨[(1, 2), (2, 2), (3, 4), (4, 4), (5, 5)]⟩ w =
              UnionFind.root ⟨[(1, 2), (2, 2), (3, 4), (4, 4), (5, 5)]⟩ 1))) ∧
      (∀ z, UnionFind.root ⟨[(1, 2), (2, 2), (3, 4), (4, 4), (5, 5)]⟩ z ≠
            UnionFind.root ⟨[(1, 2), (2, 2), (3, 4), (4, 4), (5, 5)]⟩ 1 →
          UnionFind.root ⟨[(1, 2), (2, 2), (3, 4), (4, 4), (5, 5)]⟩ z ≠
            UnionFind.root ⟨[(1, 2), (2, 2), (3, 4), (4, 4), (5, 5)]⟩ 4 →
        u1.root z = UnionFind.root ⟨[(1, 2), (2, 2), (3, 4), (4, 4), (5, 5)]⟩ z ∧
        ∀ w, (lookup u1.parent w ≠ none ∧ u1.root w = u1.root z) ↔
          (lookup (UnionFind.parent ⟨[(1, 2), (2, 2), (3, 4), (4, 4), (5, 5)]⟩) w ≠ none ∧
            UnionFind.root ⟨[(1, 2), (2, 2), (3, 4), (4, 4), (5, 5)]⟩ w =
              UnionFind.root ⟨[(1, 2), (2, 2), (3, 4), (4, 4), (5, 5)]⟩ z)) :=
  have h : Reachable ⟨[(1, 2), (2, 2), (3, 4), (4, 4), (5, 5)]⟩ :=
    @Reachable.find ⟨[(1, 2), (2, 2), (3, 4), (4, 4)]⟩ ⟨[(1, 2), (2, 2), (3, 4), (4, 4), (5, 5)]⟩
      5 5
      (@Reachable.unionSets ⟨[(1, 2), (2, 2)]⟩ ⟨[(1, 2), (2, 2), (3, 4), (4, 4)]⟩ 3 4
        (@Reachable.unionSets UnionFind.empty ⟨[(1, 2), (2, 2)]⟩ 1 2 Reachable.empty
          (by decide))
        (by decide))
      (by decide)
  ⟨h, union_merges_two_groups _ h 1 4⟩

/-- C15 (`find` preserves the partition). In every reachable state, for all keys `x` and
`z`, `find(x)` returns and leaves a state in which the self-parent key reached from `z` is
the one reached before the call; so `find(z)` returns the same root before and after, and
two keys share a root after the call exactly when they did before. -/
theorem find_preserves_partition (u : UnionFind) (hu : Reachable u) (x : Int) :
    ∃ u1 r, u.find x = some (u1, r) ∧
      (∀ z rz, HasRoot u1.parent z rz ↔ HasRoot u.parent z rz) ∧
      (∀ z, u1.root z = u.root z) ∧
      (∀ z w, u1.root z = u1.root w ↔ u.root z = u.root w) := by
  have hf := reachable_forest u hu
  obtain ⟨u1, r, h1, c1⟩ := find_total u hf x
  have hiff : ∀ z rz, HasRoot u1.parent z rz ↔ HasRoot u.parent z rz :=
    fun z rz => ⟨c1.hasRoot_inv hf z rz, c1.hasRoot z rz⟩
  have hroot : ∀ z, u1.root z = u.root z := by
    intro z
    obtain ⟨rz, hrz⟩ := ((forest_iff _).1 hf).2 z
    rw [(root_eq_some_iff u z rz).2 hrz, (root_eq_some_iff u1 z rz).2 ((hiff z rz).2 hrz)]
  exact ⟨u1, r, h1, hiff, hroot, fun z w => by rw [hroot z, hroot w]⟩

/-- Witness of C15 on the chain `1 → 2 → 3`, for `find(1)`. -/
theorem find_preserves_partition_witness :
    Reachable ⟨[(1, 2), (2, 3), (3, 3)]⟩ ∧
    ∃ u1 r, UnionFind.find ⟨[(1, 2), (2, 3), (3, 3)]⟩ 1 = some (u1, r) ∧
      (∀ z rz, HasRoot u1.parent z rz ↔
        HasRoot (UnionFind.parent ⟨[(1, 2), (2, 3), (3, 3)]⟩) z rz) ∧
      (∀ z, u1.root z = UnionFind.root ⟨[(1, 2), (2, 3), (3, 3)]⟩ z) ∧
      (∀ z w, u1.root z = u1.root w ↔
        UnionFind.root ⟨[(1, 2), (2, 3), (3, 3)]⟩ z =
          UnionFind.root ⟨[(1, 2), (2, 3), (3, 3)]⟩ w) :=
  have h : Reachable ⟨[(1, 2), (2, 3), (3, 3)]⟩ :=
    @Reachable.unionSets ⟨[(1, 2), (2, 2)]⟩ ⟨[(1, 2), (2, 3), (3, 3)]⟩ 2 3
      (@Reachable.unionSets UnionFind.empty ⟨[(1, 2), (2, 2)]⟩ 1 2 Reachable.empty (by decide))
      (by decide)
  ⟨h, find_preserves_partition _ h 1⟩

/-! ## The root of the keys inserted by one batch -/

theorem rbTree_addSetLoop_cons (s : LoopRB) (a : Int) (t : List Int) :
    CollectionManagerRBTree.addSetLoop s (a :: t) =
      match CollectionManagerRBTree.addSetStep s a with
      | none => none
      | some s1 => CollectionManagerRBTree.addSetLoop s1 t := rfl

theorem rbTree_addSetLoop_append (l1 l2 : List Int) : ∀ s : LoopRB,
    CollectionManagerRBTree.addSetLoop s (l1 ++ l2) =
      match CollectionManagerRBTree.addSetLoop s l1 with
      | none => none
      | some s1 => CollectionManagerRBTree.addSetLoop s1 l2 := by
  induction l1 with
  | nil => intro s; rfl
  | cons a t ih =>
    intro s
    rw [List.cons_append, rbTree_addSetLoop_cons s a (t ++ l2), rbTree_addSetLoop_cons s a t]
    cases h : CollectionManagerRBTree.addSetStep s a with
    | none => rfl
    | some s1 => exact ih s1

/-- A list either lies inside `S` or splits at its first element outside `S`. -/
theorem split_first_new (S : List Int) (l : List Int) :
    (∀ k, k ∈ l → k ∈ S) ∨
    ∃ p1 f p2, l = p1 ++ f :: p2 ∧ (∀ k, k ∈ p1 → k ∈ S) ∧ f ∉ S := by
  induction l with
  | nil => exact Or.inl (fun k hk => absurd hk (List.not_mem_nil k))
  | cons a t ih =>
    by_cases ha : a ∈ S
    · rcases ih with h | ⟨p1, f, p2, e, h1, h2⟩
      · left
        intro k hk
        rcases List.mem_cons.1 hk with e | hk
        · exact e ▸ ha
        · exact h k hk
      · right
        refine ⟨a :: p1, f, p2, by rw [e, List.cons_append], ?_, h2⟩
        intro k hk
        rcases List.mem_cons.1 hk with e | hk
        · exact e ▸ ha
        · exact h1 k hk
    · exact Or.inr ⟨[], a, t, rfl, fun k hk => absurd hk (List.not_mem_nil k), ha⟩

/-- A batch with a key outside `S` splits at the new key whose first occurrence comes last:
`r` is new, does not occur before, and nothing new occurs for the first time after it. -/
theorem split_last_new (batch : List Int) : ∀ S : List Int, (∃ k, k ∈ batch ∧ k ∉ S) →
    ∃ pre r post, batch = pre ++ r :: post ∧ r ∉ S ∧ r ∉ pre ∧
      ∀ k, k ∈ post → (k ∈ S ∨ k ∈ pre ∨ k = r) := by
  classical
  induction batch with
  | nil => rintro S ⟨k, hk, _⟩; exact absurd hk (List.not_mem_nil k)
  | cons a t ih =>
    intro S hex
    by_cases hlater : ∃ k, k ∈ t ∧ k ∉ a :: S
    · obtain ⟨pre, r, post, e, hr, hpre, hpost⟩ := ih (a :: S) hlater
      have hra : r ≠ a := fun e1 => hr (e1 ▸ List.mem_cons_self _ _)
      refine ⟨a :: pre, r, post, by rw [e, List.cons_append],
        fun h => hr (List.mem_cons_of_mem _ h), ?_, ?_⟩
      · intro h
        rcases List.mem_cons.1 h with e1 | h
        · exact hra e1
        · exact hpre h
      · intro k hk
        rcases hpost k hk with h | h | h
        · rcases List.mem_cons.1 h with e1 | h
          · exact Or.inr (Or.inl (e1 ▸ List.mem_cons_self _ _))
          · exact Or.inl h
        · exact Or.inr (Or.inl (List.mem_cons_of_mem _ h))
        · exact Or.inr (Or.inr h)
    · have hall : ∀ k, k ∈ t → k ∈ S ∨ k = a := by
        intro k hk
        by_contra hc
        push_neg at hc
        exact hlater ⟨k, hk, fun h => by
          rcases List.mem_cons.1 h with e1 | h
          · exact hc.2 e1
          · exact hc.1 h⟩
      have ha : a ∉ S := by
        obtain ⟨k, hk, hkS⟩ := hex
        rcases List.mem_cons.1 hk with e1 | hk
        · exact e1 ▸ hkS
        · rcases hall k hk with h | h
          · exact absurd h hkS
          · exact h ▸ hkS
      refine ⟨[], a, t, rfl, ha, List.not_mem_nil a, fun k hk => ?_⟩
      rcases hall k hk with h | h
      · exact Or.inl h
      · exact Or.inr (Or.inr h)

/-- The loop of `addSet` on a batch without `-1`, split at the new key `r` whose first
occurrence comes last: it ends with `r` as root of every key it has inserted. -/
theorem rep_last (m : CollectionManagerRBTree) (hi : m.Inv) (pre post : List Int) (r : Int)
    (hno : ∀ k, k ∈ pre ++ r :: post → k ≠ -1) (hr : r ∉ m.rbTree) (hrp : r ∉ pre)
    (hpost : ∀ k, k ∈ post → (k ∈ m.rbTree ∨ k ∈ pre ∨ k = r)) :
    ∃ s1 f, CollectionManagerRBTree.addSetLoop ⟨m, -1, []⟩ (pre ++ r :: post) = some s1 ∧
      Rep m f s1 r ∧ ∀ k, k ∈ s1.mgr.rbTree ↔ (k ∈ m.rbTree ∨ k ∈ pre ++ r :: post) := by
  -- the state after `pre ++ [r]`
  have hmid : ∃ s1 f, CollectionManagerRBTree.addSetLoop ⟨m, -1, []⟩ (pre ++ [r]) = some s1 ∧
      Rep m f s1 r ∧ ∀ k, k ∈ s1.mgr.rbTree ↔ (k ∈ m.rbTree ∨ k ∈ pre ∨ k = r) := by
    rcases split_first_new m.rbTree pre with hall | ⟨p1, f, p2, e, hp1, hf⟩
    · obtain ⟨s1, r1, h1, hR, hk⟩ := rep_addSet m hi pre [] r hall hr
        (hno r (List.mem_append_right _ (List.mem_cons_self _ _)))
      have hr1 : r1 = r := by
        rcases (hk r1).1 hR.rootNew.1 with h | h
        · exact absurd h hR.rootNew.2
        · rcases List.mem_append.1 h with h | h
          · exact absurd (hall r1 h) hR.rootNew.2
          · simpa using h
      subst hr1
      refine ⟨s1, r1, h1, hR, fun k => ?_⟩
      rw [hk k, List.mem_append, List.mem_singleton]
    · have hfne : f ≠ -1 := hno f (by
        rw [e]
        exact List.mem_append_left _ (List.mem_append_right _ (List.mem_cons_self _ _)))
      obtain ⟨s1, r1, h1, hR, hk⟩ := rep_addSet m hi p1 p2 f hp1 hf hfne
      rw [← e] at h1 hk
      have hrs : r ∉ s1.mgr.rbTree := by
        intro h
        rcases (hk r).1 h with h | h
        · exact hr h
        · exact hrp h
      obtain ⟨s2, h2, hR2, hk2⟩ := rep_step hR hfne r
      rw [if_neg hrs] at hR2
      refine ⟨s2, f, ?_, hR2, fun k => ?_⟩
      · rw [rbTree_addSetLoop_append, h1]
        simp [CollectionManagerRBTree.addSetLoop, h2]
      · rw [hk2 k, hk k, or_assoc]
  obtain ⟨s1, f, h1, hR, hk⟩ := hmid
  have hdup : ∀ k, k ∈ post → k ∈ s1.mgr.rbTree := fun k hkp => (hk k).2 (hpost k hkp)
  refine ⟨s1, f, ?_, hR, fun k => ?_⟩
  · have e : pre ++ r :: post = (pre ++ [r]) ++ post := by simp
    rw [e, rbTree_addSetLoop_append, h1]
    exact rbTree_addSetLoop_dup post s1 hdup
  · rw [hk k, List.mem_append, List.mem_cons]
    constructor
    · rintro (h | h | h)
      · exact Or.inl h
      · exact Or.inr (Or.inl h)
      · exact Or.inr (Or.inr (Or.inl h))
    · rintro (h | h | h | h)
      · exact Or.inl h
      · exact Or.inr (Or.inl h)
      · exact Or.inr (Or.inr h)
      · exact hpost k h

/-- C16 (the last new key becomes the root). On a reachable manager of either variant, let
the batch contain no `-1` and at least one key not yet present.  Then `addSet` returns; the
batch splits as `pre ++ r :: post` at the new key `r` whose first occurrence comes last
(`r` not present, not in `pre`, every key of `post` present or already seen); and for every
such split, each key of the batch that was not present before has `find` root `r`. -/
theorem last_new_key_is_root :
    (∀ (m : CollectionManagerRBTree), CollectionManagerRBTree.Reachable m →
      ∀ batch : List Int, (∀ k, k ∈ batch → k ≠ -1) → (∃ k, k ∈ batch ∧ k ∉ m.rbTree) →
      ∃ m1, m.addSet batch = some m1 ∧
        (∃ pre r post, batch = pre ++ r :: post ∧ r ∉ m.rbTree ∧ r ∉ pre ∧
          ∀ k, k ∈ post → (k ∈ m.rbTree ∨ k ∈ pre ∨ k = r)) ∧
        (∀ pre r post, batch = pre ++ r :: post → r ∉ m.rbTree → r ∉ pre →
          (∀ k, k ∈ post → (k ∈ m.rbTree ∨ k ∈ pre ∨ k = r)) →
          ∀ k, k ∈ batch → k ∉ m.rbTree → m1.unionFind.root k = some r)) ∧
    (∀ (m : CollectionManagerBDD), CollectionManagerBDD.Reachable m →
      ∀ batch : List Int, (∀ k, k ∈ batch → k ≠ -1) →
      (∃ k, k ∈ batch ∧ lookup m.bddData k = none) →
      ∃ m1, m.addSet batch = some m1 ∧
        (∃ pre r post, batch = pre ++ r :: post ∧ lookup m.bddData r = none ∧ r ∉ pre ∧
          ∀ k, k ∈ post → (lookup m.bddData k ≠ none ∨ k ∈ pre ∨ k = r)) ∧
        (∀ pre r post, batch = pre ++ r :: post → lookup m.bddData r = none → r ∉ pre →
          (∀ k, k ∈ post → (lookup m.bddData k ≠ none ∨ k ∈ pre ∨ k = r)) →
          ∀ k, k ∈ batch → lookup m.bddData k = none → m1.unionFind.root k = some r)) := by
  have key : ∀ (m : CollectionManagerRBTree), m.Inv →
      ∀ batch : List Int, (∀ k, k ∈ batch → k ≠ -1) → (∃ k, k ∈ batch ∧ k ∉ m.rbTree) →
      ∃ s1, CollectionManagerRBTree.addSetLoop ⟨m, -1, []⟩ batch = some s1 ∧
        (∃ pre r post, batch = pre ++ r :: post ∧ r ∉ m.rbTree ∧ r ∉ pre ∧
          ∀ k, k ∈ post → (k ∈ m.rbTree ∨ k ∈ pre ∨ k = r)) ∧
        (∀ pre r post, batch = pre ++ r :: post → r ∉ m.rbTree → r ∉ pre →
          (∀ k, k ∈ post → (k ∈ m.rbTree ∨ k ∈ pre ∨ k = r)) →
          ∀ k, k ∈ batch → k ∉ m.rbTree → s1.mgr.unionFind.root k = some r) := by
    intro m hi batch hno hex
    obtain ⟨s1, h1, _, _, _⟩ := rbTree_addSet_frame m hi batch
    refine ⟨s1, h1, split_last_new batch m.rbTree hex, ?_⟩
    intro pre r post e hr hrp hpost k hk hk0
    subst e
    obtain ⟨s2, f, h2, hR, hks⟩ := rep_last m hi pre post r hno hr hrp hpost
    rw [h1] at h2
    simp only [Option.some.injEq] at h2
    subst h2
    exact (root_eq_some_iff _ _ _).2 (hR.sameRoot k ((hks k).2 (Or.inr hk)) hk0)
  constructor
  · intro m hm batch hno hex
    obtain ⟨s1, h1, h2, h3⟩ := key m (rbTree_reachable_inv m hm) batch hno hex
    exact ⟨s1.mgr, by simp [CollectionManagerRBTree.addSet, h1], h2, h3⟩
  · intro m hm batch hno hex
    have hs := sim_toRBTree m
    have hi : m.toRBTree.Inv := (inv_of_sim _ m hs).2 (bdd_reachable_inv m hm)
    have hmem : ∀ k, k ∉ m.toRBTree.rbTree ↔ lookup m.bddData k = none := by
      intro k
      rw [hs.2 k]
      exact not_not
    obtain ⟨t1, h1, ⟨pre, r, post, e, hr, hrp, hpost⟩, h3⟩ := key m.toRBTree hi batch hno
      (by obtain ⟨k, hk, hk0⟩ := hex; exact ⟨k, hk, (hmem k).2 hk0⟩)
    obtain ⟨s1, _, h4, hs1, _, _⟩ := sim_addSet m.toRBTree m hs _ t1 h1
    refine ⟨s1.mgr, h4, ⟨pre, r, post, e, (hmem r).1 hr, hrp, fun k hk => ?_⟩, ?_⟩
    · rcases hpost k hk with h | h | h
      · exact Or.inl ((hs.2 k).1 h)
      · exact Or.inr (Or.inl h)
      · exact Or.inr (Or.inr h)
    · intro pre r post e hr hrp hpost k hk hk0
      rw [← hs1.1]
      refine h3 pre r post e ((hmem r).2 hr) hrp (fun j hj => ?_) k hk ((hmem k).2 hk0)
      rcases hpost j hj with h | h | h
      · exact Or.inl ((hs.2 j).2 h)
      · exact Or.inr (Or.inl h)
      · exact Or.inr (Or.inr h)

/-- Witness of C16: the managers holding `1` and `2`, with the batch `[2, 7, 9, 7, 1]`, whose
new key of last first occurrence is `9`. -/
theorem last_new_key_is_root_witness :
    (∃ m1, CollectionManagerRBTree.addSet ⟨⟨[(1, 2), (2, 2)]⟩, [1, 2]⟩ [2, 7, 9, 7, 1]
          = some m1 ∧
        (∃ pre r post, [2, 7, 9, 7, 1] = pre ++ r :: post ∧ r ∉ ([1, 2] : List Int) ∧ r ∉ pre ∧
          ∀ k, k ∈ post → (k ∈ ([1, 2] : List Int) ∨ k ∈ pre ∨ k = r)) ∧
        (∀ pre r post, [2, 7, 9, 7, 1] = pre ++ r :: post → r ∉ ([1, 2] : List Int) →
          r ∉ pre → (∀ k, k ∈ post → (k ∈ ([1, 2] : List Int) ∨ k ∈ pre ∨ k = r)) →
          ∀ k, k ∈ ([2, 7, 9, 7, 1] : List Int) → k ∉ ([1, 2] : List Int) →
            m1.unionFind.root k = some r)) ∧
    (∃ m1, CollectionManagerBDD.addSet ⟨⟨[(1, 2), (2, 2)]⟩, [(1, true), (2, true)]⟩
          [2, 7, 9, 7, 1] = some m1 ∧
        (∃ pre r post, [2, 7, 9, 7, 1] = pre ++ r :: post ∧
          lookup ([(1, true), (2, true)] : HashMap Bool) r = none ∧ r ∉ pre ∧
          ∀ k, k ∈ post →
            (lookup ([(1, true), (2, true)] : HashMap Bool) k ≠ none ∨ k ∈ pre ∨ k = r)) ∧
        (∀ pre r post, [2, 7, 9, 7, 1] = pre ++ r :: post →
          lookup ([(1, true), (2, true)] : HashMap Bool) r = none → r ∉ pre →
          (∀ k, k ∈ post →
            (lookup ([(1, true), (2, true)] : HashMap Bool) k ≠ none ∨ k ∈ pre ∨ k = r)) →
          ∀ k, k ∈ ([2, 7, 9, 7, 1] : List Int) →
            lookup ([(1, true), (2, true)] : HashMap Bool) k = none →
            m1.unionFind.root k = some r)) :=
  ⟨last_new_key_is_root.1 ⟨⟨[(1, 2), (2, 2)]⟩, [1, 2]⟩
      (@CollectionManagerRBTree.Reachable.addSet CollectionManagerRBTree.fresh
        ⟨⟨[(1, 2), (2, 2)]⟩, [1, 2]⟩ [1, 2] CollectionManagerRBTree.Reachable.fresh (by decide))
      [2, 7, 9, 7, 1] (by decide) ⟨7, by decide, by decide⟩,
   last_new_key_is_root.2 ⟨⟨[(1, 2), (2, 2)]⟩, [(1, true), (2, true)]⟩
      (@CollectionManagerBDD.Reachable.addSet CollectionManagerBDD.fresh
        ⟨⟨[(1, 2), (2, 2)]⟩, [(1, true), (2, true)]⟩ [1, 2]
        CollectionManagerBDD.Reachable.fresh (by decide))
      [2, 7, 9, 7, 1] (by decide) ⟨7, by decide, by decide⟩⟩

/-! ## `displaySets` -/

theorem grouped_nil (m : HashMap Int) : Grouped m [] [] :=
  ⟨fun r g h => by simp [lookup] at h, fun r g k h => by simp [lookup] at h,
    fun k hk => absurd hk (List.not_mem_nil k), fun r g h => by simp [lookup] at h,
    List.nodup_nil⟩

theorem nodup_keys_assign {V : Type} (m : HashMap V) (k : Int) (v : V)
    (h : (m.map Prod.fst).Nodup) : ((assign m k v).map Prod.fst).Nodup := by
  induction m with
  | nil => simp [assign]
  | cons hd t ih =>
    obtain ⟨a, b⟩ := hd
    rw [List.map_cons, List.nodup_cons] at h
    unfold assign
    split
    · rw [List.map_cons, List.nodup_cons]
      exact h
    · next hak =>
      rw [List.map_cons, List.nodup_cons]
      refine ⟨fun hmem => ?_, ih h.2⟩
      rw [mem_keys_iff, lookup_assign, if_neg hak] at hmem
      exact h.1 ((mem_keys_iff t a).2 hmem)

theorem lookup_of_mem {V : Type} (m : HashMap V) (h : (m.map Prod.fst).Nodup) (r : Int)
    (g : V) (hm : (r, g) ∈ m) : lookup m r = some g := by
  induction m with
  | nil => exact absurd hm (List.not_mem_nil _)
  | cons hd t ih =>
    obtain ⟨a, b⟩ := hd
    rw [List.map_cons, List.nodup_cons] at h
    rcases List.mem_cons.1 hm with e | hm
    · simp only [Prod.mk.injEq] at e
      simp [lookup, e.1, e.2]
    · have hr : r ∈ t.map Prod.fst := List.mem_map_of_mem Prod.fst hm
      have hne : a ≠ r := fun e => h.1 (by rw [e]; exact hr)
      simp only [lookup, hne, if_false]
      exact ih h.2 hm

theorem mem_of_lookup {V : Type} (m : HashMap V) (r : Int) (g : V)
    (h : lookup m r = some g) : (r, g) ∈ m := by
  induction m with
  | nil => simp [lookup] at h
  | cons hd t ih =>
    obtain ⟨a, b⟩ := hd
    by_cases hak : a = r
    · simp only [lookup, hak, if_true, Option.some.injEq] at h
      rw [hak, h]
      exact List.mem_cons_self _ _
    · simp only [lookup, hak, if_false] at h
      exact List.mem_cons_of_mem _ (ih h)

/-- One iteration of the first loop of `displaySets` keeps the invariant. -/
theorem grouped_step (m m1 : HashMap Int) (sets : HashMap (List Int)) (done : List Int)
    (k r : Int) (hf : Forest m) (c1 : Compressed m m1 k r) (hG : Grouped m sets done) :
    Grouped m1 (assign sets r (setInsert ((lookup sets r).getD []) k)) (done ++ [k]) := by
  have hold : ∀ j, j ∈ (lookup sets r).getD [] → j ∈ done ∧ HasRoot m j r := by
    intro j hj
    cases hl : lookup sets r with
    | none => simp [hl] at hj
    | some o =>
      rw [hl] at hj
      exact hG.member r o j hl hj
  refine ⟨?_, ?_, ?_, ?_, nodup_keys_assign _ _ _ hG.nodupKeys⟩
  · intro r1 g hl
    rw [lookup_assign] at hl
    split at hl
    · next e => rw [e]; exact par_of_some m1 r r c1.root_entry
    · exact hasRoot_root _ r1 r1 (c1.hasRoot r1 r1 (hasRoot_self m r1 (hG.rootKey r1 g hl)))
  · intro r1 g j hl hj
    rw [lookup_assign] at hl
    split at hl
    · next e =>
      simp only [Option.some.injEq] at hl
      subst hl
      subst e
      rcases (mem_setInsert _ _ _).1 hj with e1 | hj
      · subst e1
        exact ⟨List.mem_append_right _ (List.mem_singleton_self _), c1.hasRoot _ _ c1.root⟩
      · obtain ⟨h1, h2⟩ := hold j hj
        exact ⟨List.mem_append_left _ h1, c1.hasRoot j _ h2⟩
    · obtain ⟨h1, h2⟩ := hG.member r1 g j hl hj
      exact ⟨List.mem_append_left _ h1, c1.hasRoot j r1 h2⟩
  · intro j hj r1 hr1
    have hr0 : HasRoot m j r1 := c1.hasRoot_inv hf j r1 hr1
    rw [lookup_assign]
    rcases List.mem_append.1 hj with hjd | hjk
    · obtain ⟨g0, hg0, hjg⟩ := hG.cover j hjd r1 hr0
      split
      · next e =>
        refine ⟨_, rfl, (mem_setInsert _ _ _).2 (Or.inr ?_)⟩
        rw [← e, hg0]
        exact hjg
      · exact ⟨g0, hg0, hjg⟩
    · rw [List.mem_singleton] at hjk
      subst hjk
      have e : r1 = r := hasRoot_unique m j r1 r hr0 c1.root
      rw [if_pos e]
      exact ⟨_, rfl, (mem_setInsert _ _ _).2 (Or.inl rfl)⟩
  · intro r1 g hl
    rw [lookup_assign] at hl
    split at hl
    · simp only [Option.some.injEq] at hl
      subst hl
      exact ⟨k, (mem_setInsert _ _ _).2 (Or.inl rfl)⟩
    · exact hG.nonempty r1 g hl

/-- The first loop of `displaySets` returns on a forest whose keys it visits; it moves no
key to another root, adds no key, and ends with the invariant on all visited keys. -/
theorem groupLoop_spec : ∀ (ks : List Int) (u : UnionFind) (sets : HashMap (List Int))
    (done : List Int), Forest u.parent → Grouped u.parent sets done →
    (∀ k, k ∈ ks → lookup u.parent k ≠ none) →
    ∃ u1 sets1, groupLoop ks u sets = some (u1, sets1) ∧ Forest u1.parent ∧
      Grouped u1.parent sets1 (done ++ ks) ∧
      (∀ z rz, HasRoot u1.parent z rz ↔ HasRoot u.parent z rz) ∧
      (∀ k, lookup u1.parent k ≠ none ↔ lookup u.parent k ≠ none) := by
  intro ks
  induction ks with
  | nil =>
    intro u sets done hf hG _
    refine ⟨u, sets, rfl, hf, ?_, fun _ _ => Iff.rfl, fun _ => Iff.rfl⟩
    rw [List.append_nil]
    exact hG
  | cons k ks ih =>
    intro u sets done hf hG hkeys
    obtain ⟨u1, r, h1, c1⟩ := find_total u hf k
    have hf1 := c1.forest hf
    have hk1 : ∀ j, lookup u1.parent j ≠ none ↔ lookup u.parent j ≠ none := by
      intro j
      rw [c1.keys_iff hf.1 j]
      constructor
      · rintro (h | h)
        · exact h
        · rw [h]; exact hkeys k (List.mem_cons_self _ _)
      · exact Or.inl
    obtain ⟨u2, sets2, h2, hf2, hG2, hr2, hk2⟩ := ih u1 _ (done ++ [k]) hf1
      (grouped_step _ _ sets done k r hf c1 hG)
      (fun j hj => (hk1 j).2 (hkeys j (List.mem_cons_of_mem _ hj)))
    refine ⟨u2, sets2, ?_, hf2, ?_, fun z rz => ?_, fun j => ?_⟩
    · simp [groupLoop, h1, h2]
    · rw [List.append_assoc, List.singleton_append] at hG2
      exact hG2
    · rw [hr2 z rz]
      exact ⟨c1.hasRoot_inv hf z rz, c1.hasRoot z rz⟩
    · rw [hk2 j, hk1 j]

/-- No group contains the root of another group, so the search for a parent group fails. -/
theorem searchParent_none (m : HashMap Int) (sets : HashMap (List Int)) (done : List Int)
    (hG : Grouped m sets done) (childRoot : Int) (hc : lookup sets childRoot ≠ none)
    (ps : List Int) : searchParent sets childRoot ps = -1 := by
  induction ps with
  | nil => rfl
  | cons p ps ih =>
    unfold searchParent
    rw [if_neg, ih]
    rintro ⟨hne, hmem⟩
    cases hl : lookup sets p with
    | none => simp [hl] at hmem
    | some g =>
      rw [hl] at hmem
      cases hl2 : lookup sets childRoot with
      | none => exact hc hl2
      | some g2 =>
        have h1 : HasRoot m childRoot p := (hG.member p g childRoot hl hmem).2
        have h2 : HasRoot m childRoot childRoot :=
          hasRoot_self m childRoot (hG.rootKey childRoot g2 hl2)
        exact hne (hasRoot_unique m childRoot p childRoot h1 h2)

/-- On a forest `displaySets` returns: its groups are the known keys bucketed by root, each
root lies in its own group only, and every group is printed as a top-level line. -/
theorem displaySets_spec (u : UnionFind) (hf : Forest u.parent) :
    ∃ u1 sets, groupLoop (u.parent.map Prod.fst) u [] = some (u1, sets) ∧
      u.displaySets = some (u1, sets.map (fun childSet => Line.topLevel childSet.2)) ∧
      Forest u1.parent ∧ Grouped u1.parent sets (u.parent.map Prod.fst) ∧
      (∀ z rz, HasRoot u1.parent z rz ↔ HasRoot u.parent z rz) ∧
      (∀ k, lookup u1.parent k ≠ none ↔ lookup u.parent k ≠ none) := by
  obtain ⟨u1, sets, h1, hf1, hG, hr, hk⟩ := groupLoop_spec (u.parent.map Prod.fst) u [] [] hf
    (grouped_nil _) (fun k hk => (mem_keys_iff _ k).1 hk)
  rw [List.nil_append] at hG
  refine ⟨u1, sets, h1, ?_, hf1, hG, hr, hk⟩
  unfold UnionFind.displaySets
  rw [h1]
  simp only [Option.some.injEq, Prod.mk.injEq, true_and]
  apply List.map_congr_left
  intro childSet hcs
  have hc : lookup sets childSet.1 ≠ none :=
    (mem_keys_iff sets childSet.1).1 (List.mem_map_of_mem Prod.fst hcs)
  rw [searchParent_none u1.parent sets _ hG childSet.1 hc]
  simp

/-- The lines printed by `displaySets` on a forest list every known key, and only those. -/
theorem displaySets_cover (u : UnionFind) (hf : Forest u.parent) :
    ∃ u1 out, u.displaySets = some (u1, out) ∧
      ∀ k, lookup u.parent k ≠ none ↔ ∃ l, l ∈ out ∧ k ∈ l.members := by
  obtain ⟨u1, sets, _, h2, _, hG, hr, _⟩ := displaySets_spec u hf
  refine ⟨u1, _, h2, fun k => ?_⟩
  constructor
  · intro hk
    obtain ⟨rk, hrk⟩ := ((forest_iff _).1 hf).2 k
    obtain ⟨g, hg, hkg⟩ := hG.cover k ((mem_keys_iff _ k).2 hk) rk ((hr k rk).2 hrk)
    exact ⟨Line.topLevel g, List.mem_map.2 ⟨(rk, g), mem_of_lookup sets rk g hg, rfl⟩, hkg⟩
  · rintro ⟨l, hl, hkl⟩
    obtain ⟨cs, hcs, rfl⟩ := List.mem_map.1 hl
    obtain ⟨r, g⟩ := cs
    have hlk := lookup_of_mem sets hG.nodupKeys r g hcs
    exact (mem_keys_iff _ k).1 (hG.member r g k hlk hkl).1

/-- C18 (`displaySets` never finds a parent group). In every reachable state `displaySets`
returns.  Its groups are the known keys bucketed by `find` root: every member of a group is
a known key whose root is the group's key, every known key lies in the group of its root,
no key lies in two groups, and each group's root lies in its own group.  So for every
group the search for a `parentRoot` ends with `-1`, whatever list of candidates it scans,
and every group is printed as a top-level line, none as `{child}--->{parent}`. -/
theorem display_top_level_only (u : UnionFind) (hu : Reachable u) :
    ∃ u1 sets, groupLoop (u.parent.map Prod.fst) u [] = some (u1, sets) ∧
      (∀ r g k, lookup sets r = some g → k ∈ g →
        lookup u.parent k ≠ none ∧ u.root k = some r) ∧
      (∀ k, lookup u.parent k ≠ none →
        ∃ r g, u.root k = some r ∧ lookup sets r = some g ∧ k ∈ g) ∧
      (∀ r p g g1 k, lookup sets r = some g → lookup sets p = some g1 → k ∈ g → k ∈ g1 →
        r = p) ∧
      (∀ r g, lookup sets r = some g → r ∈ g) ∧
      (∀ childRoot ps, lookup sets childRoot ≠ none → searchParent sets childRoot ps = -1) ∧
      u.displaySets = some (u1, sets.map (fun childSet => Line.topLevel childSet.2)) ∧
      (∀ l, l ∈ sets.map (fun childSet => Line.topLevel childSet.2) →
        ∀ c p, l ≠ Line.childOf c p) := by
  have hf := reachable_forest u hu
  obtain ⟨u1, sets, h1, h2, hf1, hG, hr, hk⟩ := displaySets_spec u hf
  have hmem : ∀ r g k, lookup sets r = some g → k ∈ g →
      lookup u.parent k ≠ none ∧ u.root k = some r := by
    intro r g k hl hkg
    obtain ⟨a, b⟩ := hG.member r g k hl hkg
    exact ⟨(mem_keys_iff _ k).1 a, (root_eq_some_iff _ _ _).2 ((hr k r).1 b)⟩
  have hcov : ∀ k, lookup u.parent k ≠ none →
      ∃ r g, u.root k = some r ∧ lookup sets r = some g ∧ k ∈ g := by
    intro k hkk
    obtain ⟨rk, hrk⟩ := ((forest_iff _).1 hf).2 k
    obtain ⟨g, hg, hkg⟩ := hG.cover k ((mem_keys_iff _ k).2 hkk) rk ((hr k rk).2 hrk)
    exact ⟨rk, g, (root_eq_some_iff _ _ _).2 hrk, hg, hkg⟩
  refine ⟨u1, sets, h1, hmem, hcov, ?_, ?_, ?_, h2, ?_⟩
  · intro r p g g1 k hl hl1 hkg hkg1
    exact hasRoot_unique _ k r p (hG.member r g k hl hkg).2 (hG.member p g1 k hl1 hkg1).2
  · intro r g hl
    obtain ⟨k, hkg⟩ := hG.nonempty r g hl
    obtain ⟨hkd, hkr⟩ := hG.member r g k hl hkg
    have hk1 : lookup u1.parent k ≠ none := (hk k).2 ((mem_keys_iff _ k).1 hkd)
    have hr1 : lookup u1.parent r ≠ none := hasRoot_isKey _ hf1 k r hk1 hkr
    have hrd : r ∈ u.parent.map Prod.fst := (mem_keys_iff _ r).2 ((hk r).1 hr1)
    obtain ⟨g1, hg1, hrg1⟩ := hG.cover r hrd r (hasRoot_self _ r (hG.rootKey r g hl))
    rw [hl] at hg1
    simp only [Option.some.injEq] at hg1
    rw [hg1]
    exact hrg1
  · intro childRoot ps hc
    exact searchParent_none u1.parent sets _ hG childRoot hc ps
  · intro l hl c p e
    obtain ⟨cs, _, rfl⟩ := List.mem_map.1 hl
    exact Line.noConfusion e

/-- Witness of C18 on the state left by the first batch of `main`, `[1, 2, 4, 6, 8, 9]`, and
a singleton `3`. -/
theorem display_top_level_only_witness :
    UnionFind.displaySets ⟨[(1, 8), (2, 4), (4, 6), (6, 8), (8, 9), (9, 9), (3, 3)]⟩ =
        some (⟨[(1, 9), (2, 9), (4, 9), (6, 9), (8, 9), (9, 9), (3, 3)]⟩,
          [Line.topLevel [1, 2, 4, 6, 8, 9], Line.topLevel [3]]) ∧
    ∃ u1 sets, groupLoop
        ((UnionFind.parent ⟨[(1, 2), (2, 2), (3, 3)]⟩).map Prod.fst)
        ⟨[(1, 2), (2, 2), (3, 3)]⟩ [] = some (u1, sets) ∧
      (∀ r g k, lookup sets r = some g → k ∈ g →
        lookup (UnionFind.parent ⟨[(1, 2), (2, 2), (3, 3)]⟩) k ≠ none ∧
          UnionFind.root ⟨[(1, 2), (2, 2), (3, 3)]⟩ k = some r) ∧
      (∀ k, lookup (UnionFind.parent ⟨[(1, 2), (2, 2), (3, 3)]⟩) k ≠ none →
        ∃ r g, UnionFind.root ⟨[(1, 2), (2, 2), (3, 3)]⟩ k = some r ∧
          lookup sets r = some g ∧ k ∈ g) ∧
      (∀ r p g g1 k, lookup sets r = some g → lookup sets p = some g1 → k ∈ g → k ∈ g1 →
        r = p) ∧
      (∀ r g, lookup sets r = some g → r ∈ g) ∧
      (∀ childRoot ps, lookup sets childRoot ≠ none → searchParent sets childRoot ps = -1) ∧
      UnionFind.displaySets ⟨[(1, 2), (2, 2), (3, 3)]⟩ =
        some (u1, sets.map (fun childSet => Line.topLevel childSet.2)) ∧
      (∀ l, l ∈ sets.map (fun childSet => Line.topLevel childSet.2) →
        ∀ c p, l ≠ Line.childOf c p) :=
  ⟨by decide,
   display_top_level_only ⟨[(1, 2), (2, 2), (3, 3)]⟩
    (@Reachable.find ⟨[(1, 2), (2, 2)]⟩ ⟨[(1, 2), (2, 2), (3, 3)]⟩ 3 3
      (@Reachable.unionSets UnionFind.empty ⟨[(1, 2), (2, 2)]⟩ 1 2 Reachable.empty (by decide))
      (by decide))⟩

/-- C17 (store and union-find agree on the key universe). In every manager state reachable
from a fresh manager by `addSet` calls, for either variant, the keys of the parent map are
exactly the keys of the membership store; `find` on a key that is not present returns that
key and only adds `parent[k] = k`; and `display` returns, the groups it prints listing
exactly the present keys. -/
theorem store_agrees_with_union_find :
    (∀ (m : CollectionManagerRBTree), CollectionManagerRBTree.Reachable m →
      (∀ k, k ∈ m.rbTree ↔ lookup m.unionFind.parent k ≠ none) ∧
      (∀ k, k ∉ m.rbTree →
        m.unionFind.find k = some (⟨assign m.unionFind.parent k k⟩, k)) ∧
      ∃ m1 out, m.display = some (m1, m.rbTree, out) ∧
        ∀ k, k ∈ m.rbTree ↔ ∃ l, l ∈ out ∧ k ∈ l.members) ∧
    (∀ (m : CollectionManagerBDD), CollectionManagerBDD.Reachable m →
      (∀ k, lookup m.bddData k ≠ none ↔ lookup m.unionFind.parent k ≠ none) ∧
      (∀ k, lookup m.bddData k = none →
        m.unionFind.find k = some (⟨assign m.unionFind.parent k k⟩, k)) ∧
      ∃ m1 out, m.display = some (m1, m.bddData, out) ∧
        ∀ k, lookup m.bddData k ≠ none ↔ ∃ l, l ∈ out ∧ k ∈ l.members) := by
  constructor
  · intro m hm
    obtain ⟨hf, hkeys⟩ := rbTree_reachable_inv m hm
    refine ⟨hkeys, fun k hk => ?_, ?_⟩
    · apply find_absent
      by_contra hc
      exact hk ((hkeys k).2 hc)
    · obtain ⟨u1, out, h1, h2⟩ := displaySets_cover m.unionFind hf
      exact ⟨⟨u1, m.rbTree⟩, out, by simp [CollectionManagerRBTree.display, h1],
        fun k => by rw [hkeys k, h2 k]⟩
  · intro m hm
    obtain ⟨hf, hkeys⟩ := bdd_reachable_inv m hm
    refine ⟨hkeys, fun k hk => ?_, ?_⟩
    · apply find_absent
      by_contra hc
      exact (hkeys k).2 hc hk
    · obtain ⟨u1, out, h1, h2⟩ := displaySets_cover m.unionFind hf
      exact ⟨⟨u1, m.bddData⟩, out, by simp [CollectionManagerBDD.display, h1],
        fun k => by rw [hkeys k, h2 k]⟩

/-- Witness of C17 on the managers reached by `addSet([1, 2])`. -/
theorem store_agrees_with_union_find_witness :
    ((∀ k, k ∈ ([1, 2] : List Int) ↔
        lookup (UnionFind.parent ⟨[(1, 2), (2, 2)]⟩) k ≠ none) ∧
      (∀ k, k ∉ ([1, 2] : List Int) →
        UnionFind.find ⟨[(1, 2), (2, 2)]⟩ k =
          some (⟨assign (UnionFind.parent ⟨[(1, 2), (2, 2)]⟩) k k⟩, k)) ∧
      ∃ m1 out, CollectionManagerRBTree.display ⟨⟨[(1, 2), (2, 2)]⟩, [1, 2]⟩ =
          some (m1, [1, 2], out) ∧
        ∀ k, k ∈ ([1, 2] : List Int) ↔ ∃ l, l ∈ out ∧ k ∈ l.members) ∧
    ((∀ k, lookup ([(1, true), (2, true)] : HashMap Bool) k ≠ none ↔
        lookup (UnionFind.parent ⟨[(1, 2), (2, 2)]⟩) k ≠ none) ∧
      (∀ k, lookup ([(1, true), (2, true)] : HashMap Bool) k = none →
        UnionFind.find ⟨[(1, 2), (2, 2)]⟩ k =
          some (⟨assign (UnionFind.parent ⟨[(1, 2), (2, 2)]⟩) k k⟩, k)) ∧
      ∃ m1 out, CollectionManagerBDD.display ⟨⟨[(1, 2), (2, 2)]⟩, [(1, true), (2, true)]⟩ =
          some (m1, [(1, true), (2, true)], out) ∧
        ∀ k, lookup ([(1, true), (2, true)] : HashMap Bool) k ≠ none ↔
          ∃ l, l ∈ out ∧ k ∈ l.members) :=
  ⟨store_agrees_with_union_find.1 ⟨⟨[(1, 2), (2, 2)]⟩, [1, 2]⟩
      (@CollectionManagerRBTree.Reachable.addSet CollectionManagerRBTree.fresh
        ⟨⟨[(1, 2), (2, 2)]⟩, [1, 2]⟩ [1, 2] CollectionManagerRBTree.Reachable.fresh (by decide)),
   store_agrees_with_union_find.2 ⟨⟨[(1, 2), (2, 2)]⟩, [(1, true), (2, true)]⟩
      (@CollectionManagerBDD.Reachable.addSet CollectionManagerBDD.fresh
        ⟨⟨[(1, 2), (2, 2)]⟩, [(1, true), (2, true)]⟩ [1, 2]
        CollectionManagerBDD.Reachable.fresh (by decide))⟩

/-! ## Batches that share no key -/

theorem par_start (m0 : CollectionManagerRBTree) (h : m0.Inv) :
    Par m0 ⟨m0, -1, []⟩ ⟨CollectionManagerRBTree.fresh, -1, []⟩ :=
  ⟨Frame.start m0 h, Frame.start _ rbTree_inv_fresh, rfl,
    fun k => by simp [CollectionManagerRBTree.fresh],
    fun j hj => by simp [CollectionManagerRBTree.fresh] at hj⟩

/-- One iteration on a key that is not in `m0` keeps the two runs in step. -/
theorem par_step {m0 : CollectionManagerRBTree} {s t : LoopRB} (hP : Par m0 s t) (elem : Int)
    (h0 : elem ∉ m0.rbTree) :
    ∃ s1 t1, CollectionManagerRBTree.addSetStep s elem = some s1 ∧
      CollectionManagerRBTree.addSetStep t elem = some t1 ∧ Par m0 s1 t1 ∧
      (∀ k, k ∈ s1.mgr.rbTree ↔ (k ∈ s.mgr.rbTree ∨ k = elem)) := by
  obtain ⟨s1, hs1, hFs, hks⟩ := hP.frameS.step elem
  obtain ⟨t1, ht1, hFt, hkt⟩ := hP.frameT.step elem
  refine ⟨s1, t1, hs1, ht1, ?_, hks⟩
  have hiff : elem ∈ t.mgr.rbTree ↔ elem ∈ s.mgr.rbTree := by
    rw [hP.keys elem]
    exact ⟨fun h => h.1, fun h => ⟨h, h0⟩⟩
  by_cases hmem : elem ∈ s.mgr.rbTree
  · rw [rbTree_addSetStep_dup s elem hmem] at hs1
    rw [rbTree_addSetStep_dup t elem (hiff.2 hmem)] at ht1
    simp only [Option.some.injEq] at hs1 ht1
    subst hs1
    subst ht1
    exact hP
  · have hmemt : elem ∉ t.mgr.rbTree := fun h => hmem (hiff.1 h)
    obtain ⟨ufs, rxs, hsteps, hls⟩ := rbTree_addSetStep_new s elem hP.frameS.inv hmem
    obtain ⟨uft, rxt, hstept, hlt⟩ := rbTree_addSetStep_new t elem hP.frameT.inv hmemt
    rw [hsteps] at hs1
    rw [hstept] at ht1
    simp only [Option.some.injEq] at hs1 ht1
    subst hs1
    subst ht1
    rw [← hP.fnd] at hlt
    have hrep : (if s.firstNonDuplicate = -1 then elem else s.firstNonDuplicate) = elem ∨
        (if s.firstNonDuplicate = -1 then elem else s.firstNonDuplicate) ∈ t.mgr.rbTree := by
      split
      · exact Or.inl rfl
      · next hne =>
        rcases hP.frameT.fnd with h | h
        · rw [← hP.fnd] at h; exact absurd h hne
        · rw [← hP.fnd] at h; exact Or.inr h.1
    have hfe : (if s.firstNonDuplicate = -1 then elem else s.firstNonDuplicate) =
        (if t.firstNonDuplicate = -1 then elem else t.firstNonDuplicate) := by rw [hP.fnd]
    generalize (if s.firstNonDuplicate = -1 then elem else s.firstNonDuplicate) = rep at *
    have habss : lookup s.mgr.unionFind.parent elem = none := by
      by_contra hc
      exact hmem ((hP.frameS.inv.2 elem).2 hc)
    have habst : lookup t.mgr.unionFind.parent elem = none := by
      by_contra hc
      exact hmemt ((hP.frameT.inv.2 elem).2 hc)
    have hrx : rxs = rxt := by
      rcases hrep with e | hin
      · subst e
        rw [hasRoot_unique _ _ rxs _ hls.rootX (hasRoot_of_absent _ _ habss),
          hasRoot_unique _ _ rxt _ hlt.rootX (hasRoot_of_absent _ _ habst)]
      · exact hasRoot_unique _ rep rxs rxt hls.rootX (hP.roots rep hin rxt hlt.rootX)
    subst hrx
    refine ⟨hFs, hFt, ?_, fun k => ?_, fun j hj r hr => ?_⟩
    · exact hfe
    · show k ∈ setInsert t.mgr.rbTree elem ↔ (k ∈ setInsert s.mgr.rbTree elem ∧ k ∉ m0.rbTree)
      rw [mem_setInsert, mem_setInsert, hP.keys k]
      constructor
      · rintro (e | ⟨h1, h2⟩)
        · exact ⟨Or.inl e, e ▸ h0⟩
        · exact ⟨Or.inr h1, h2⟩
      · rintro ⟨e | h1, h2⟩
        · exact Or.inl e
        · exact Or.inr ⟨h1, h2⟩
    · change j ∈ setInsert t.mgr.rbTree elem at hj
      change HasRoot uft.parent j r at hr
      show HasRoot ufs.parent j r
      rcases (mem_setInsert _ _ _).1 hj with e | hjt
      · subst e
        have h1 := hlt.hasRoot j j (hasRoot_of_absent _ j habst)
        have h2 := hls.hasRoot j j (hasRoot_of_absent _ j habss)
        rw [hasRoot_unique _ j r _ hr h1]
        exact h2
      · obtain ⟨rj, hrj⟩ := ((forest_iff _).1 hP.frameT.inv.1).2 j
        have h1 := hlt.hasRoot j rj hrj
        have h2 := hls.hasRoot j rj (hP.roots j hjt rj hrj)
        rw [hasRoot_unique _ j r _ hr h1]
        exact h2

theorem par_loop {m0 : CollectionManagerRBTree} (batch : List Int)
    (h0 : ∀ k, k ∈ batch → k ∉ m0.rbTree) : ∀ s t : LoopRB, Par m0 s t →
    ∃ s1 t1, CollectionManagerRBTree.addSetLoop s batch = some s1 ∧
      CollectionManagerRBTree.addSetLoop t batch = some t1 ∧ Par m0 s1 t1 ∧
      (∀ k, k ∈ s1.mgr.rbTree ↔ (k ∈ s.mgr.rbTree ∨ k ∈ batch)) := by
  induction batch with
  | nil =>
    intro s t hP
    exact ⟨s, t, rfl, rfl, hP, fun k => by simp⟩
  | cons elem rest ih =>
    intro s t hP
    obtain ⟨s1, t1, hs1, ht1, hP1, hk1⟩ := par_step hP elem (h0 elem (List.mem_cons_self _ _))
    obtain ⟨s2, t2, hs2, ht2, hP2, hk2⟩ :=
      ih (fun k hk => h0 k (List.mem_cons_of_mem _ hk)) s1 t1 hP1
    refine ⟨s2, t2, ?_, ?_, hP2, fun k => ?_⟩
    · rw [rbTree_addSetLoop_cons, hs1]; exact hs2
    · rw [rbTree_addSetLoop_cons, ht1]; exact ht2
    · rw [hk2 k, hk1 k, List.mem_cons]
      tauto

/-- The groups after a batch that shares no key with the store: the groups before, and the
groups the batch forms on its own. -/
theorem addSet_disjoint (m : CollectionManagerRBTree) (hi : m.Inv) (batch : List Int)
    (h0 : ∀ k, k ∈ batch → k ∉ m.rbTree) :
    ∃ m1, m.addSet batch = some m1 ∧ m1.Inv ∧
      (∀ k, k ∈ m1.rbTree ↔ (k ∈ m.rbTree ∨ k ∈ batch)) ∧
      ∀ j k, SameGroup m1 j k ↔ (SameGroup m j k ∨ InBatchGroup batch j k) := by
  obtain ⟨s1, t1, hs1, ht1, hP, hk⟩ := par_loop batch h0 _ _ (par_start m hi)
  have hadd : m.addSet batch = some s1.mgr := by simp [CollectionManagerRBTree.addSet, hs1]
  have haddt : CollectionManagerRBTree.addSet CollectionManagerRBTree.fresh batch =
      some t1.mgr := by simp [CollectionManagerRBTree.addSet, ht1]
  refine ⟨s1.mgr, hadd, hP.frameS.inv, hk, fun j k => ?_⟩
  have hInB : InBatchGroup batch j k ↔ SameGroup t1.mgr j k := by
    constructor
    · rintro ⟨m2, h2, hS⟩
      rw [haddt] at h2
      simp only [Option.some.injEq] at h2
      rw [h2]
      exact hS
    · intro hS
      exact ⟨t1.mgr, haddt, hS⟩
  rw [hInB]
  have hfs := hP.frameS.inv.1
  have hft := hP.frameT.inv.1
  -- roots of new keys are those of the fresh run, roots of old keys those of `m`
  have hnew : ∀ z, z ∈ t1.mgr.rbTree → s1.mgr.unionFind.root z = t1.mgr.unionFind.root z := by
    intro z hz
    obtain ⟨rz, hrz⟩ := ((forest_iff _).1 hft).2 z
    rw [(root_eq_some_iff _ _ _).2 hrz, (root_eq_some_iff _ _ _).2 (hP.roots z hz rz hrz)]
  have hold : ∀ z, z ∈ m.rbTree → s1.mgr.unionFind.root z = m.unionFind.root z := by
    intro z hz
    obtain ⟨rz, hrz⟩ := ((forest_iff _).1 hi.1).2 z
    rw [(root_eq_some_iff _ _ _).2 hrz,
      (root_eq_some_iff _ _ _).2 (hP.frameS.oldRoot z hz rz hrz)]
  have hsep : ∀ a b, a ∈ m.rbTree → b ∈ t1.mgr.rbTree →
      s1.mgr.unionFind.root a ≠ s1.mgr.unionFind.root b := by
    intro a b ha hb e
    obtain ⟨ra, hra⟩ := ((forest_iff _).1 hfs).2 a
    have hb1 := (hP.keys b).1 hb
    rw [(root_eq_some_iff _ _ _).2 hra] at e
    exact hP.frameS.newSep a ha b hb1.1 hb1.2 ra hra ((root_eq_some_iff _ _ _).1 e.symm)
  have hcase : ∀ z, z ∈ s1.mgr.rbTree → (z ∈ m.rbTree ∧ z ∉ t1.mgr.rbTree) ∨
      (z ∈ t1.mgr.rbTree ∧ z ∉ m.rbTree) := by
    intro z hz
    by_cases hzm : z ∈ m.rbTree
    · exact Or.inl ⟨hzm, fun h => ((hP.keys z).1 h).2 hzm⟩
    · exact Or.inr ⟨(hP.keys z).2 ⟨hz, hzm⟩, hzm⟩
  constructor
  · rintro ⟨hj, hkk, hr⟩
    rcases hcase j hj with ⟨hjm, _⟩ | ⟨hjt, _⟩ <;> rcases hcase k hkk with ⟨hkm, _⟩ | ⟨hkt, _⟩
    · exact Or.inl ⟨hjm, hkm, by rw [← hold j hjm, ← hold k hkm]; exact hr⟩
    · exact absurd hr (hsep j k hjm hkt)
    · exact absurd hr.symm (hsep k j hkm hjt)
    · exact Or.inr ⟨hjt, hkt, by rw [← hnew j hjt, ← hnew k hkt]; exact hr⟩
  · rintro (⟨hj, hkk, hr⟩ | ⟨hj, hkk, hr⟩)
    · exact ⟨hP.frameS.mono j hj, hP.frameS.mono k hkk, by rw [hold j hj, hold k hkk]; exact hr⟩
    · exact ⟨((hP.keys j).1 hj).1, ((hP.keys k).1 hkk).1,
        by rw [hnew j hj, hnew k hkk]; exact hr⟩

/-- The groups after a sequence of batches that share no key with each other or with the
store: the groups before, and for each batch the groups it forms on its own. -/
theorem addSets_disjoint (batches : List (List Int)) : ∀ m : CollectionManagerRBTree, m.Inv →
    (∀ b, b ∈ batches → ∀ k, k ∈ b → k ∉ m.rbTree) → batches.Pairwise List.Disjoint →
    ∃ m1, CollectionManagerRBTree.addSets m batches = some m1 ∧ m1.Inv ∧
      (∀ k, k ∈ m1.rbTree ↔ (k ∈ m.rbTree ∨ ∃ b, b ∈ batches ∧ k ∈ b)) ∧
      ∀ j k, SameGroup m1 j k ↔ (SameGroup m j k ∨ ∃ b, b ∈ batches ∧ InBatchGroup b j k) := by
  induction batches with
  | nil =>
    intro m hi _ _
    exact ⟨m, rfl, hi, fun k => by simp, fun j k => by simp⟩
  | cons b bs ih =>
    intro m hi h0 hd
    rw [List.pairwise_cons] at hd
    obtain ⟨m1, h1, hi1, hk1, hg1⟩ := addSet_disjoint m hi b (h0 b (List.mem_cons_self _ _))
    have h01 : ∀ b1, b1 ∈ bs → ∀ k, k ∈ b1 → k ∉ m1.rbTree := by
      intro b1 hb1 k hk hm1
      rcases (hk1 k).1 hm1 with h | h
      · exact h0 b1 (List.mem_cons_of_mem _ hb1) k hk h
      · exact hd.1 b1 hb1 h hk
    obtain ⟨m2, h2, hi2, hk2, hg2⟩ := ih m1 hi1 h01 hd.2
    refine ⟨m2, ?_, hi2, fun k => ?_, fun j k => ?_⟩
    · simp [CollectionManagerRBTree.addSets, h1, h2]
    · rw [hk2 k, hk1 k]
      simp only [List.mem_cons, exists_eq_or_imp]
      tauto
    · rw [hg2 j k, hg1 j k]
      simp only [List.mem_cons, exists_eq_or_imp]
      tauto

/-- C19 (order independence for disjoint batches). For every finite list of pairwise
disjoint batches and every permutation of it, `addSet` applied batch by batch to a fresh
manager returns in both orders, with the same present keys and the same partition of the
present keys into groups: two keys have the same `find` root after one order exactly when
they have the same root after the other.  This holds for both variants. -/
theorem order_independence (batches perm : List (List Int))
    (hd : batches.Pairwise List.Disjoint) (hp : perm.Perm batches) :
    (∃ r r1, CollectionManagerRBTree.addSets CollectionManagerRBTree.fresh batches = some r ∧
      CollectionManagerRBTree.addSets CollectionManagerRBTree.fresh perm = some r1 ∧
      (∀ k, k ∈ r.rbTree ↔ k ∈ r1.rbTree) ∧
      ∀ j k, j ∈ r.rbTree → k ∈ r.rbTree →
        (r.unionFind.root j = r.unionFind.root k ↔
          r1.unionFind.root j = r1.unionFind.root k)) ∧
    (∃ d d1, CollectionManagerBDD.addSets CollectionManagerBDD.fresh batches = some d ∧
      CollectionManagerBDD.addSets CollectionManagerBDD.fresh perm = some d1 ∧
      (∀ k, lookup d.bddData k ≠ none ↔ lookup d1.bddData k ≠ none) ∧
      ∀ j k, lookup d.bddData j ≠ none → lookup d.bddData k ≠ none →
        (d.unionFind.root j = d.unionFind.root k ↔
          d1.unionFind.root j = d1.unionFind.root k)) := by
  have hd1 : perm.Pairwise List.Disjoint :=
    (List.Perm.pairwise_iff (fun h => List.Disjoint.symm h) hp).2 hd
  have hfresh : ∀ bs : List (List Int), ∀ b, b ∈ bs → ∀ k, k ∈ b →
      k ∉ CollectionManagerRBTree.fresh.rbTree := by
    intro _ _ _ k _ h
    simp [CollectionManagerRBTree.fresh] at h
  obtain ⟨r, h1, _, hk, hg⟩ := addSets_disjoint batches _ rbTree_inv_fresh (hfresh batches) hd
  obtain ⟨r1, h2, _, hk1, hg1⟩ := addSets_disjoint perm _ rbTree_inv_fresh (hfresh perm) hd1
  have hkeys : ∀ k, k ∈ r.rbTree ↔ k ∈ r1.rbTree := by
    intro k
    rw [hk k, hk1 k]
    constructor
    · rintro (h | ⟨b, hb, hkb⟩)
      · exact Or.inl h
      · exact Or.inr ⟨b, hp.mem_iff.2 hb, hkb⟩
    · rintro (h | ⟨b, hb, hkb⟩)
      · exact Or.inl h
      · exact Or.inr ⟨b, hp.mem_iff.1 hb, hkb⟩
  have hsame : ∀ j k, SameGroup r j k ↔ SameGroup r1 j k := by
    intro j k
    rw [hg j k, hg1 j k]
    constructor
    · rintro (h | ⟨b, hb, hb1⟩)
      · exact Or.inl h
      · exact Or.inr ⟨b, hp.mem_iff.2 hb, hb1⟩
    · rintro (h | ⟨b, hb, hb1⟩)
      · exact Or.inl h
      · exact Or.inr ⟨b, hp.mem_iff.1 hb, hb1⟩
  have hroots : ∀ j k, j ∈ r.rbTree → k ∈ r.rbTree →
      (r.unionFind.root j = r.unionFind.root k ↔
        r1.unionFind.root j = r1.unionFind.root k) := by
    intro j k hj hkk
    constructor
    · intro e
      exact ((hsame j k).1 ⟨hj, hkk, e⟩).2.2
    · intro e
      exact ((hsame j k).2 ⟨(hkeys j).1 hj, (hkeys k).1 hkk, e⟩).2.2
  refine ⟨⟨r, r1, h1, h2, hkeys, hroots⟩, ?_⟩
  obtain ⟨ra, d, h3, h4, hs, _⟩ := addSets_lockstep batches _ _ sim_fresh rbTree_inv_fresh
    markers_fresh
  obtain ⟨rb, d1, h5, h6, hs1, _⟩ := addSets_lockstep perm _ _ sim_fresh rbTree_inv_fresh
    markers_fresh
  rw [h1] at h3
  rw [h2] at h5
  simp only [Option.some.injEq] at h3 h5
  subst h3
  subst h5
  refine ⟨d, d1, h4, h6, fun k => ?_, fun j k hj hkk => ?_⟩
  · rw [← hs.2 k, ← hs1.2 k]
    exact hkeys k
  · rw [← hs.1, ← hs1.1]
    exact hroots j k ((hs.2 j).2 hj) ((hs.2 k).2 hkk)

/-- Witness of C19: the batches `[1, 2]`, `[3]`, `[-1, 5, 7]` in two orders. -/
theorem order_independence_witness :
    (∃ r r1, CollectionManagerRBTree.addSets CollectionManagerRBTree.fresh
        [[1, 2], [3], [-1, 5, 7]] = some r ∧
      CollectionManagerRBTree.addSets CollectionManagerRBTree.fresh
        [[-1, 5, 7], [1, 2], [3]] = some r1 ∧
      (∀ k, k ∈ r.rbTree ↔ k ∈ r1.rbTree) ∧
      ∀ j k, j ∈ r.rbTree → k ∈ r.rbTree →
        (r.unionFind.root j = r.unionFind.root k ↔
          r1.unionFind.root j = r1.unionFind.root k)) ∧
    (∃ d d1, CollectionManagerBDD.addSets CollectionManagerBDD.fresh
        [[1, 2], [3], [-1, 5, 7]] = some d ∧
      CollectionManagerBDD.addSets CollectionManagerBDD.fresh
        [[-1, 5, 7], [1, 2], [3]] = some d1 ∧
      (∀ k, lookup d.bddData k ≠ none ↔ lookup d1.bddData k ≠ none) ∧
      ∀ j k, lookup d.bddData j ≠ none → lookup d.bddData k ≠ none →
        (d.unionFind.root j = d.unionFind.root k ↔
          d1.unionFind.root j = d1.unionFind.root k)) :=
  order_independence [[1, 2], [3], [-1, 5, 7]] [[-1, 5, 7], [1, 2], [3]]
    (by simp [List.Disjoint]) (by decide)

/-! ## The index arithmetic of `benchmark` -/

theorem toInt32_natCast (k : Nat) (h : k < 2147483648) : toInt32 (k : Int) = (k : Int) := by
  unfold toInt32
  omega

theorem mul_div_le_of_le (n t i : Nat) (hi : i ≤ t) : i * (n / t) ≤ n :=
  Nat.le_trans (Nat.mul_le_mul_right _ hi) (Nat.mul_div_le n t)

theorem chunkSize_eq (n t : Nat) (hn : n < 2147483648) (ht2 : t < 2147483648) :
    chunkSize n (t : Int) = ((n / t : Nat) : Int) := by
  unfold chunkSize
  have h1 : ((t : Int) % 18446744073709551616) = (t : Int) := by omega
  have h2 : (n : Int) / (t : Int) = ((n / t : Nat) : Int) := by norm_cast
  rw [h1, h2]
  apply toInt32_natCast
  have := Nat.div_le_self n t
  omega

theorem startIdx_eq (n t i : Nat) (hn : n < 2147483648) (ht2 : t < 2147483648)
    (hi : i < t) : startIdx n (t : Int) (i : Int) = ((i * (n / t) : Nat) : Int) := by
  unfold startIdx
  rw [chunkSize_eq n t hn ht2]
  have h := mul_div_le_of_le n t i (Nat.le_of_lt hi)
  have h2 : (i : Int) * ((n / t : Nat) : Int) = ((i * (n / t) : Nat) : Int) := by norm_cast
  rw [h2]
  apply toInt32_natCast
  omega

theorem endIdx_eq_inner (n t i : Nat) (hn : n < 2147483648)
    (ht2 : t < 2147483648) (hi : i + 1 < t) :
    endIdx n (t : Int) (i : Int) = (((i + 1) * (n / t) : Nat) : Int) := by
  unfold endIdx
  rw [chunkSize_eq n t hn ht2]
  have h := mul_div_le_of_le n t (i + 1) (Nat.le_of_lt hi)
  have h1 : (t : Int) - 1 = ((t - 1 : Nat) : Int) := by omega
  have h3 : (i : Int) + 1 = ((i + 1 : Nat) : Int) := by omega
  have h2 : ((i + 1 : Nat) : Int) * ((n / t : Nat) : Int) = (((i + 1) * (n / t) : Nat) : Int) := by
    norm_cast
  have hne : ¬ (i : Int) = ((t - 1 : Nat) : Int) := by omega
  rw [h1, toInt32_natCast (t - 1) (by omega), if_neg hne, h3,
    toInt32_natCast (i + 1) (by omega), h2]
  apply toInt32_natCast
  omega

theorem endIdx_eq_last (n t : Nat) (hn : n < 2147483648) (ht : 1 ≤ t)
    (ht2 : t < 2147483648) : endIdx n (t : Int) ((t - 1 : Nat) : Int) = (n : Int) := by
  unfold endIdx
  have h1 : (t : Int) - 1 = ((t - 1 : Nat) : Int) := by omega
  rw [h1, toInt32_natCast (t - 1) (by omega), if_pos rfl]
  exact toInt32_natCast n hn

theorem threadIndices_eq (n : Nat) (T i : Int) (a len : Nat)
    (hs : startIdx n T i = (a : Int)) (he : endIdx n T i = ((a + len : Nat) : Int)) :
    threadIndices n T i = (List.range' a len).map (fun j : Nat => (j : Int)) := by
  unfold threadIndices
  rw [hs, he]
  have h1 : (((a + len : Nat) : Int) - (a : Int)).toNat = len := by
    push_cast
    omega
  rw [h1, List.range'_eq_map_range, List.map_map]
  apply List.map_congr_left
  intro k _
  simp

/-- The threads before the last one pass the indices below `k * chunkSize`, in order. -/
theorem inner_threads (n t : Nat) (hn : n < 2147483648) (ht2 : t < 2147483648) :
    ∀ k : Nat, k + 1 ≤ t →
    (List.range k).flatMap (fun i : Nat => threadIndices n (t : Int) (i : Int)) =
      (List.range (k * (n / t))).map (fun j : Nat => (j : Int)) := by
  intro k
  induction k with
  | zero => intro _; simp
  | succ k ih =>
    intro hk
    have e := threadIndices_eq n (t : Int) (k : Int) (k * (n / t)) (n / t)
      (startIdx_eq n t k hn ht2 (by omega))
      (by rw [endIdx_eq_inner n t k hn ht2 (by omega)]; congr 1; ring)
    rw [List.range_succ, List.flatMap_append, List.flatMap_singleton, ih (by omega), e,
      ← List.map_append]
    congr 1
    have happ := List.range'_append_1 0 (k * (n / t)) (n / t)
    rw [Nat.zero_add] at happ
    rw [List.range_eq_range', List.range_eq_range', happ]
    congr 1
    ring

/-- The indices passed to `addSet` by all threads, thread by thread, are `0, …, n - 1`. -/
theorem benchmarkIndices_eq (n t : Nat) (hn : n < 2147483648) (ht : 1 ≤ t)
    (ht2 : t < 2147483648) :
    benchmarkIndices n (t : Int) = (List.range n).map (fun j : Nat => (j : Int)) := by
  unfold benchmarkIndices
  have h := mul_div_le_of_le n t (t - 1) (Nat.sub_le t 1)
  have e := threadIndices_eq n (t : Int) ((t - 1 : Nat) : Int) ((t - 1) * (n / t))
    (n - (t - 1) * (n / t)) (startIdx_eq n t (t - 1) hn ht2 (by omega))
    (by rw [endIdx_eq_last n t hn ht ht2]; congr 1; omega)
  have ht1 : (t : Int).toNat = (t - 1) + 1 := by simp; omega
  rw [ht1, List.range_succ, List.flatMap_append, List.flatMap_singleton,
    inner_threads n t hn ht2 (t - 1) (by omega), e, ← List.map_append]
  congr 1
  have happ := List.range'_append_1 0 ((t - 1) * (n / t)) (n - (t - 1) * (n / t))
  rw [Nat.zero_add] at happ
  rw [List.range_eq_range', List.range_eq_range', happ]
  congr 1
  omega

theorem mem_threadIndices (n : Nat) (T i j : Int) :
    j ∈ threadIndices n T i ↔ (startIdx n T i ≤ j ∧ j < endIdx n T i) := by
  unfold threadIndices
  rw [List.mem_map]
  constructor
  · rintro ⟨k, hk, rfl⟩
    rw [List.mem_range] at hk
    omega
  · rintro ⟨h1, h2⟩
    refine ⟨(j - startIdx n T i).toNat, ?_, ?_⟩
    · rw [List.mem_range]
      omega
    · omega

/-- C20, as amended (harness chunking covers every batch exactly once). For every number of
batches `n ≤ INT_MAX` and every `int numThreads ≥ 1`: `chunkSize` is `n / numThreads`; thread
`i` scans exactly the indices `startIdx ≤ j < endIdx`; the ranges are contiguous (the first
starts at `0`, each inner one ends where the next starts, the last ends at `n`); taken thread
by thread the indices scanned are `0, …, n - 1` in order; two different threads scan no
common index; and each index below `n` is scanned exactly once. -/
theorem chunking_covers (n : Nat) (numThreads : Int) (hn : n < 2147483648)
    (h1 : 1 ≤ numThreads) (h2 : numThreads < 2147483648) :
    chunkSize n numThreads = (n : Int) / numThreads ∧
    (∀ i j : Int, j ∈ threadIndices n numThreads i ↔
      (startIdx n numThreads i ≤ j ∧ j < endIdx n numThreads i)) ∧
    startIdx n numThreads 0 = 0 ∧
    (∀ i : Int, 0 ≤ i → i < numThreads →
      startIdx n numThreads i = i * ((n : Int) / numThreads)) ∧
    (∀ i : Int, 0 ≤ i → i < numThreads - 1 →
      endIdx n numThreads i = (i + 1) * ((n : Int) / numThreads) ∧
      endIdx n numThreads i = startIdx n numThreads (i + 1)) ∧
    endIdx n numThreads (numThreads - 1) = (n : Int) ∧
    benchmarkIndices n numThreads = (List.range n).map (fun j : Nat => (j : Int)) ∧
    (∀ j : Int, (∃ i : Int, 0 ≤ i ∧ i < numThreads ∧ j ∈ threadIndices n numThreads i) ↔
      (0 ≤ j ∧ j < (n : Int))) ∧
    (∀ i k j : Int, 0 ≤ i → i < k → k < numThreads → j ∈ threadIndices n numThreads i →
      j ∉ threadIndices n numThreads k) ∧
    (∀ j : Nat, j < n → (benchmarkIndices n numThreads).count (j : Int) = 1) := by
  obtain ⟨t, rfl⟩ := Int.eq_ofNat_of_zero_le (by omega : 0 ≤ numThreads)
  have ht : 1 ≤ t := by omega
  have ht2 : t < 2147483648 := by omega
  have hdiv : (n : Int) / (t : Int) = ((n / t : Nat) : Int) := (Int.ofNat_ediv n t).symm
  have hstart : ∀ i : Int, 0 ≤ i → i < (t : Int) →
      startIdx n (t : Int) i = i * ((n : Int) / (t : Int)) := by
    intro i hi0 hit
    obtain ⟨k, rfl⟩ := Int.eq_ofNat_of_zero_le hi0
    rw [startIdx_eq n t k hn ht2 (by omega), hdiv]
    push_cast
    rfl
  have hend : ∀ i : Int, 0 ≤ i → i < (t : Int) - 1 →
      endIdx n (t : Int) i = (i + 1) * ((n : Int) / (t : Int)) := by
    intro i hi0 hit
    obtain ⟨k, rfl⟩ := Int.eq_ofNat_of_zero_le hi0
    rw [endIdx_eq_inner n t k hn ht2 (by omega), hdiv]
    push_cast
    rfl
  have hlast : endIdx n (t : Int) ((t : Int) - 1) = (n : Int) := by
    have e : (t : Int) - 1 = ((t - 1 : Nat) : Int) := by omega
    rw [e]
    exact endIdx_eq_last n t hn ht ht2
  have hall := benchmarkIndices_eq n t hn ht ht2
  have hcs0 : (0 : Int) ≤ (n : Int) / (t : Int) := by rw [hdiv]; exact Int.ofNat_zero_le _
  -- the start of a thread is at least the end of every earlier thread
  have hmono : ∀ i k : Int, 0 ≤ i → i < k → k < (t : Int) →
      endIdx n (t : Int) i ≤ startIdx n (t : Int) k := by
    intro i k hi0 hik hkt
    rw [hend i hi0 (by omega), hstart k (by omega) hkt]
    exact Int.mul_le_mul_of_nonneg_right (by omega) hcs0
  have hmemAll : ∀ j : Int, j ∈ benchmarkIndices n (t : Int) ↔
      ∃ i : Int, 0 ≤ i ∧ i < (t : Int) ∧ j ∈ threadIndices n (t : Int) i := by
    intro j
    unfold benchmarkIndices
    rw [List.mem_flatMap]
    constructor
    · rintro ⟨i, hi, hj⟩
      rw [List.mem_range] at hi
      exact ⟨(i : Int), by omega, by simp at hi ⊢; omega, hj⟩
    · rintro ⟨i, hi0, hit, hj⟩
      obtain ⟨k, rfl⟩ := Int.eq_ofNat_of_zero_le hi0
      exact ⟨k, by rw [List.mem_range]; simp; omega, hj⟩
  have hnd : (benchmarkIndices n (t : Int)).Nodup := by
    rw [hall]
    exact (List.nodup_range n).map (fun a b h => by exact_mod_cast h)
  refine ⟨by rw [chunkSize_eq n t hn ht2, hdiv], mem_threadIndices n (t : Int), ?_, hstart,
    ?_, hlast, hall, ?_, ?_, ?_⟩
  · rw [hstart 0 (le_refl 0) (by omega)]
    simp
  · intro i hi0 hit
    refine ⟨hend i hi0 hit, ?_⟩
    rw [hend i hi0 hit, hstart (i + 1) (by omega) (by omega)]
  · intro j
    rw [← hmemAll j, hall, List.mem_map]
    constructor
    · rintro ⟨k, hk, rfl⟩
      rw [List.mem_range] at hk
      omega
    · rintro ⟨hj0, hjn⟩
      obtain ⟨k, rfl⟩ := Int.eq_ofNat_of_zero_le hj0
      exact ⟨k, by rw [List.mem_range]; omega, rfl⟩
  · intro i k j hi0 hik hkt hji hjk
    have a := (mem_threadIndices n (t : Int) i j).1 hji
    have b := (mem_threadIndices n (t : Int) k j).1 hjk
    have c := hmono i k hi0 hik hkt
    omega
  · intro j hj
    apply List.count_eq_one_of_mem hnd
    rw [hall, List.mem_map]
    exact ⟨j, by rw [List.mem_range]; exact hj, rfl⟩

/-- Witness of C20 as amended: the five batches and four threads of `main`. -/
theorem chunking_covers_witness :
    chunkSize 5 4 = ((5 : Nat) : Int) / 4 ∧
    (∀ i j : Int, j ∈ threadIndices 5 4 i ↔ (startIdx 5 4 i ≤ j ∧ j < endIdx 5 4 i)) ∧
    startIdx 5 4 0 = 0 ∧
    (∀ i : Int, 0 ≤ i → i < 4 → startIdx 5 4 i = i * (((5 : Nat) : Int) / 4)) ∧
    (∀ i : Int, 0 ≤ i → i < 4 - 1 →
      endIdx 5 4 i = (i + 1) * (((5 : Nat) : Int) / 4) ∧
      endIdx 5 4 i = startIdx 5 4 (i + 1)) ∧
    endIdx 5 4 (4 - 1) = ((5 : Nat) : Int) ∧
    benchmarkIndices 5 4 = (List.range 5).map (fun j : Nat => (j : Int)) ∧
    (∀ j : Int, (∃ i : Int, 0 ≤ i ∧ i < 4 ∧ j ∈ threadIndices 5 4 i) ↔
      (0 ≤ j ∧ j < ((5 : Nat) : Int))) ∧
    (∀ i k j : Int, 0 ≤ i → i < k → k < 4 → j ∈ threadIndices 5 4 i →
      j ∉ threadIndices 5 4 k) ∧
    (∀ j : Nat, j < 5 → (benchmarkIndices 5 4).count (j : Int) = 1) :=
  chunking_covers 5 4 (by decide) (by decide) (by decide)

/-- C20 as stated fails for `n = 2^31` batches and one thread: `sets.size()` converted to
`int` is `-2^31`, so `endIdx` is negative, the only thread scans no index, and batch `0` is
never passed to `addSet`. -/
theorem chunking_overflow :
    endIdx 2147483648 1 0 = -2147483648 ∧ startIdx 2147483648 1 0 = 0 ∧
    benchmarkIndices 2147483648 1 = [] ∧
    ¬ ((∃ i : Int, 0 ≤ i ∧ i < 1 ∧ (0 : Int) ∈ threadIndices 2147483648 1 i) ↔
      ((0 : Int) ≤ 0 ∧ (0 : Int) < ((2147483648 : Nat) : Int))) := by
  refine ⟨by decide, by decide, by decide, ?_⟩
  intro h
  obtain ⟨i, hi0, hi1, hmem⟩ := h.2 ⟨le_refl 0, by decide⟩
  have hi : i = 0 := by omega
  subst hi
  revert hmem
  decide

end UF
